import Mathlib

/-!
Verification of the buffer-preprocessor compression core: a shallow embedding of
the bitstream, the LZSS codec, the RLE codec and the parameter-search driver
(files bitstream.py, compress.py and utilities.py of the repository), together
with proofs and refutations of the specified properties.

Bytes are modelled as natural numbers; Python byte strings become lists of
naturals; Python ints that can be negative (back-reference offsets, the
value passed to Bitstream.append) become Lean integers.  Python arithmetic
right shift and masking on possibly negative values is floor division and
Euclidean remainder, which is what Lean's Int division and modulus compute.
-/

namespace BufferProc

/-! ### Bit-level helpers (abstraction layer for proofs) -/

/-- The value of a single bit. -/
def bitVal (b : Bool) : Nat := if b then 1 else 0

/-- MSB-first list of the low `count` bits of a natural number. -/
def natBits (count value : Nat) : List Bool :=
  (List.range count).map (fun i => value.testBit (count - 1 - i))

/-- Python expression `(value >> k) & 1` for an arbitrary (possibly negative)
integer: arithmetic shift, i.e. floor division by a power of two. -/
def intBitAt (value : Int) (k : Nat) : Nat := ((value / ((2 : Int)) ^ k) % 2).toNat

/-- MSB-first list of bits `count-1, …, 0` of an integer, two's complement. -/
def intBits (value : Int) : Nat → List Bool
  | 0 => []
  | n + 1 => (intBitAt value n == 1) :: intBits value n

/-- Python expression `value mod 2^count` as a natural number. -/
def intMask (count : Nat) (value : Int) : Nat := (value % ((2 : Int)) ^ count).toNat

/-- Accumulating MSB-first bits-to-number fold, matching the read loop of the
bitstream: `value = (value << 1) | bit` per bit. -/
def bitsFoldAcc (v : Nat) (l : List Bool) : Nat :=
  l.foldl (fun a b => 2 * a + bitVal b) v

/-- MSB-first bits-to-number conversion. -/
def bitsToNat (l : List Bool) : Nat := bitsFoldAcc 0 l

/-- The eight bits of a byte, MSB first. -/
def byteBits (b : Nat) : List Bool := natBits 8 b

/-- All bits of a byte list, MSB first within each byte. -/
def bytesBits : List Nat → List Bool
  | [] => []
  | b :: rest => byteBits b ++ bytesBits rest

/-! ### Embedding of bitstream.py -/

/-- State of `Bitstream` (bitstream.py): a byte buffer, a read cursor in bits,
and a partial write byte holding `write_position` bits in its low part. -/
structure Bitstream where
  buffer : List Nat
  read_position : Nat
  write_position : Nat
  current_byte : Nat
  deriving Repr, DecidableEq

/-- A freshly constructed `Bitstream()`. -/
def Bitstream.empty : Bitstream := ⟨[], 0, 0, 0⟩

/-- One iteration of the loop body of `Bitstream.append`: shift one bit into
the partial byte, flushing it to the buffer when it holds eight bits. -/
def Bitstream.appendBit (s : Bitstream) (b : Nat) : Bitstream :=
  let current_byte := (s.current_byte <<< 1) ||| b
  let write_position := s.write_position + 1
  if write_position == 8 then
    { s with buffer := s.buffer ++ [current_byte], write_position := 0, current_byte := 0 }
  else
    { s with write_position := write_position, current_byte := current_byte }

/-- The loop of `Bitstream.append`, over bit indices `count-1, …, 0`. -/
def Bitstream.appendAux (s : Bitstream) (value : Int) : Nat → Bitstream
  | 0 => s
  | bit + 1 => Bitstream.appendAux (s.appendBit (intBitAt value bit)) value bit

/-- The method `Bitstream.append(count, value)` of bitstream.py: append the low
`count` bits of `value`, most significant first. -/
def Bitstream.append (s : Bitstream) (count : Nat) (value : Int) : Bitstream :=
  s.appendAux value count

/-- The loop of `Bitstream.read`; accumulates into `value` and stops early
(returning what was accumulated) when the buffer is exhausted at a byte
boundary, exactly as the `break` in the source does. -/
def Bitstream.readAux : Bitstream → Nat → Nat → Nat × Bitstream
  | s, value, 0 => (value, s)
  | s, value, n + 1 =>
    if s.read_position % 8 == 0 then
      if s.buffer.length ≤ s.read_position / 8 then (value, s)
      else
        let cb := s.buffer.getD (s.read_position / 8) 0
        Bitstream.readAux { s with read_position := s.read_position + 1, current_byte := cb }
          ((value <<< 1) ||| ((cb >>> (7 - s.read_position % 8)) &&& 1)) n
    else
      Bitstream.readAux { s with read_position := s.read_position + 1 }
        ((value <<< 1) ||| ((s.current_byte >>> (7 - s.read_position % 8)) &&& 1)) n

/-- The method `Bitstream.read(count)`: read `count` bits MSB-first from the
read cursor, returning the value and the updated stream. -/
def Bitstream.read (s : Bitstream) (count : Nat) : Nat × Bitstream :=
  s.readAux 0 count

/-- The method `Bitstream.to_array()`: flush the partial byte left-aligned. -/
def Bitstream.to_array (s : Bitstream) : List Nat :=
  if s.write_position > 0 then s.buffer ++ [s.current_byte <<< (8 - s.write_position)]
  else s.buffer

/-- The method `Bitstream.from_array(data)`: take the byte list, reset cursors. -/
def Bitstream.from_array (data : List Nat) : Bitstream := ⟨data, 0, 0, 0⟩

/-- The function `bit_width_per_value` of bitstream.py: the smallest width such
that `2^width > value`, and 1 for value 0 (loop unfolded with fuel; the loop
runs at most `value + 1` times since `2^w > w`). -/
def bwpvAux (value : Nat) : Nat → Nat → Nat
  | 0, width => width
  | fuel + 1, width => if 2 ^ width ≤ value then bwpvAux value fuel (width + 1) else width

def bit_width_per_value (value : Nat) : Nat :=
  if value > 0 then bwpvAux value (value + 1) 0 else 1

/-! ### Abstraction of the bitstream state as a list of bits -/

/-- The bits a stream holds: buffer bytes, then the pending partial byte. -/
def streamBits (s : Bitstream) : List Bool :=
  bytesBits s.buffer ++ natBits s.write_position s.current_byte

/-- Well-formedness maintained by `append`: fewer than eight pending bits, and
the partial byte holds exactly those bits. -/
def StreamWF (s : Bitstream) : Prop :=
  s.write_position < 8 ∧ s.current_byte < 2 ^ s.write_position

theorem streamWF_empty : StreamWF Bitstream.empty := by
  constructor <;> simp [Bitstream.empty]

/-! ### Basic bit lemmas -/

theorem natBits_length (count value : Nat) : (natBits count value).length = count := by
  simp [natBits]

theorem natBits_cons (n v : Nat) : natBits (n + 1) v = v.testBit n :: natBits n v := by
  simp only [natBits, List.range_succ_eq_map, List.map_cons, List.map_map]
  have h1 : n + 1 - 1 - 0 = n := by omega
  rw [h1]
  congr 1
  apply List.map_congr_left
  intro a ha
  simp only [Function.comp_apply]
  congr 1
  omega

theorem natBits_snoc (n v : Nat) :
    natBits (n + 1) v = natBits n (v / 2) ++ [v.testBit 0] := by
  simp only [natBits, List.range_succ, List.map_append, List.map_cons, List.map_nil]
  congr 1
  · apply List.map_congr_left
    intro i hi
    simp only [List.mem_range] at hi
    rw [← Nat.testBit_succ]
    congr 1
    omega
  · simp

theorem shiftLeft_one_or (c b : Nat) (hb : b ≤ 1) : (c <<< 1) ||| b = 2 * c + b := by
  rcases Nat.le_one_iff_eq_zero_or_eq_one.mp hb with h | h
  · subst h; simp [Nat.shiftLeft_eq]; ring
  · subst h
    apply Nat.eq_of_testBit_eq
    intro i
    rw [Nat.testBit_or]
    cases i with
    | zero =>
      simp [Nat.testBit_zero, Nat.shiftLeft_eq, Nat.mul_comm, Nat.mul_add_mod]
      omega
    | succ j =>
      rw [Nat.testBit_succ, Nat.testBit_succ, Nat.testBit_succ, Nat.shiftLeft_eq]
      have hc : c * 2 ^ 1 / 2 = c := by norm_num
      have hc2 : (2 * c + 1) / 2 = c := by omega
      have h1 : (1 : Nat) / 2 = 0 := by norm_num
      rw [hc, hc2, h1]
      simp

theorem intBitAt_le_one (value : Int) (k : Nat) : intBitAt value k ≤ 1 := by
  unfold intBitAt
  have h : (0 : Int) ≤ (value / ((2 : Int)) ^ k) % 2 := Int.emod_nonneg _ (by norm_num)
  have h2 : (value / ((2 : Int)) ^ k) % 2 < 2 := Int.emod_lt_of_pos _ (by norm_num)
  omega

theorem natBits_two_mul_add (wp cb b : Nat) (hb : b ≤ 1) :
    natBits (wp + 1) (2 * cb + b) = natBits wp cb ++ [b == 1] := by
  rw [natBits_snoc]
  congr 2
  · omega
  · rcases Nat.le_one_iff_eq_zero_or_eq_one.mp hb with h | h <;> subst h <;>
      simp [Nat.testBit_zero, Nat.mul_add_mod]

theorem natBits_mod_two_pow (n v : Nat) : natBits n (v % 2 ^ n) = natBits n v := by
  unfold natBits
  apply List.map_congr_left
  intro a ha
  simp only [List.mem_range] at ha
  rw [Nat.testBit_mod_two_pow]
  have : n - 1 - a < n := by omega
  simp [this]

theorem bytesBits_append (a b : List Nat) :
    bytesBits (a ++ b) = bytesBits a ++ bytesBits b := by
  induction a with
  | nil => simp [bytesBits]
  | cons x xs ih => simp [bytesBits, ih]

theorem bytesBits_length (a : List Nat) : (bytesBits a).length = 8 * a.length := by
  induction a with
  | nil => simp [bytesBits]
  | cons x xs ih => simp [bytesBits, byteBits, ih, natBits_length]; ring

/-! ### The append path: the stream accumulates bits MSB-first -/

theorem appendBit_spec (s : Bitstream) (b : Nat) (hwf : StreamWF s) (hb : b ≤ 1) :
    streamBits (s.appendBit b) = streamBits s ++ [b == 1] ∧ StreamWF (s.appendBit b) ∧
      (s.appendBit b).read_position = s.read_position := by
  obtain ⟨h8, hcb⟩ := hwf
  have hor : (s.current_byte <<< 1) ||| b = 2 * s.current_byte + b := shiftLeft_one_or _ _ hb
  by_cases h : s.write_position + 1 = 8
  · have htrue : (s.write_position + 1 == 8) = true := by simpa using h
    have hstep : s.appendBit b =
        ⟨s.buffer ++ [2 * s.current_byte + b], s.read_position, 0, 0⟩ := by
      simp [Bitstream.appendBit, hor, htrue]
    have h7 : s.write_position = 7 := by omega
    rw [hstep]
    refine ⟨?_, ⟨by norm_num, by norm_num⟩, rfl⟩
    show bytesBits (s.buffer ++ [2 * s.current_byte + b]) ++ natBits 0 0 = _
    rw [bytesBits_append]
    have hby : bytesBits [2 * s.current_byte + b] = natBits 8 (2 * s.current_byte + b) := by
      simp [bytesBits, byteBits]
    rw [hby, show (8 : Nat) = 7 + 1 from rfl, natBits_two_mul_add _ _ _ hb]
    rw [streamBits, h7]
    simp [natBits, List.append_assoc]
  · have hfalse : (s.write_position + 1 == 8) = false := by simpa using h
    have hstep : s.appendBit b =
        ⟨s.buffer, s.read_position, s.write_position + 1, 2 * s.current_byte + b⟩ := by
      simp [Bitstream.appendBit, hor, hfalse]
    rw [hstep]
    refine ⟨?_, ⟨?_, ?_⟩, rfl⟩
    · show bytesBits s.buffer ++ natBits (s.write_position + 1) (2 * s.current_byte + b) = _
      rw [natBits_two_mul_add _ _ _ hb, streamBits, ← List.append_assoc]
    · show s.write_position + 1 < 8
      omega
    · show 2 * s.current_byte + b < 2 ^ (s.write_position + 1)
      have hp : 2 ^ (s.write_position + 1) = 2 * 2 ^ s.write_position := by ring
      omega

theorem appendAux_spec (value : Int) (count : Nat) : ∀ (s : Bitstream), StreamWF s →
    streamBits (s.appendAux value count) = streamBits s ++ intBits value count ∧
    StreamWF (s.appendAux value count) ∧
    (s.appendAux value count).read_position = s.read_position := by
  induction count with
  | zero =>
    intro s hwf
    exact ⟨by simp [Bitstream.appendAux, intBits], hwf, rfl⟩
  | succ n ih =>
    intro s hwf
    obtain ⟨hb, hwf2, hrp⟩ := appendBit_spec s (intBitAt value n) hwf (intBitAt_le_one value n)
    obtain ⟨ih1, ih2, ih3⟩ := ih (s.appendBit (intBitAt value n)) hwf2
    refine ⟨?_, ih2, by rw [Bitstream.appendAux, ih3, hrp]⟩
    rw [Bitstream.appendAux, ih1, hb, List.append_assoc]
    rfl

/-- Pointwise agreement of Python bit extraction with testBit of the mask. -/
theorem intBitAt_eq_testBit (v : Int) (count k : Nat) (hk : k < count) :
    (intBitAt v k == 1) = (intMask count v).testBit k := by
  unfold intBitAt intMask
  have hc : ((2 : Int)) ^ count = ((2 : Int)) ^ (count - k - 1) * 2 * ((2 : Int)) ^ k := by
    rw [mul_assoc, mul_comm, ← pow_succ', ← pow_add]
    congr 1
    omega
  have hr0 : (0 : Int) ≤ v % ((2 : Int)) ^ count := Int.emod_nonneg _ (by positivity)
  have hdec : v % ((2 : Int)) ^ count + ((2 : Int)) ^ count * (v / ((2 : Int)) ^ count) = v :=
    Int.emod_add_ediv v _
  obtain ⟨m, hm⟩ : ∃ m : Nat, v % ((2 : Int)) ^ count = ((m : Nat) : Int) :=
    ⟨(v % ((2 : Int)) ^ count).toNat, (Int.toNat_of_nonneg hr0).symm⟩
  set q : Int := v / ((2 : Int)) ^ count with hq
  rw [hm] at hdec
  have hv : v = ((m : Nat) : Int) + (((2 : Int)) ^ (count - k - 1) * q) * 2 * ((2 : Int)) ^ k := by
    rw [← hdec, hc]; ring
  have hdiv : v / ((2 : Int)) ^ k =
      ((m : Nat) : Int) / ((2 : Int)) ^ k + ((2 : Int)) ^ (count - k - 1) * q * 2 := by
    rw [hv, Int.add_mul_ediv_right _ _ (by positivity : (((2 : Int)) ^ k) ≠ 0)]
  have hmod : v / ((2 : Int)) ^ k % 2 = ((m : Nat) : Int) / ((2 : Int)) ^ k % 2 := by
    rw [hdiv, Int.add_mul_emod_self]
  have hcast : ((m : Nat) : Int) / ((2 : Int)) ^ k % 2 = ((m / 2 ^ k % 2 : Nat) : Int) := by
    push_cast
    ring
  have hmask : (v % ((2 : Int)) ^ count).toNat = m := by
    rw [hm]
    exact Int.toNat_natCast m
  rw [hmod, hcast, hmask, Nat.testBit_to_div_mod]
  have htn : (((m / 2 ^ k % 2 : Nat) : Int)).toNat = m / 2 ^ k % 2 := Int.toNat_natCast _
  rw [htn]
  by_cases hx : m / 2 ^ k % 2 = 1 <;> simp [hx]

theorem intBits_eq_natBits (v : Int) (count : Nat) :
    intBits v count = natBits count (intMask count v) := by
  suffices h : ∀ (n : Nat) (m : Nat), (∀ k, k < n → (intBitAt v k == 1) = m.testBit k) →
      intBits v n = natBits n m by
    exact h count (intMask count v) (fun k hk => intBitAt_eq_testBit v count k hk)
  intro n
  induction n with
  | zero => intro m _; rfl
  | succ j ih =>
    intro m hm
    rw [intBits, natBits_cons, ih m (fun k hk => hm k (by omega)), hm j (by omega)]

/-- The public face of the write path: appending `count` bits of `value`
extends the abstract bit list by the MSB-first bits of `value mod 2^count`. -/
theorem append_spec (s : Bitstream) (count : Nat) (value : Int) (hwf : StreamWF s) :
    streamBits (s.append count value) = streamBits s ++ natBits count (intMask count value) ∧
    StreamWF (s.append count value) ∧
    (s.append count value).read_position = s.read_position := by
  obtain ⟨h1, h2, h3⟩ := appendAux_spec value count s hwf
  exact ⟨by rw [Bitstream.append, h1, intBits_eq_natBits], h2, h3⟩

/-- For naturals below the width, the appended bits are just the bits of the value. -/
theorem intMask_ofNat (count : Nat) (v : Nat) (hv : v < 2 ^ count) :
    intMask count ((v : Int)) = v := by
  unfold intMask
  have h1 : ((v : Int)) % ((2 : Int)) ^ count = ((v : Int)) := by
    apply Int.emod_eq_of_lt (by positivity)
    exact_mod_cast hv
  rw [h1, Int.toNat_natCast]

theorem natBits_shift (n j cb : Nat) :
    natBits (n + j) (cb * 2 ^ j) = natBits n cb ++ List.replicate j false := by
  induction j with
  | zero => simp
  | succ i ih =>
    have he : cb * 2 ^ (i + 1) = 2 * (cb * 2 ^ i) + 0 := by ring
    have hrep : List.replicate (i + 1) false = List.replicate i false ++ [false] := by
      rw [List.replicate_succ']
    rw [show n + (i + 1) = (n + i) + 1 by ring, he, natBits_two_mul_add _ _ _ (by norm_num), ih,
      hrep, List.append_assoc]
    rfl

/-- Flushing the stream pads the abstract bit list with zero bits to a byte
boundary. -/
theorem to_array_bits (s : Bitstream) (hwf : StreamWF s) :
    bytesBits s.to_array = streamBits s ++ List.replicate ((8 - s.write_position) % 8) false := by
  obtain ⟨h8, hcb⟩ := hwf
  unfold Bitstream.to_array
  by_cases h : s.write_position > 0
  · rw [if_pos h, bytesBits_append, streamBits, List.append_assoc]
    congr 1
    have hone : bytesBits [s.current_byte <<< (8 - s.write_position)] =
        natBits 8 (s.current_byte <<< (8 - s.write_position)) := by
      simp [bytesBits, byteBits]
    have hsplit : natBits 8 (s.current_byte <<< (8 - s.write_position)) =
        natBits s.write_position s.current_byte ++ List.replicate (8 - s.write_position) false := by
      rw [Nat.shiftLeft_eq]
      obtain ⟨j, hj⟩ : ∃ j, 8 - s.write_position = j := ⟨_, rfl⟩
      rw [hj, show (8 : Nat) = s.write_position + j by omega]
      exact natBits_shift _ _ _
    rw [hone, hsplit]
    congr 2
    omega
  · have h0 : s.write_position = 0 := by omega
    rw [if_neg h]
    simp [streamBits, h0, natBits]

theorem to_array_length (s : Bitstream) (hwf : StreamWF s) :
    (s.to_array).length = ((streamBits s).length + 7) / 8 := by
  obtain ⟨h8, _⟩ := hwf
  have hsl : (streamBits s).length = 8 * s.buffer.length + s.write_position := by
    simp [streamBits, bytesBits_length, natBits_length]
  rw [hsl]
  unfold Bitstream.to_array
  by_cases h : s.write_position > 0 <;> simp [h] <;> omega

/-! ### The read path -/

theorem shiftRight_and_one (x k : Nat) : (x >>> k) &&& 1 = bitVal (x.testBit k) := by
  rw [Nat.shiftRight_eq_div_pow, Nat.and_one_is_mod, Nat.testBit_to_div_mod]
  by_cases h : x / 2 ^ k % 2 = 1 <;> simp [bitVal, h]
  omega

theorem bitVal_le_one (b : Bool) : bitVal b ≤ 1 := by cases b <;> simp [bitVal]

theorem natBits_getD (n v i : Nat) (hi : i < n) :
    (natBits n v).getD i false = v.testBit (n - 1 - i) := by
  have hlen : i < (natBits n v).length := by rw [natBits_length]; exact hi
  rw [List.getD_eq_getElem _ _ hlen]
  simp [natBits]

theorem bytesBits_getD (B : List Nat) : ∀ (p : Nat), p < 8 * B.length →
    (bytesBits B).getD p false = (B.getD (p / 8) 0).testBit (7 - p % 8) := by
  induction B with
  | nil => intro p hp; simp at hp
  | cons b rest ih =>
    intro p hp
    by_cases h : p < 8
    · have hlen : p < (byteBits b).length := by simp [byteBits, natBits_length]; omega
      rw [show bytesBits (b :: rest) = byteBits b ++ bytesBits rest from rfl,
        List.getD_append _ _ _ _ hlen]
      have hd : p / 8 = 0 := by omega
      have hm : p % 8 = p := by omega
      rw [hd, hm]
      unfold byteBits
      rw [natBits_getD _ _ _ (by omega)]
      norm_num
    · have hlen : (byteBits b).length ≤ p := by simp [byteBits, natBits_length]; omega
      rw [show bytesBits (b :: rest) = byteBits b ++ bytesBits rest from rfl,
        List.getD_append_right _ _ _ _ hlen]
      have hlen8 : (byteBits b).length = 8 := by simp [byteBits, natBits_length]
      rw [hlen8]
      have hrec := ih (p - 8) (by simp at hp; omega)
      rw [hrec]
      obtain ⟨t, ht⟩ : ∃ t, p / 8 = t + 1 := ⟨p / 8 - 1, by omega⟩
      have hd : (p - 8) / 8 = t := by omega
      have hm : (p - 8) % 8 = p % 8 := by omega
      rw [hd, hm, ht]
      simp

theorem drop_take_succ (l : List Bool) (p n : Nat) (hp : p < l.length) :
    (l.drop p).take (n + 1) = l.getD p false :: (l.drop (p + 1)).take n := by
  rw [List.drop_eq_getElem_cons hp, List.take_succ_cons, List.getD_eq_getElem _ _ hp]

theorem drop_take_exact (L1 X L2 : List Bool) :
    ((L1 ++ (X ++ L2)).drop L1.length).take X.length = X := by
  rw [List.drop_left, List.take_left]

theorem bitsFoldAcc_natBits (n : Nat) : ∀ (v m : Nat),
    bitsFoldAcc v (natBits n m) = v * 2 ^ n + m % 2 ^ n := by
  induction n with
  | zero => intro v m; simp [bitsFoldAcc, natBits, Nat.mod_one]
  | succ j ih =>
    intro v m
    rw [natBits_cons]
    show bitsFoldAcc (2 * v + bitVal (m.testBit j)) (natBits j m) = _
    rw [ih]
    have hbit : bitVal (m.testBit j) = m / 2 ^ j % 2 := by
      rw [Nat.testBit_to_div_mod]
      by_cases h : m / 2 ^ j % 2 = 1 <;> simp [bitVal, h]
      omega
    have hm := Nat.div_add_mod m (2 ^ j)
    have ha := Nat.div_add_mod (m / 2 ^ j) 2
    have hx : m / 2 ^ j % 2 ≤ 1 := by omega
    have hr : m % 2 ^ j < 2 ^ j := Nat.mod_lt _ (by positivity)
    have hp : 2 ^ (j + 1) = 2 * 2 ^ j := by ring
    have hdecomp : m = 2 ^ (j + 1) * (m / 2 ^ j / 2) + (2 ^ j * (m / 2 ^ j % 2) + m % 2 ^ j) := by
      conv_lhs => rw [← hm, ← ha]
      ring
    have hb2 : 2 ^ j * (m / 2 ^ j % 2) ≤ 2 ^ j := by
      have h1 := Nat.mul_le_mul_left (2 ^ j) hx
      simpa using h1
    have hlt : 2 ^ j * (m / 2 ^ j % 2) + m % 2 ^ j < 2 ^ (j + 1) := by
      rw [hp]; omega
    have hmod : m % 2 ^ (j + 1) = 2 ^ j * (m / 2 ^ j % 2) + m % 2 ^ j := by
      conv_lhs => rw [hdecomp]
      rw [Nat.mul_add_mod]
      exact Nat.mod_eq_of_lt hlt
    rw [hbit, hmod]
    ring

theorem bitsToNat_natBits (n m : Nat) : bitsToNat (natBits n m) = m % 2 ^ n := by
  unfold bitsToNat
  rw [bitsFoldAcc_natBits]
  simp

theorem readAux_spec (B : List Nat) (count : Nat) :
    ∀ (v p wp cb : Nat),
    (p % 8 ≠ 0 → cb = B.getD (p / 8) 0) →
    p + count ≤ 8 * B.length →
    ∃ cb2 : Nat,
      Bitstream.readAux ⟨B, p, wp, cb⟩ v count =
        (bitsFoldAcc v (((bytesBits B).drop p).take count), ⟨B, p + count, wp, cb2⟩) ∧
      ((p + count) % 8 ≠ 0 → cb2 = B.getD ((p + count) / 8) 0) := by
  induction count with
  | zero =>
    intro v p wp cb hinv _
    exact ⟨cb, by simp [Bitstream.readAux, bitsFoldAcc], hinv⟩
  | succ n ih =>
    intro v p wp cb hinv hlen
    have hp8 : p < 8 * B.length := by omega
    have hpb : p < (bytesBits B).length := by rw [bytesBits_length]; omega
    have hslice : ((bytesBits B).drop p).take (n + 1) =
        (bytesBits B).getD p false :: ((bytesBits B).drop (p + 1)).take n :=
      drop_take_succ _ _ _ hpb
    have hfold : ∀ rest, bitsFoldAcc v ((bytesBits B).getD p false :: rest) =
        bitsFoldAcc (2 * v + bitVal ((bytesBits B).getD p false)) rest := fun rest => rfl
    by_cases h0 : p % 8 = 0
    · have hcond : (p % 8 == 0) = true := by simpa using h0
      have hdiv : p / 8 < B.length := by omega
      have hlt : ¬ B.length ≤ p / 8 := by omega
      have hbit : ((B.getD (p / 8) 0) >>> (7 - p % 8)) &&& 1 =
          bitVal ((bytesBits B).getD p false) := by
        rw [shiftRight_and_one, bytesBits_getD B p hp8]
      have hval : (v <<< 1) ||| ((B.getD (p / 8) 0) >>> (7 - p % 8)) &&& 1 =
          2 * v + bitVal ((bytesBits B).getD p false) := by
        rw [hbit, shiftLeft_one_or _ _ (bitVal_le_one _)]
      have hinv2 : (p + 1) % 8 ≠ 0 → B.getD (p / 8) 0 = B.getD ((p + 1) / 8) 0 := by
        intro _
        have hdd : (p + 1) / 8 = p / 8 := by omega
        rw [hdd]
      obtain ⟨cb2, heq, hinv3⟩ := ih (2 * v + bitVal ((bytesBits B).getD p false)) (p + 1)
        wp (B.getD (p / 8) 0) (fun hne => (hinv2 hne)) (by omega)
      refine ⟨cb2, ?_, ?_⟩
      · show Bitstream.readAux _ v (n + 1) = _
        rw [show Bitstream.readAux ⟨B, p, wp, cb⟩ v (n + 1) =
          (if (p % 8 == 0) = true then
            (if B.length ≤ p / 8 then (v, ⟨B, p, wp, cb⟩)
             else Bitstream.readAux ⟨B, p + 1, wp, B.getD (p / 8) 0⟩
               ((v <<< 1) ||| ((B.getD (p / 8) 0) >>> (7 - p % 8)) &&& 1) n)
          else Bitstream.readAux ⟨B, p + 1, wp, cb⟩
            ((v <<< 1) ||| (cb >>> (7 - p % 8)) &&& 1) n) from rfl]
        rw [if_pos hcond, if_neg hlt, hval, heq, hslice, hfold]
        have hpn : p + 1 + n = p + (n + 1) := by omega
        rw [hpn]
      · intro hne
        rw [show p + (n + 1) = p + 1 + n by omega] at hne ⊢
        exact hinv3 hne
    · have hcond : (p % 8 == 0) = false := by simpa using h0
      have hcb : cb = B.getD (p / 8) 0 := hinv h0
      have hbit : (cb >>> (7 - p % 8)) &&& 1 = bitVal ((bytesBits B).getD p false) := by
        rw [hcb, shiftRight_and_one, bytesBits_getD B p hp8]
      have hval : (v <<< 1) ||| (cb >>> (7 - p % 8)) &&& 1 =
          2 * v + bitVal ((bytesBits B).getD p false) := by
        rw [hbit, shiftLeft_one_or _ _ (bitVal_le_one _)]
      have hinv2 : (p + 1) % 8 ≠ 0 → cb = B.getD ((p + 1) / 8) 0 := by
        intro _
        rw [hcb]
        have hdd : (p + 1) / 8 = p / 8 := by omega
        rw [hdd]
      obtain ⟨cb2, heq, hinv3⟩ := ih (2 * v + bitVal ((bytesBits B).getD p false)) (p + 1)
        wp cb hinv2 (by omega)
      refine ⟨cb2, ?_, ?_⟩
      · rw [show Bitstream.readAux ⟨B, p, wp, cb⟩ v (n + 1) =
          (if (p % 8 == 0) = true then
            (if B.length ≤ p / 8 then (v, ⟨B, p, wp, cb⟩)
             else Bitstream.readAux ⟨B, p + 1, wp, B.getD (p / 8) 0⟩
               ((v <<< 1) ||| ((B.getD (p / 8) 0) >>> (7 - p % 8)) &&& 1) n)
          else Bitstream.readAux ⟨B, p + 1, wp, cb⟩
            ((v <<< 1) ||| (cb >>> (7 - p % 8)) &&& 1) n) from rfl]
        rw [hcond]
        rw [if_neg (by simp)]
        rw [hval, heq, hslice, hfold]
        have hpn : p + 1 + n = p + (n + 1) := by omega
        rw [hpn]
      · intro hne
        rw [show p + (n + 1) = p + 1 + n by omega] at hne ⊢
        exact hinv3 hne

theorem read_spec (B : List Nat) (p count wp cb : Nat)
    (hinv : p % 8 ≠ 0 → cb = B.getD (p / 8) 0) (hlen : p + count ≤ 8 * B.length) :
    ∃ cb2 : Nat,
      Bitstream.read ⟨B, p, wp, cb⟩ count =
        (bitsToNat (((bytesBits B).drop p).take count), ⟨B, p + count, wp, cb2⟩) ∧
      ((p + count) % 8 ≠ 0 → cb2 = B.getD ((p + count) / 8) 0) :=
  readAux_spec B count 0 p wp cb hinv hlen

/-- Reading a field whose encoded bits sit at the read cursor returns the field
value (modulo the field width) and advances the cursor past it. -/
theorem read_field (B : List Nat) (L1 L2 : List Bool) (count wp cb m : Nat)
    (hbits : bytesBits B = L1 ++ (natBits count m ++ L2))
    (hinv : L1.length % 8 ≠ 0 → cb = B.getD (L1.length / 8) 0) :
    ∃ cb2 : Nat,
      Bitstream.read ⟨B, L1.length, wp, cb⟩ count =
        (m % 2 ^ count, ⟨B, L1.length + count, wp, cb2⟩) ∧
      ((L1.length + count) % 8 ≠ 0 → cb2 = B.getD ((L1.length + count) / 8) 0) := by
  have hlen : L1.length + count ≤ 8 * B.length := by
    have h1 : (bytesBits B).length = 8 * B.length := bytesBits_length B
    rw [hbits] at h1
    simp [natBits_length] at h1
    omega
  obtain ⟨cb2, heq, hinv2⟩ := read_spec B L1.length count wp cb hinv hlen
  refine ⟨cb2, ?_, hinv2⟩
  rw [heq]
  have hslice : ((bytesBits B).drop L1.length).take count = natBits count m := by
    obtain ⟨X, hX⟩ : ∃ X, natBits count m = X := ⟨_, rfl⟩
    rw [hbits, hX, show count = X.length from by rw [← hX, natBits_length]]
    exact drop_take_exact L1 X L2
  rw [hslice, bitsToNat_natBits]

/-! ### Whole-stream write/read composition (spec property 3) -/

/-- Perform a list of `(count, value)` appends in order. -/
def writeAll (s : Bitstream) : List (Nat × Nat) → Bitstream
  | [] => s
  | cv :: rest => writeAll (s.append cv.1 ((cv.2 : Nat) : Int)) rest

/-- The bits that a list of in-range writes produces. -/
def writesBits : List (Nat × Nat) → List Bool
  | [] => []
  | cv :: rest => natBits cv.1 cv.2 ++ writesBits rest

/-- Read back a list of field widths in order, collecting the values. -/
def readAll (s : Bitstream) : List Nat → List Nat × Bitstream
  | [] => ([], s)
  | c :: rest =>
    match s.read c with
    | (v, s2) =>
      match readAll s2 rest with
      | (vs, s3) => (v :: vs, s3)

theorem writeAll_spec (ws : List (Nat × Nat)) :
    ∀ (s : Bitstream), StreamWF s → (∀ cv ∈ ws, cv.2 < 2 ^ cv.1) →
    streamBits (writeAll s ws) = streamBits s ++ writesBits ws ∧ StreamWF (writeAll s ws) := by
  induction ws with
  | nil => intro s hwf _; exact ⟨by simp [writeAll, writesBits], hwf⟩
  | cons cv rest ih =>
    intro s hwf hin
    obtain ⟨h1, h2, _⟩ := append_spec s cv.1 ((cv.2 : Nat) : Int) hwf
    obtain ⟨ih1, ih2⟩ := ih (s.append cv.1 ((cv.2 : Nat) : Int)) h2
      (fun x hx => hin x (List.mem_cons_of_mem _ hx))
    refine ⟨?_, ih2⟩
    rw [writeAll, ih1, h1, intMask_ofNat _ _ (hin cv (List.mem_cons_self _ _)), writesBits,
      List.append_assoc]

theorem readAll_spec (ws : List (Nat × Nat)) :
    ∀ (L1 L2 : List Bool) (B : List Nat) (wp cb : Nat),
    bytesBits B = L1 ++ (writesBits ws ++ L2) →
    (∀ cv ∈ ws, cv.2 < 2 ^ cv.1) →
    (L1.length % 8 ≠ 0 → cb = B.getD (L1.length / 8) 0) →
    ∃ s2 : Bitstream, readAll ⟨B, L1.length, wp, cb⟩ (ws.map Prod.fst) =
      (ws.map Prod.snd, s2) := by
  induction ws with
  | nil =>
    intro L1 L2 B wp cb _ _ _
    exact ⟨_, rfl⟩
  | cons cv rest ih =>
    intro L1 L2 B wp cb hbits hin hinv
    have hbits2 : bytesBits B = L1 ++ (natBits cv.1 cv.2 ++ (writesBits rest ++ L2)) := by
      rw [hbits, writesBits, List.append_assoc]
    obtain ⟨cb2, heq, hinv2⟩ := read_field B L1 (writesBits rest ++ L2) cv.1 wp cb cv.2 hbits2 hinv
    have hmod : cv.2 % 2 ^ cv.1 = cv.2 :=
      Nat.mod_eq_of_lt (hin cv (List.mem_cons_self _ _))
    have hbits3 : bytesBits B = (L1 ++ natBits cv.1 cv.2) ++ (writesBits rest ++ L2) := by
      rw [hbits2, List.append_assoc]
    have hlen : (L1 ++ natBits cv.1 cv.2).length = L1.length + cv.1 := by
      simp [natBits_length]
    obtain ⟨s3, hrec⟩ := ih (L1 ++ natBits cv.1 cv.2) L2 B wp cb2 hbits3
      (fun x hx => hin x (List.mem_cons_of_mem _ hx)) (by rw [hlen]; exact hinv2)
    rw [hlen] at hrec
    refine ⟨s3, ?_⟩
    show (match Bitstream.read ⟨B, L1.length, wp, cb⟩ cv.1 with
          | (v, s2) => match readAll s2 (rest.map Prod.fst) with
            | (vs, s4) => (v :: vs, s4)) = (cv.2 :: rest.map Prod.snd, s3)
    rw [heq]
    show (match readAll ⟨B, L1.length + cv.1, wp, cb2⟩ (rest.map Prod.fst) with
          | (vs, s4) => ((cv.2 % 2 ^ cv.1) :: vs, s4)) = _
    rw [hrec]
    show ((cv.2 % 2 ^ cv.1) :: rest.map Prod.snd, s3) = _
    rw [hmod]

/-- Claim C8: for every finite sequence of (count, value) writes with
0 ≤ value < 2^count and count ≤ 64, appending them all to a Bitstream,
transferring the bytes via to_array into a fresh Bitstream with from_array,
and reading the same counts in the same order returns exactly the written
values. -/
theorem C8_bitstream_roundtrip (ws : List (Nat × Nat))
    (h : ∀ cv ∈ ws, cv.2 < 2 ^ cv.1 ∧ cv.1 ≤ 64) :
    (readAll (Bitstream.from_array ((writeAll Bitstream.empty ws).to_array))
      (ws.map Prod.fst)).1 = ws.map Prod.snd := by
  have hb : ∀ cv ∈ ws, cv.2 < 2 ^ cv.1 := fun cv hcv => (h cv hcv).1
  obtain ⟨hw1, hw2⟩ := writeAll_spec ws Bitstream.empty streamWF_empty hb
  have hsb : streamBits Bitstream.empty = [] := by
    simp [streamBits, Bitstream.empty, bytesBits, natBits]
  rw [hsb, List.nil_append] at hw1
  have harr := to_array_bits _ hw2
  rw [hw1] at harr
  obtain ⟨s2, hread⟩ := readAll_spec ws []
    (List.replicate ((8 - (writeAll Bitstream.empty ws).write_position) % 8) false)
    ((writeAll Bitstream.empty ws).to_array) 0 0 (by simpa using harr) hb (by simp)
  have hread2 : readAll (Bitstream.from_array ((writeAll Bitstream.empty ws).to_array))
      (ws.map Prod.fst) = (ws.map Prod.snd, s2) := hread
  rw [hread2]

theorem C8_bitstream_roundtrip_witness :
    (∀ cv ∈ [((3 : Nat), (5 : Nat)), (5, 26), (8, 165)], cv.2 < 2 ^ cv.1 ∧ cv.1 ≤ 64) ∧
    (readAll (Bitstream.from_array
        ((writeAll Bitstream.empty [((3 : Nat), (5 : Nat)), (5, 26), (8, 165)]).to_array))
      ([((3 : Nat), (5 : Nat)), (5, 26), (8, 165)].map Prod.fst)).1 =
      [((3 : Nat), (5 : Nat)), (5, 26), (8, 165)].map Prod.snd :=
  ⟨by decide, C8_bitstream_roundtrip _ (by decide)⟩

/-! ### Embedding of utilities.py: common_prefix -/

/-- The loop of common_prefix, with `rem` iterations left and current index `i`;
the left side is indexed circularly modulo its length. -/
def cpAux (lhs rhs : List Nat) : Nat → Nat → Nat
  | 0, i => i
  | rem + 1, i =>
    if lhs.getD (i % lhs.length) 0 = rhs.getD i 0 then cpAux lhs rhs rem (i + 1) else i

/-- The function common_prefix of utilities.py: length of the common prefix of
the circularly repeated lhs and rhs, capped at max_length. -/
def common_prefix (lhs rhs : List Nat) (max_length : Nat) : Nat :=
  cpAux lhs rhs (min rhs.length max_length) 0

/-! ### Embedding of compress.py: the LZSS codec -/

/-- An LZSS token: a literal byte or a back-reference `(offset, length)` with
the negative offset the source stores in its result list. -/
inductive LZToken where
  | lit (v : Nat)
  | ref (offset : Int) (length : Nat)
  deriving Repr, DecidableEq

structure LZSSCodec where
  max_window_bits : Nat
  max_length_bits : Nat
  size_bit_count : Nat
  minimum_backreference : Nat
  deriving Repr, DecidableEq

/-- The constructor LZSSCodec.__init__ (default size_bit_count is 22): store
the widths and derive the minimum profitable back-reference length from the
bit cost of one reference token. -/
def LZSSCodec.init (max_window_bits max_length_bits size_bit_count : Nat) : LZSSCodec :=
  { max_window_bits := max_window_bits, max_length_bits := max_length_bits,
    size_bit_count := size_bit_count,
    minimum_backreference :=
      if 1 + max_window_bits + max_length_bits < 9 then 1
      else if 1 + max_window_bits + max_length_bits < 17 then 2
      else if 1 + max_window_bits + max_length_bits < 25 then 3
      else 4 }

structure LZSSEncodingStatistics where
  minimum_backreference : Nat
  max_window_bits : Nat
  max_length_bits : Nat
  overhead_bits : Nat
  literals : Nat
  references : Nat
  max_window : Nat
  max_length : Nat
  deriving Repr, DecidableEq

def LZSSEncodingStatistics.init (codec : LZSSCodec) : LZSSEncodingStatistics :=
  { minimum_backreference := codec.minimum_backreference,
    max_window_bits := codec.max_window_bits,
    max_length_bits := codec.max_length_bits,
    overhead_bits := codec.size_bit_count + 4 + 4 + 2,
    literals := 0, references := 0, max_window := 0, max_length := 0 }

def LZSSEncodingStatistics.add_literal (s : LZSSEncodingStatistics) : LZSSEncodingStatistics :=
  { s with literals := s.literals + 1 }

/-- The method statistics.add(offset, length); the diagnostic print in the
source has no effect on the state and is omitted. -/
def LZSSEncodingStatistics.add (s : LZSSEncodingStatistics) (offset length : Nat) :
    LZSSEncodingStatistics :=
  { s with
    references := s.references + 1,
    max_window := if offset > s.max_window then offset else s.max_window,
    max_length := if length > s.max_length then length else s.max_length }

def LZSSEncodingStatistics.size (s : LZSSEncodingStatistics) : Nat :=
  (s.overhead_bits + s.literals * 9 +
    s.references * (1 + s.max_window_bits + s.max_length_bits) + 7) / 8

/-- Python dict.get on the candidate cache, modelled as an insertion-ordered
association list. -/
def cacheGet (c : List (List Nat × List Nat)) (k : List Nat) : Option (List Nat) :=
  match c with
  | [] => none
  | kv :: t => if kv.1 = k then some kv.2 else cacheGet t k

/-- Python dict item assignment on the candidate cache. -/
def cacheSet (c : List (List Nat × List Nat)) (k : List Nat) (v : List Nat) :
    List (List Nat × List Nat) :=
  match c with
  | [] => [(k, v)]
  | kv :: t => if kv.1 = k then (k, v) :: t else kv :: cacheSet t k v

/-- The candidate-scan loop inside LZSSCodec.compress.  The running state is
(best_candidate, best_length, new_candidates); positions at or before `oldest`
are dropped, and the common-prefix computation is skipped once best_length has
reached max_length, exactly as in the source. -/
def scanCandidates (data : List Nat) (position : Nat) (oldest : Int) (max_length : Nat) :
    List Nat → Nat → Nat → List Nat → Nat × Nat × List Nat
  | [], best_candidate, best_length, new_candidates =>
      (best_candidate, best_length, new_candidates)
  | pos :: entry, best_candidate, best_length, new_candidates =>
    if oldest < (pos : Int) then
      if best_length < max_length then
        if best_length < common_prefix ((data.drop pos).take (position - pos))
            (data.drop position) max_length then
          scanCandidates data position oldest max_length entry pos
            ( common_prefix ((data.drop pos).take (position - pos)) (data.drop position) max_length)
            (new_candidates ++ [pos])
        else
          scanCandidates data position oldest max_length entry best_candidate best_length
            (new_candidates ++ [pos])
      else
        scanCandidates data position oldest max_length entry best_candidate best_length
          (new_candidates ++ [pos])
    else
      scanCandidates data position oldest max_length entry best_candidate best_length
        new_candidates

/-- The main loop of LZSSCodec.compress.  The loop advances `position` by at
least one per iteration whenever minimum_backreference ≥ 1, so `data.length`
units of fuel always suffice; fuel only makes the recursion structural. -/
def compressLoop (codec : LZSSCodec) (data : List Nat) :
    Nat → Nat → List (List Nat × List Nat) → List LZToken → LZSSEncodingStatistics →
    List LZToken × LZSSEncodingStatistics
  | 0, _, _, results, statistics => (results, statistics)
  | fuel + 1, position, candidate_cache, results, statistics =>
    if position < data.length then
      match cacheGet candidate_cache ((data.drop position).take codec.minimum_backreference) with
      | none =>
          compressLoop codec data fuel (position + 1)
            (cacheSet candidate_cache ((data.drop position).take codec.minimum_backreference)
              [position])
            (results ++ [LZToken.lit (data.getD position 0)])
            statistics.add_literal
      | some candidate_cache_entry =>
          match scanCandidates data position
              ((position : Int) - (((2 ^ codec.max_window_bits : Nat) : Int) + 1))
              (codec.minimum_backreference + 2 ^ codec.max_length_bits - 1)
              candidate_cache_entry position 0 [] with
          | (best_candidate, best_length, new_candidates) =>
            if codec.minimum_backreference ≤ best_length then
              compressLoop codec data fuel (position + best_length)
                (cacheSet candidate_cache ((data.drop position).take codec.minimum_backreference)
                  (new_candidates ++ [position]))
                (results ++ [LZToken.ref ((best_candidate : Int) - (position : Int)) best_length])
                (statistics.add (position - best_candidate) best_length)
            else
              compressLoop codec data fuel (position + 1)
                (cacheSet candidate_cache ((data.drop position).take codec.minimum_backreference)
                  (new_candidates ++ [position]))
                (results ++ [LZToken.lit (data.getD position 0)])
                statistics.add_literal
    else (results, statistics)

/-- The method LZSSCodec.compress(data). -/
def LZSSCodec.compress (codec : LZSSCodec) (data : List Nat) :
    List LZToken × LZSSEncodingStatistics :=
  compressLoop codec data data.length 0 [] [] (LZSSEncodingStatistics.init codec)

/-- Python list indexing with a possibly negative index, as used by
decompress: a negative index counts from the end of the buffer. -/
def pyIndex (buf : List Nat) (offset : Int) : Nat :=
  if offset < 0 then buf.getD ((buf.length : Int) + offset).toNat 0 else buf.getD offset.toNat 0

/-- The inner copy loop of decompress for one back-reference: copy one byte at
a time so self-overlapping runs replicate. -/
def refCopy (offset : Int) : List Nat → Nat → List Nat
  | buf, 0 => buf
  | buf, n + 1 => refCopy offset (buf ++ [pyIndex buf offset]) n

def lzssDecompressStep (buf : List Nat) (t : LZToken) : List Nat :=
  match t with
  | .lit v => buf ++ [v]
  | .ref offset length => refCopy offset buf length

/-- The method LZSSCodec.decompress.  It reads no codec state; the literal
token covers both the int case and the one-character-string case of the
source (chr and ord cancel). -/
def LZSSCodec.decompress (compressed_buffer : List LZToken) : List Nat :=
  compressed_buffer.foldl lzssDecompressStep []

/-- The per-token body of the loop in LZSSCodec.to_binary. -/
def lzssTokenAppend (codec : LZSSCodec) (bs : Bitstream) (entry : LZToken) : Bitstream :=
  match entry with
  | .ref offset length =>
      ((bs.append 1 1).append codec.max_window_bits (-offset - 1)).append
        codec.max_length_bits ((length : Int) - (codec.minimum_backreference : Int))
  | .lit value => (bs.append 1 0).append 8 ((value : Nat) : Int)

/-- The method LZSSCodec.to_binary(compressed_data). -/
def LZSSCodec.to_binary (codec : LZSSCodec) (compressed_data : List LZToken) : List Nat :=
  ((compressed_data.foldl (lzssTokenAppend codec)
    ((((Bitstream.empty.append 4 ((codec.max_window_bits : Int) - 3)).append 4
      ((codec.max_length_bits : Int) - 1)).append 2
      ((codec.minimum_backreference : Int) - 1)).append codec.size_bit_count
      ((compressed_data.length : Nat) : Int)))).to_array

/-- The token-reading loop of LZSSCodec.from_binary. -/
def lzssParseLoop (max_window_bits length minimum_backreference : Nat) :
    Bitstream → List LZToken → Nat → List LZToken × Bitstream
  | bs, acc, 0 => (acc, bs)
  | bs, acc, n + 1 =>
    match bs.read 1 with
    | (flag, bs2) =>
      if flag ≠ 0 then
        match bs2.read max_window_bits with
        | (rawoff, bs3) =>
          match bs3.read length with
          | (rawlen, bs4) =>
            lzssParseLoop max_window_bits length minimum_backreference bs4
              (acc ++ [LZToken.ref (-((rawoff : Nat) : Int) - 1) (rawlen + minimum_backreference)]) n
      else
        match bs2.read 8 with
        | (value, bs3) =>
          lzssParseLoop max_window_bits length minimum_backreference bs3
            (acc ++ [LZToken.lit value]) n

/-- The method LZSSCodec.from_binary(data): read the header, parse the token
stream and decompress it. -/
def LZSSCodec.from_binary (codec : LZSSCodec) (data : List Nat) : List Nat :=
  match (Bitstream.from_array data).read 4 with
  | (w, bs1) =>
    match bs1.read 4 with
    | (l, bs2) =>
      match bs2.read 2 with
      | (mb, bs3) =>
        match bs3.read codec.size_bit_count with
        | (count, bs4) =>
          match lzssParseLoop (w + 3) (l + 1) (mb + 1) bs4 [] count with
          | (compressed_data, _) => LZSSCodec.decompress compressed_data

/-! ### List-indexing helpers -/

theorem getD_drop (l : List Nat) : ∀ (a b : Nat), (l.drop a).getD b 0 = l.getD (a + b) 0 := by
  induction l with
  | nil => intro a b; simp
  | cons x t ih =>
    intro a b
    cases a with
    | zero => simp
    | succ a2 =>
      show (t.drop a2).getD b 0 = (x :: t).getD (a2 + 1 + b) 0
      rw [ih a2 b, show a2 + 1 + b = (a2 + b) + 1 by omega]
      simp

theorem getD_take (l : List Nat) : ∀ (m j : Nat), j < m → (l.take m).getD j 0 = l.getD j 0 := by
  induction l with
  | nil => intro m j _; simp
  | cons x t ih =>
    intro m j hj
    cases m with
    | zero => omega
    | succ m2 =>
      cases j with
      | zero => simp
      | succ j2 =>
        show (t.take m2).getD j2 0 = t.getD j2 0
        exact ih m2 j2 (by omega)

theorem take_succ_getD (l : List Nat) : ∀ (m : Nat), m < l.length →
    l.take (m + 1) = l.take m ++ [l.getD m 0] := by
  induction l with
  | nil => intro m hm; simp at hm
  | cons x t ih =>
    intro m hm
    cases m with
    | zero => simp
    | succ m2 =>
      show x :: t.take (m2 + 1) = x :: t.take m2 ++ [t.getD m2 0]
      rw [ih m2 (by simpa using hm)]
      simp

/-! ### Properties of common_prefix -/

theorem cpAux_spec (lhs rhs : List Nat) : ∀ (rem i : Nat),
    i ≤ cpAux lhs rhs rem i ∧ cpAux lhs rhs rem i ≤ i + rem ∧
    ∀ t, i ≤ t → t < cpAux lhs rhs rem i →
      lhs.getD (t % lhs.length) 0 = rhs.getD t 0 := by
  intro rem
  induction rem with
  | zero =>
    intro i
    refine ⟨le_refl _, by simp [cpAux], ?_⟩
    intro t h1 h2
    simp [cpAux] at h2
    omega
  | succ r ih =>
    intro i
    by_cases h : lhs.getD (i % lhs.length) 0 = rhs.getD i 0
    · have hstep : cpAux lhs rhs (r + 1) i = cpAux lhs rhs r (i + 1) := by
        show (if lhs.getD (i % lhs.length) 0 = rhs.getD i 0
          then cpAux lhs rhs r (i + 1) else i) = _
        rw [if_pos h]
      obtain ⟨ih1, ih2, ih3⟩ := ih (i + 1)
      rw [hstep]
      refine ⟨by omega, by omega, ?_⟩
      intro t h1 h2
      rcases Nat.eq_or_lt_of_le h1 with he | hlt
      · rw [← he]; exact h
      · exact ih3 t (by omega) h2
    · have hstep : cpAux lhs rhs (r + 1) i = i := by
        show (if lhs.getD (i % lhs.length) 0 = rhs.getD i 0
          then cpAux lhs rhs r (i + 1) else i) = _
        rw [if_neg h]
      rw [hstep]
      exact ⟨le_refl _, by omega, fun t h1 h2 => by omega⟩

theorem common_prefix_le (lhs rhs : List Nat) (max_length : Nat) :
    common_prefix lhs rhs max_length ≤ min rhs.length max_length := by
  obtain ⟨_, h2, _⟩ := cpAux_spec lhs rhs (min rhs.length max_length) 0
  unfold common_prefix
  omega

theorem common_prefix_match (lhs rhs : List Nat) (max_length : Nat) :
    ∀ t, t < common_prefix lhs rhs max_length →
      lhs.getD (t % lhs.length) 0 = rhs.getD t 0 := by
  obtain ⟨_, _, h3⟩ := cpAux_spec lhs rhs (min rhs.length max_length) 0
  intro t ht
  exact h3 t (by omega) ht

/-! ### Decompression extends the output exactly as the matcher promises -/

/-- Circular-prefix agreement transfers to direct agreement: if the bytes at
`position + i` replicate the window at `pos` circularly, then every copied
byte equals the byte already at distance `position - pos` behind it. -/
theorem circular_to_direct (data : List Nat) (pos position k : Nat)
    (hpp : pos < position)
    (H : ∀ i, i < k → data.getD (pos + i % (position - pos)) 0 = data.getD (position + i) 0) :
    ∀ i, i < k → data.getD (pos + i) 0 = data.getD (position + i) 0 := by
  intro i hi
  by_cases hcase : i < position - pos
  · have h1 := H i hi
    rw [Nat.mod_eq_of_lt hcase] at h1
    exact h1
  · have hgap : 0 < position - pos := by omega
    have hidx : pos + i = position + (i - (position - pos)) := by omega
    have h1 := H (i - (position - pos)) (by omega)
    have h2 := H i hi
    have hmod : (i - (position - pos)) % (position - pos) = i % (position - pos) := by
      conv_rhs => rw [show i = (position - pos) + (i - (position - pos)) by omega]
      rw [Nat.add_mod_left]
    rw [hmod] at h1
    rw [hidx, ← h1, h2]

/-- One back-reference copy extends a faithful output prefix by the matched
bytes: copying `k` bytes from offset `pos - position` out of
`data.take position` yields `data.take (position + k)`. -/
theorem refCopy_extends (data : List Nat) (pos position k : Nat)
    (hpp : pos < position) (hk : position + k ≤ data.length)
    (hdir : ∀ i, i < k → data.getD (pos + i) 0 = data.getD (position + i) 0) :
    refCopy ((pos : Int) - (position : Int)) (data.take position) k =
      data.take (position + k) := by
  suffices hgen : ∀ (n j : Nat), j + n = k →
      refCopy ((pos : Int) - (position : Int)) (data.take (position + j)) n =
        data.take (position + k) by
    simpa using hgen k 0 (by omega)
  intro n
  induction n with
  | zero =>
    intro j hj
    rw [show j = k from by omega]
    rfl
  | succ n2 ih =>
    intro j hj
    have hjk : j < k := by omega
    have hlen : (data.take (position + j)).length = position + j := by
      rw [List.length_take]
      omega
    have hidx : pyIndex (data.take (position + j)) ((pos : Int) - (position : Int)) =
        data.getD (position + j) 0 := by
      unfold pyIndex
      rw [if_pos (by omega : (pos : Int) - (position : Int) < 0), hlen]
      have htn : (((position + j : Nat) : Int) + ((pos : Int) - (position : Int))).toNat =
          pos + j := by omega
      rw [htn, getD_take data (position + j) (pos + j) (by omega)]
      exact hdir j hjk
    show refCopy _ (data.take (position + j) ++ [pyIndex (data.take (position + j)) _]) n2 = _
    rw [hidx, ← take_succ_getD data (position + j) (by omega),
      show position + j + 1 = position + (j + 1) by omega]
    exact ih (j + 1) (by omega)

/-! ### Well-formedness of LZSS token streams -/

/-- Output position after a token: a literal writes one byte, a reference
writes `length` bytes. -/
def tokenEnd (p : Nat) (t : LZToken) : Nat :=
  match t with
  | .lit _ => p + 1
  | .ref _ len => p + len

def tokensEnd (results : List LZToken) (p : Nat) : Nat := results.foldl tokenEnd p

/-- Well-formedness of one token emitted at output position `p`: a literal is
the data byte at `p` (hence < 256), a back-reference reaches at least one and
at most `2^window_bits` bytes back, never before the start of the output, and
its length lies in the encodable range. -/
def tokOK (codec : LZSSCodec) (data : List Nat) (p : Nat) : LZToken → Prop
  | .lit v => v < 256 ∧ v = data.getD p 0
  | .ref off len => ∃ d : Nat, off = -((d : Nat) : Int) ∧ 1 ≤ d ∧
      d ≤ 2 ^ codec.max_window_bits ∧ d ≤ p ∧
      codec.minimum_backreference ≤ len ∧
      len ≤ codec.minimum_backreference + 2 ^ codec.max_length_bits - 1

def tokensWF (codec : LZSSCodec) (data : List Nat) : List LZToken → Nat → Prop
  | [], _ => True
  | t :: rest, p => tokOK codec data p t ∧ tokensWF codec data rest (tokenEnd p t)

theorem tokensEnd_append (R : List LZToken) (t : LZToken) (p : Nat) :
    tokensEnd (R ++ [t]) p = tokenEnd (tokensEnd R p) t := by
  unfold tokensEnd
  rw [List.foldl_append]
  rfl

theorem tokensWF_append (codec : LZSSCodec) (data : List Nat) :
    ∀ (R : List LZToken) (p : Nat) (t : LZToken),
    tokensWF codec data R p → tokOK codec data (tokensEnd R p) t →
    tokensWF codec data (R ++ [t]) p := by
  intro R
  induction R with
  | nil =>
    intro p t _ hok
    exact ⟨hok, trivial⟩
  | cons x rest ih =>
    intro p t hwf hok
    obtain ⟨h1, h2⟩ := hwf
    exact ⟨h1, ih _ t h2 hok⟩

def countLits : List LZToken → Nat
  | [] => 0
  | .lit _ :: rest => countLits rest + 1
  | .ref _ _ :: rest => countLits rest

def countRefs : List LZToken → Nat
  | [] => 0
  | .lit _ :: rest => countRefs rest
  | .ref _ _ :: rest => countRefs rest + 1

theorem countLits_append_lit (R : List LZToken) (v : Nat) :
    countLits (R ++ [.lit v]) = countLits R + 1 := by
  induction R with
  | nil => rfl
  | cons x rest ih =>
    cases x with
    | lit a =>
      show countLits (rest ++ [.lit v]) + 1 = countLits rest + 1 + 1
      rw [ih]
    | ref o l =>
      show countLits (rest ++ [.lit v]) = countLits rest + 1
      rw [ih]

theorem countLits_append_ref (R : List LZToken) (o : Int) (len : Nat) :
    countLits (R ++ [.ref o len]) = countLits R := by
  induction R with
  | nil => rfl
  | cons x rest ih =>
    cases x with
    | lit a =>
      show countLits (rest ++ [.ref o len]) + 1 = countLits rest + 1
      rw [ih]
    | ref o2 l2 =>
      show countLits (rest ++ [.ref o len]) = countLits rest
      rw [ih]

theorem countRefs_append_lit (R : List LZToken) (v : Nat) :
    countRefs (R ++ [.lit v]) = countRefs R := by
  induction R with
  | nil => rfl
  | cons x rest ih =>
    cases x with
    | lit a =>
      show countRefs (rest ++ [.lit v]) = countRefs rest
      rw [ih]
    | ref o l =>
      show countRefs (rest ++ [.lit v]) + 1 = countRefs rest + 1
      rw [ih]

theorem countRefs_append_ref (R : List LZToken) (o : Int) (len : Nat) :
    countRefs (R ++ [.ref o len]) = countRefs R + 1 := by
  induction R with
  | nil => rfl
  | cons x rest ih =>
    cases x with
    | lit a =>
      show countRefs (rest ++ [.ref o len]) = countRefs rest + 1
      rw [ih]
    | ref o2 l2 =>
      show countRefs (rest ++ [.ref o len]) + 1 = countRefs rest + 1 + 1
      rw [ih]

/-- Correspondence between the running statistics object and the token list. -/
def statsInv (codec : LZSSCodec) (results : List LZToken)
    (stats : LZSSEncodingStatistics) : Prop :=
  stats.literals = countLits results ∧ stats.references = countRefs results ∧
  stats.overhead_bits = codec.size_bit_count + 10 ∧
  stats.max_window_bits = codec.max_window_bits ∧
  stats.max_length_bits = codec.max_length_bits

theorem statsInv_add_literal (codec : LZSSCodec) (R : List LZToken)
    (s : LZSSEncodingStatistics) (v : Nat) (h : statsInv codec R s) :
    statsInv codec (R ++ [.lit v]) s.add_literal := by
  obtain ⟨h1, h2, h3, h4, h5⟩ := h
  refine ⟨?_, ?_, h3, h4, h5⟩
  · rw [countLits_append_lit]
    simp [LZSSEncodingStatistics.add_literal, h1]
  · rw [countRefs_append_lit]
    simp [LZSSEncodingStatistics.add_literal, h2]

theorem statsInv_add_ref (codec : LZSSCodec) (R : List LZToken)
    (s : LZSSEncodingStatistics) (o : Int) (d len : Nat) (h : statsInv codec R s) :
    statsInv codec (R ++ [.ref o len]) (s.add d len) := by
  obtain ⟨h1, h2, h3, h4, h5⟩ := h
  refine ⟨?_, ?_, h3, h4, h5⟩
  · rw [countLits_append_ref]
    simp [LZSSEncodingStatistics.add, h1]
  · rw [countRefs_append_ref]
    simp [LZSSEncodingStatistics.add, h2]

/-! ### The candidate cache and the candidate scan -/

theorem cacheSet_vals (c : List (List Nat × List Nat)) (k v : List Nat) :
    ∀ kv ∈ cacheSet c k v, kv.2 = v ∨ kv ∈ c := by
  induction c with
  | nil =>
    intro kv hkv
    simp [cacheSet] at hkv
    left
    rw [hkv]
  | cons x t ih =>
    intro kv hkv
    unfold cacheSet at hkv
    by_cases h : x.1 = k
    · rw [if_pos h] at hkv
      rcases List.mem_cons.mp hkv with h1 | h1
      · left; rw [h1]
      · right; exact List.mem_cons_of_mem _ h1
    · rw [if_neg h] at hkv
      rcases List.mem_cons.mp hkv with h1 | h1
      · right; rw [h1]; exact List.mem_cons_self _ _
      · rcases ih kv h1 with h2 | h2
        · left; exact h2
        · right; exact List.mem_cons_of_mem _ h2

theorem cacheGet_prop (k : List Nat) (P : List Nat → Prop) :
    ∀ (c : List (List Nat × List Nat)) (v : List Nat),
    cacheGet c k = some v → (∀ kv ∈ c, P kv.2) → P v := by
  intro c
  induction c with
  | nil => intro v hv _; simp [cacheGet] at hv
  | cons x t ih =>
    intro v hv hall
    unfold cacheGet at hv
    by_cases h : x.1 = k
    · rw [if_pos h] at hv
      have := hall x (List.mem_cons_self _ _)
      rw [Option.some_inj] at hv
      rw [← hv]
      exact this
    · rw [if_neg h] at hv
      exact ih v hv (fun kv hkv => hall kv (List.mem_cons_of_mem _ hkv))

/-- What the candidate scan guarantees about its best pair. -/
def scanGood (data : List Nat) (position : Nat) (oldest : Int)
    (max_length bc bl : Nat) : Prop :=
  bc < position ∧ oldest < ((bc : Nat) : Int) ∧ bl ≤ max_length ∧
  bl + position ≤ data.length ∧
  ∀ i, i < bl → data.getD (bc + i % (position - bc)) 0 = data.getD (position + i) 0

theorem scanCandidates_spec (data : List Nat) (position : Nat) (oldest : Int)
    (max_length : Nat) (hpos : position ≤ data.length) :
    ∀ (entry : List Nat) (bc bl : Nat) (nc : List Nat),
    (∀ q ∈ entry, q < position) →
    ((bl = 0 ∧ bc = position) ∨ scanGood data position oldest max_length bc bl) →
    (∀ q ∈ nc, q < position) →
    (((scanCandidates data position oldest max_length entry bc bl nc).2.1 = 0 ∧
        (scanCandidates data position oldest max_length entry bc bl nc).1 = position) ∨
      scanGood data position oldest max_length
        (scanCandidates data position oldest max_length entry bc bl nc).1
        (scanCandidates data position oldest max_length entry bc bl nc).2.1) ∧
    (∀ q ∈ (scanCandidates data position oldest max_length entry bc bl nc).2.2,
      q < position) := by
  intro entry
  induction entry with
  | nil =>
    intro bc bl nc hentry hinv hnc
    exact ⟨hinv, hnc⟩
  | cons pos rest ih =>
    intro bc bl nc hentry hinv hnc
    have hposlt : pos < position := hentry pos (List.mem_cons_self _ _)
    have hrest : ∀ q ∈ rest, q < position :=
      fun q hq => hentry q (List.mem_cons_of_mem _ hq)
    have hncpos : ∀ q ∈ nc ++ [pos], q < position := by
      intro q hq
      rcases List.mem_append.mp hq with h | h
      · exact hnc q h
      · simp at h
        rw [h]
        exact hposlt
    show (((scanCandidates data position oldest max_length (pos :: rest) bc bl nc).2.1 = 0 ∧ _) ∨ _) ∧ _
    unfold scanCandidates
    by_cases h1 : oldest < ((pos : Nat) : Int)
    · rw [if_pos h1]
      by_cases h2 : bl < max_length
      · rw [if_pos h2]
        by_cases h3 : bl < common_prefix ((data.drop pos).take (position - pos))
            (data.drop position) max_length
        · rw [if_pos h3]
          apply ih
          · exact hrest
          · right
            refine ⟨hposlt, h1, ?_, ?_, ?_⟩
            · exact le_trans (common_prefix_le _ _ _) (min_le_right _ _)
            · have hle := common_prefix_le ((data.drop pos).take (position - pos))
                (data.drop position) max_length
              have hlen : (data.drop position).length = data.length - position :=
                List.length_drop _ _
              omega
            · intro i hi
              have hmatch := common_prefix_match ((data.drop pos).take (position - pos))
                (data.drop position) max_length i hi
              have hlhslen : ((data.drop pos).take (position - pos)).length =
                  position - pos := by
                rw [List.length_take, List.length_drop]
                omega
              rw [hlhslen] at hmatch
              have hmlt : i % (position - pos) < position - pos :=
                Nat.mod_lt _ (by omega)
              rw [getD_take _ _ _ hmlt, getD_drop, getD_drop] at hmatch
              exact hmatch
          · exact hncpos
        · rw [if_neg h3]
          exact ih bc bl (nc ++ [pos]) hrest hinv hncpos
      · rw [if_neg h2]
        exact ih bc bl (nc ++ [pos]) hrest hinv hncpos
    · rw [if_neg h1]
      exact ih bc bl nc hrest hinv hnc

/-! ### The main compress loop: round-trip, well-formedness, statistics -/

theorem decompress_append (R : List LZToken) (t : LZToken) :
    LZSSCodec.decompress (R ++ [t]) = lzssDecompressStep (LZSSCodec.decompress R) t := by
  unfold LZSSCodec.decompress
  rw [List.foldl_append]
  rfl

theorem getD_lt_256 (data : List Nat) (hdata : ∀ b ∈ data, b < 256) (p : Nat)
    (hp : p < data.length) : data.getD p 0 < 256 := by
  rw [List.getD_eq_getElem _ _ hp]
  exact hdata _ (List.getElem_mem _)

/-- Everything the loop maintains about an emitted literal. -/
theorem lit_step (codec : LZSSCodec) (data : List Nat) (hdata : ∀ b ∈ data, b < 256)
    (position : Nat) (results : List LZToken) (hif : position < data.length)
    (hdec : LZSSCodec.decompress results = data.take position)
    (hwf : tokensWF codec data results 0)
    (hend : tokensEnd results 0 = position) :
    LZSSCodec.decompress (results ++ [.lit (data.getD position 0)]) =
        data.take (position + 1) ∧
    tokensWF codec data (results ++ [.lit (data.getD position 0)]) 0 ∧
    tokensEnd (results ++ [.lit (data.getD position 0)]) 0 = position + 1 := by
  refine ⟨?_, ?_, ?_⟩
  · rw [decompress_append, hdec]
    show data.take position ++ [data.getD position 0] = _
    rw [← take_succ_getD data position hif]
  · apply tokensWF_append codec data results 0 _ hwf
    rw [hend]
    exact ⟨getD_lt_256 data hdata position hif, rfl⟩
  · rw [tokensEnd_append, hend]
    rfl

def loopPost (codec : LZSSCodec) (data : List Nat)
    (out : List LZToken × LZSSEncodingStatistics) : Prop :=
  LZSSCodec.decompress out.1 = data ∧ tokensWF codec data out.1 0 ∧
  out.1.length ≤ data.length ∧ statsInv codec out.1 out.2

theorem compressLoop_spec (codec : LZSSCodec) (data : List Nat)
    (hmb : 1 ≤ codec.minimum_backreference) (hdata : ∀ b ∈ data, b < 256) :
    ∀ (fuel position : Nat) (cache : List (List Nat × List Nat))
      (results : List LZToken) (stats : LZSSEncodingStatistics),
    position ≤ data.length →
    data.length - position ≤ fuel →
    (∀ kv ∈ cache, ∀ q ∈ kv.2, q < position) →
    LZSSCodec.decompress results = data.take position →
    tokensWF codec data results 0 →
    tokensEnd results 0 = position →
    results.length ≤ position →
    statsInv codec results stats →
    loopPost codec data (compressLoop codec data fuel position cache results stats) := by
  intro fuel
  induction fuel with
  | zero =>
    intro position cache results stats hpos hfuel _ hdec hwf _ hcount hstats
    have hple : position = data.length := by omega
    show loopPost codec data (results, stats)
    refine ⟨?_, hwf, by show results.length ≤ data.length; omega, hstats⟩
    rw [hdec, hple, List.take_length]
  | succ fuel ih =>
    intro position cache results stats hpos hfuel hcache hdec hwf hend hcount hstats
    show loopPost codec data
      (if position < data.length then _ else (results, stats))
    by_cases hif : position < data.length
    case neg =>
      rw [if_neg hif]
      have hple : position = data.length := by omega
      refine ⟨?_, hwf, by show results.length ≤ data.length; omega, hstats⟩
      rw [hdec, hple, List.take_length]
    case pos =>
      rw [if_pos hif]
      split
      case h_1 heqc =>
        obtain ⟨hd1, hd2, hd3⟩ := lit_step codec data hdata position results hif hdec hwf hend
        apply ih (position + 1) _ _ _ (by omega) (by omega) ?_ hd1 hd2 hd3
          (by simpa using Nat.add_le_add_right hcount 1)
          (statsInv_add_literal codec results stats _ hstats)
        intro kv hkv q hq
        rcases cacheSet_vals cache _ [position] kv hkv with h | h
        · rw [h] at hq
          simp at hq
          omega
        · exact Nat.lt_succ_of_lt (hcache kv h q hq)
      case h_2 entry heqc =>
        have hentry : ∀ q ∈ entry, q < position := by
          apply cacheGet_prop _ (fun v => ∀ q ∈ v, q < position) cache entry heqc
          exact hcache
        split
        next bc bl nc heqscan =>
          obtain ⟨hbest, hnc⟩ := scanCandidates_spec data position
            ((position : Int) - (((2 ^ codec.max_window_bits : Nat) : Int) + 1))
            (codec.minimum_backreference + 2 ^ codec.max_length_bits - 1) hpos
            entry position 0 [] hentry (Or.inl ⟨rfl, rfl⟩) (by simp)
          rw [heqscan] at hbest hnc
          simp only at hbest hnc
          by_cases hql : codec.minimum_backreference ≤ bl
          · rw [if_pos hql]
            have hgood : scanGood data position
                ((position : Int) - (((2 ^ codec.max_window_bits : Nat) : Int) + 1))
                (codec.minimum_backreference + 2 ^ codec.max_length_bits - 1) bc bl := by
              rcases hbest with ⟨h0, _⟩ | hg
              · omega
              · exact hg
            obtain ⟨hbc, holdest, hml, hlenok, hmatch⟩ := hgood
            have hbl1 : 1 ≤ bl := by omega
            have hoff : ((bc : Nat) : Int) - ((position : Nat) : Int) =
                -(((position - bc : Nat) : Nat) : Int) := by
              omega
            have hdir := circular_to_direct data bc position bl hbc hmatch
            have hdec2 : LZSSCodec.decompress
                (results ++ [.ref (((bc : Nat) : Int) - ((position : Nat) : Int)) bl]) =
                data.take (position + bl) := by
              rw [decompress_append, hdec]
              show refCopy _ (data.take position) bl = _
              exact refCopy_extends data bc position bl hbc (by omega) hdir
            have hok : tokOK codec data position
                (.ref (((bc : Nat) : Int) - ((position : Nat) : Int)) bl) := by
              refine ⟨position - bc, hoff, by omega, ?_, by omega, hql, hml⟩
              omega
            apply ih (position + bl) _ _ _ (by omega) (by omega) ?_ hdec2 ?_ ?_ ?_
              (statsInv_add_ref codec results stats _ _ _ hstats)
            · intro kv hkv q hq
              rcases cacheSet_vals cache _ (nc ++ [position]) kv hkv with h | h
              · rw [h] at hq
                rcases List.mem_append.mp hq with h2 | h2
                · have := hnc q h2
                  omega
                · simp at h2
                  omega
              · have := hcache kv h q hq
                omega
            · apply tokensWF_append codec data results 0 _ hwf
              rw [hend]
              exact hok
            · rw [tokensEnd_append, hend]
              rfl
            · rw [List.length_append]
              simp
              omega
          · rw [if_neg hql]
            obtain ⟨hd1, hd2, hd3⟩ := lit_step codec data hdata position results hif hdec hwf hend
            apply ih (position + 1) _ _ _ (by omega) (by omega) ?_ hd1 hd2 hd3
              (by simpa using Nat.add_le_add_right hcount 1)
              (statsInv_add_literal codec results stats _ hstats)
            intro kv hkv q hq
            rcases cacheSet_vals cache _ (nc ++ [position]) kv hkv with h | h
            · rw [h] at hq
              rcases List.mem_append.mp hq with h2 | h2
              · exact Nat.lt_succ_of_lt (hnc q h2)
              · simp at h2
                omega
            · exact Nat.lt_succ_of_lt (hcache kv h q hq)

/-- Summary facts about LZSSCodec.compress needed by the binary layer. -/
theorem compress_spec (codec : LZSSCodec) (data : List Nat)
    (hmb : 1 ≤ codec.minimum_backreference) (hdata : ∀ b ∈ data, b < 256) :
    LZSSCodec.decompress (codec.compress data).1 = data ∧
    tokensWF codec data (codec.compress data).1 0 ∧
    (codec.compress data).1.length ≤ data.length ∧
    statsInv codec (codec.compress data).1 (codec.compress data).2 := by
  have h := compressLoop_spec codec data hmb hdata data.length 0 [] []
    (LZSSEncodingStatistics.init codec) (by omega) (by omega) (by simp)
    (by simp [LZSSCodec.decompress]) trivial rfl (by simp)
    ⟨rfl, rfl, rfl, rfl, rfl⟩
  exact h

/-! ### Bit-level layout of the LZSS container -/

theorem streamBits_empty : streamBits Bitstream.empty = [] := by
  simp [streamBits, Bitstream.empty, bytesBits, natBits]

theorem intMask_ofNat_sub (c a b : Nat) (hba : b ≤ a) (hlt : a - b < 2 ^ c) :
    intMask c ((a : Int) - (b : Int)) = a - b := by
  have hcast : (a : Int) - (b : Int) = (((a - b : Nat) : Nat) : Int) := by omega
  rw [hcast, intMask_ofNat _ _ hlt]

/-- The bits of one token as to_binary writes them. -/
def lzssTokenBits (codec : LZSSCodec) : LZToken → List Bool
  | .lit v => natBits 1 (intMask 1 0) ++ natBits 8 (intMask 8 ((v : Nat) : Int))
  | .ref off len => natBits 1 (intMask 1 1) ++
      (natBits codec.max_window_bits (intMask codec.max_window_bits (-off - 1)) ++
       natBits codec.max_length_bits
         (intMask codec.max_length_bits ((len : Int) - (codec.minimum_backreference : Int))))

def lzssTokensBits (codec : LZSSCodec) : List LZToken → List Bool
  | [] => []
  | t :: rest => lzssTokenBits codec t ++ lzssTokensBits codec rest

/-- The 4+4+2+size_bit_count header bits of the LZSS container. -/
def lzssHeaderBits (codec : LZSSCodec) (n : Nat) : List Bool :=
  natBits 4 (intMask 4 ((codec.max_window_bits : Int) - 3)) ++
  (natBits 4 (intMask 4 ((codec.max_length_bits : Int) - 1)) ++
  (natBits 2 (intMask 2 ((codec.minimum_backreference : Int) - 1)) ++
  natBits codec.size_bit_count (intMask codec.size_bit_count ((n : Nat) : Int))))

theorem lzssTokenAppend_bits (codec : LZSSCodec) (bs : Bitstream) (t : LZToken)
    (h : StreamWF bs) :
    streamBits (lzssTokenAppend codec bs t) = streamBits bs ++ lzssTokenBits codec t ∧
    StreamWF (lzssTokenAppend codec bs t) := by
  cases t with
  | lit v =>
    obtain ⟨h1, h2, _⟩ := append_spec bs 1 0 h
    obtain ⟨h3, h4, _⟩ := append_spec (bs.append 1 0) 8 ((v : Nat) : Int) h2
    refine ⟨?_, h4⟩
    show streamBits ((bs.append 1 0).append 8 ((v : Nat) : Int)) = _
    rw [h3, h1, lzssTokenBits, List.append_assoc]
  | ref off len =>
    obtain ⟨h1, h2, _⟩ := append_spec bs 1 1 h
    obtain ⟨h3, h4, _⟩ := append_spec (bs.append 1 1) codec.max_window_bits (-off - 1) h2
    obtain ⟨h5, h6, _⟩ := append_spec ((bs.append 1 1).append codec.max_window_bits (-off - 1))
      codec.max_length_bits ((len : Int) - (codec.minimum_backreference : Int)) h4
    refine ⟨?_, h6⟩
    show streamBits (((bs.append 1 1).append codec.max_window_bits (-off - 1)).append
      codec.max_length_bits ((len : Int) - (codec.minimum_backreference : Int))) = _
    rw [h5, h3, h1, lzssTokenBits, List.append_assoc, List.append_assoc]

theorem lzss_fold_bits (codec : LZSSCodec) : ∀ (ts : List LZToken) (bs : Bitstream),
    StreamWF bs →
    streamBits (ts.foldl (lzssTokenAppend codec) bs) =
      streamBits bs ++ lzssTokensBits codec ts ∧
    StreamWF (ts.foldl (lzssTokenAppend codec) bs) := by
  intro ts
  induction ts with
  | nil =>
    intro bs h
    exact ⟨by simp [lzssTokensBits], h⟩
  | cons t rest ih =>
    intro bs h
    obtain ⟨h1, h2⟩ := lzssTokenAppend_bits codec bs t h
    obtain ⟨h3, h4⟩ := ih (lzssTokenAppend codec bs t) h2
    refine ⟨?_, h4⟩
    show streamBits (rest.foldl (lzssTokenAppend codec) (lzssTokenAppend codec bs t)) = _
    rw [h3, h1, lzssTokensBits, List.append_assoc]

theorem lzss_to_binary_spec (codec : LZSSCodec) (ts : List LZToken) :
    (∃ pad : Nat, bytesBits (codec.to_binary ts) =
      (lzssHeaderBits codec ts.length ++ lzssTokensBits codec ts) ++
        List.replicate pad false) ∧
    (codec.to_binary ts).length =
      ((lzssHeaderBits codec ts.length ++ lzssTokensBits codec ts).length + 7) / 8 := by
  obtain ⟨e1, w1, _⟩ := append_spec Bitstream.empty 4 ((codec.max_window_bits : Int) - 3)
    streamWF_empty
  obtain ⟨e2, w2, _⟩ := append_spec _ 4 ((codec.max_length_bits : Int) - 1) w1
  obtain ⟨e3, w3, _⟩ := append_spec _ 2 ((codec.minimum_backreference : Int) - 1) w2
  obtain ⟨e4, w4, _⟩ := append_spec _ codec.size_bit_count ((ts.length : Nat) : Int) w3
  obtain ⟨e5, w5⟩ := lzss_fold_bits codec ts _ w4
  have hbits : streamBits (ts.foldl (lzssTokenAppend codec)
      ((((Bitstream.empty.append 4 ((codec.max_window_bits : Int) - 3)).append 4
        ((codec.max_length_bits : Int) - 1)).append 2
        ((codec.minimum_backreference : Int) - 1)).append codec.size_bit_count
        ((ts.length : Nat) : Int))) =
      lzssHeaderBits codec ts.length ++ lzssTokensBits codec ts := by
    rw [e5, e4, e3, e2, e1, streamBits_empty, List.nil_append, lzssHeaderBits]
    simp only [List.append_assoc]
  have harr := to_array_bits _ w5
  rw [hbits] at harr
  have hlen := to_array_length _ w5
  rw [hbits] at hlen
  exact ⟨⟨_, harr⟩, hlen⟩

theorem lzssHeaderBits_length (codec : LZSSCodec) (n : Nat) :
    (lzssHeaderBits codec n).length = 10 + codec.size_bit_count := by
  simp [lzssHeaderBits, natBits_length]
  omega

theorem lzssTokensBits_length (codec : LZSSCodec) : ∀ ts : List LZToken,
    (lzssTokensBits codec ts).length =
      9 * countLits ts + (1 + codec.max_window_bits + codec.max_length_bits) * countRefs ts := by
  intro ts
  induction ts with
  | nil => simp [lzssTokensBits, countLits, countRefs]
  | cons t rest ih =>
    cases t with
    | lit v =>
      show (lzssTokenBits codec (.lit v) ++ lzssTokensBits codec rest).length = _
      rw [List.length_append, ih]
      simp only [lzssTokenBits, List.length_append, natBits_length, countLits, countRefs]
      ring
    | ref o len =>
      show (lzssTokenBits codec (.ref o len) ++ lzssTokensBits codec rest).length = _
      rw [List.length_append, ih]
      simp only [lzssTokenBits, List.length_append, natBits_length, countLits, countRefs]
      ring

theorem init_mb_bounds (w l sbc : Nat) :
    1 ≤ (LZSSCodec.init w l sbc).minimum_backreference ∧
    (LZSSCodec.init w l sbc).minimum_backreference ≤ 4 := by
  show 1 ≤ (if 1 + w + l < 9 then 1 else if 1 + w + l < 17 then 2
      else if 1 + w + l < 25 then 3 else 4) ∧
    (if 1 + w + l < 9 then 1 else if 1 + w + l < 17 then 2
      else if 1 + w + l < 25 then 3 else 4) ≤ 4
  split_ifs <;> omega

/-- Claim C3: for every byte string and valid LZSS parameters, the byte length
of to_binary applied to the compressed token stream equals statistics.size()
exactly: both are ceil((size_bit_count + 10 + 9*literals +
(1 + window_bits + length_bits)*references) / 8). -/
theorem C3_lzss_size_exact (data : List Nat) (w l : Nat)
    (hw : 3 ≤ w ∧ w ≤ 16) (hl : 1 ≤ l ∧ l ≤ 16) (hdata : ∀ b ∈ data, b < 256) :
    ((LZSSCodec.init w l 22).to_binary ((LZSSCodec.init w l 22).compress data).1).length =
      ((LZSSCodec.init w l 22).compress data).2.size := by
  obtain ⟨hmb, _⟩ := init_mb_bounds w l 22
  obtain ⟨_, _, _, hlit, href, hover, hmw, hml⟩ :=
    compress_spec (LZSSCodec.init w l 22) data hmb hdata
  obtain ⟨_, hlen⟩ := lzss_to_binary_spec (LZSSCodec.init w l 22)
    ((LZSSCodec.init w l 22).compress data).1
  rw [hlen]
  unfold LZSSEncodingStatistics.size
  rw [List.length_append, lzssHeaderBits_length, lzssTokensBits_length, hlit, href, hover,
    hmw, hml, show (LZSSCodec.init w l 22).size_bit_count = 22 from rfl]
  congr 1
  ring

theorem C3_lzss_size_exact_witness :
    (3 ≤ 4 ∧ 4 ≤ 16) ∧ (1 ≤ 4 ∧ 4 ≤ 16) ∧
    (∀ b ∈ [97, 98, 99, 97, 98, 99, 97, 98, 99, 97, 98, 99], b < 256) ∧
    ((LZSSCodec.init 4 4 22).to_binary
        ((LZSSCodec.init 4 4 22).compress [97, 98, 99, 97, 98, 99, 97, 98, 99, 97, 98, 99]).1).length =
      ((LZSSCodec.init 4 4 22).compress [97, 98, 99, 97, 98, 99, 97, 98, 99, 97, 98, 99]).2.size :=
  ⟨⟨by norm_num, by norm_num⟩, ⟨by norm_num, by norm_num⟩, by decide,
    C3_lzss_size_exact _ 4 4 ⟨by norm_num, by norm_num⟩ ⟨by norm_num, by norm_num⟩ (by decide)⟩

/-! ### Parsing the LZSS container recovers the token stream -/

/-- The bits of B from bit position p onwards start with X. -/
def BitsAt (B : List Nat) (p : Nat) (X : List Bool) : Prop :=
  ∃ L1 : List Bool, bytesBits B = L1 ++ X ∧ L1.length = p

theorem bitsAt_read (B : List Nat) (p count wp cb m : Nat) (X : List Bool)
    (hbits : BitsAt B p (natBits count m ++ X))
    (hinv : p % 8 ≠ 0 → cb = B.getD (p / 8) 0) :
    ∃ cb2 : Nat,
      Bitstream.read ⟨B, p, wp, cb⟩ count = (m % 2 ^ count, ⟨B, p + count, wp, cb2⟩) ∧
      ((p + count) % 8 ≠ 0 → cb2 = B.getD ((p + count) / 8) 0) ∧
      BitsAt B (p + count) X := by
  obtain ⟨L1, hb, hl⟩ := hbits
  subst hl
  obtain ⟨cb2, h1, h2⟩ := read_field B L1 X count wp cb m hb hinv
  refine ⟨cb2, h1, h2, L1 ++ natBits count m, ?_, by simp [natBits_length]⟩
  rw [hb, List.append_assoc]

theorem lzssParseLoop_spec (codec : LZSSCodec) (data : List Nat) :
    ∀ (ts : List LZToken) (p0 p : Nat) (L2 : List Bool) (B : List Nat) (wp cb : Nat)
      (acc : List LZToken),
    BitsAt B p (lzssTokensBits codec ts ++ L2) →
    tokensWF codec data ts p0 →
    (p % 8 ≠ 0 → cb = B.getD (p / 8) 0) →
    (lzssParseLoop codec.max_window_bits codec.max_length_bits codec.minimum_backreference
      ⟨B, p, wp, cb⟩ acc ts.length).1 = acc ++ ts := by
  intro ts
  induction ts with
  | nil =>
    intro p0 p L2 B wp cb acc _ _ _
    simp [lzssParseLoop]
  | cons t rest ih =>
    intro p0 p L2 B wp cb acc hbits hwf hinv
    obtain ⟨hok, hwfrest⟩ := hwf
    cases t with
    | lit v =>
      obtain ⟨hv256, _⟩ := hok
      have hmv : intMask 8 ((v : Nat) : Int) = v := intMask_ofNat 8 v hv256
      have hb1 : BitsAt B p (natBits 1 (intMask 1 0) ++
          (natBits 8 v ++ (lzssTokensBits codec rest ++ L2))) := by
        obtain ⟨L1, hb, hl⟩ := hbits
        refine ⟨L1, ?_, hl⟩
        rw [hb]
        congr 1
        rw [show lzssTokensBits codec (LZToken.lit v :: rest) =
          (natBits 1 (intMask 1 0) ++ natBits 8 (intMask 8 ((v : Nat) : Int))) ++
            lzssTokensBits codec rest from rfl, hmv]
        simp [List.append_assoc]
      obtain ⟨cb2, hread1, hinv2, hb2⟩ := bitsAt_read B p 1 wp cb (intMask 1 0) _ hb1 hinv
      obtain ⟨cb3, hread2, hinv3, hb3⟩ := bitsAt_read B (p + 1) 8 wp cb2 v _ hb2 hinv2
      have hrec := ih (tokenEnd p0 (.lit v)) (p + 1 + 8) L2 B wp cb3 (acc ++ [.lit v])
        hb3 hwfrest hinv3
      show (match Bitstream.read ⟨B, p, wp, cb⟩ 1 with
        | (flag, bs2) =>
          if flag ≠ 0 then
            match bs2.read codec.max_window_bits with
            | (rawoff, bs3) =>
              match bs3.read codec.max_length_bits with
              | (rawlen, bs4) =>
                lzssParseLoop codec.max_window_bits codec.max_length_bits
                  codec.minimum_backreference bs4
                  (acc ++ [LZToken.ref (-((rawoff : Nat) : Int) - 1)
                    (rawlen + codec.minimum_backreference)]) rest.length
          else
            match bs2.read 8 with
            | (value, bs3) =>
              lzssParseLoop codec.max_window_bits codec.max_length_bits
                codec.minimum_backreference bs3 (acc ++ [LZToken.lit value]) rest.length).1 =
        acc ++ (LZToken.lit v :: rest)
      rw [hread1]
      show (if (intMask 1 0 % 2 ^ 1) ≠ 0 then _ else
        (match Bitstream.read ⟨B, p + 1, wp, cb2⟩ 8 with
          | (value, bs3) =>
            lzssParseLoop codec.max_window_bits codec.max_length_bits
              codec.minimum_backreference bs3 (acc ++ [LZToken.lit value]) rest.length)).1 = _
      rw [if_neg (by norm_num [intMask])]
      rw [hread2]
      show (lzssParseLoop codec.max_window_bits codec.max_length_bits
        codec.minimum_backreference ⟨B, p + 1 + 8, wp, cb3⟩
        (acc ++ [LZToken.lit (v % 2 ^ 8)]) rest.length).1 = _
      rw [show v % 2 ^ 8 = v from Nat.mod_eq_of_lt hv256, hrec, List.append_assoc]
      rfl
    | ref off len =>
      obtain ⟨d, hoff, hd1, hd2, _, hlmb, hlub⟩ := hok
      have hdm1 : d - 1 < 2 ^ codec.max_window_bits := by omega
      have hoffm : intMask codec.max_window_bits (-off - 1) = d - 1 := by
        rw [hoff, show -(-((d : Nat) : Int)) - 1 = (((d - 1 : Nat) : Nat) : Int) by omega]
        exact intMask_ofNat _ _ hdm1
      have hlsub : len - codec.minimum_backreference < 2 ^ codec.max_length_bits := by
        have hp : 1 ≤ 2 ^ codec.max_length_bits := Nat.one_le_two_pow
        omega
      have hlenm : intMask codec.max_length_bits
          ((len : Int) - (codec.minimum_backreference : Int)) =
          len - codec.minimum_backreference := by
        rw [show (len : Int) - (codec.minimum_backreference : Int) =
          (((len - codec.minimum_backreference : Nat) : Nat) : Int) by omega]
        exact intMask_ofNat _ _ hlsub
      have hb1 : BitsAt B p (natBits 1 (intMask 1 1) ++
          (natBits codec.max_window_bits (d - 1) ++
          (natBits codec.max_length_bits (len - codec.minimum_backreference) ++
          (lzssTokensBits codec rest ++ L2)))) := by
        obtain ⟨L1, hb, hl⟩ := hbits
        refine ⟨L1, ?_, hl⟩
        rw [hb]
        congr 1
        rw [show lzssTokensBits codec (LZToken.ref off len :: rest) =
          (natBits 1 (intMask 1 1) ++
            (natBits codec.max_window_bits (intMask codec.max_window_bits (-off - 1)) ++
             natBits codec.max_length_bits (intMask codec.max_length_bits
               ((len : Int) - (codec.minimum_backreference : Int))))) ++
            lzssTokensBits codec rest from rfl, hoffm, hlenm]
        simp [List.append_assoc]
      obtain ⟨cb2, hread1, hinv2, hb2⟩ := bitsAt_read B p 1 wp cb (intMask 1 1) _ hb1 hinv
      obtain ⟨cb3, hread2, hinv3, hb3⟩ := bitsAt_read B (p + 1) codec.max_window_bits wp cb2
        (d - 1) _ hb2 hinv2
      obtain ⟨cb4, hread3, hinv4, hb4⟩ := bitsAt_read B (p + 1 + codec.max_window_bits)
        codec.max_length_bits wp cb3 (len - codec.minimum_backreference) _ hb3 hinv3
      have htok : LZToken.ref (-(((d - 1) % 2 ^ codec.max_window_bits : Nat) : Int) - 1)
          ((len - codec.minimum_backreference) % 2 ^ codec.max_length_bits +
            codec.minimum_backreference) = LZToken.ref off len := by
        rw [Nat.mod_eq_of_lt hdm1, Nat.mod_eq_of_lt hlsub]
        congr 1
        · rw [hoff]
          omega
        · omega
      have hrec := ih (tokenEnd p0 (.ref off len))
        (p + 1 + codec.max_window_bits + codec.max_length_bits) L2 B wp cb4
        (acc ++ [.ref off len]) hb4 hwfrest hinv4
      show (match Bitstream.read ⟨B, p, wp, cb⟩ 1 with
        | (flag, bs2) =>
          if flag ≠ 0 then
            match bs2.read codec.max_window_bits with
            | (rawoff, bs3) =>
              match bs3.read codec.max_length_bits with
              | (rawlen, bs4) =>
                lzssParseLoop codec.max_window_bits codec.max_length_bits
                  codec.minimum_backreference bs4
                  (acc ++ [LZToken.ref (-((rawoff : Nat) : Int) - 1)
                    (rawlen + codec.minimum_backreference)]) rest.length
          else
            match bs2.read 8 with
            | (value, bs3) =>
              lzssParseLoop codec.max_window_bits codec.max_length_bits
                codec.minimum_backreference bs3 (acc ++ [LZToken.lit value]) rest.length).1 =
        acc ++ (LZToken.ref off len :: rest)
      rw [hread1]
      show (if (intMask 1 1 % 2 ^ 1) ≠ 0 then
        (match Bitstream.read ⟨B, p + 1, wp, cb2⟩ codec.max_window_bits with
          | (rawoff, bs3) =>
            match bs3.read codec.max_length_bits with
            | (rawlen, bs4) =>
              lzssParseLoop codec.max_window_bits codec.max_length_bits
                codec.minimum_backreference bs4
                (acc ++ [LZToken.ref (-((rawoff : Nat) : Int) - 1)
                  (rawlen + codec.minimum_backreference)]) rest.length)
        else _).1 = _
      rw [if_pos (by norm_num [intMask])]
      rw [hread2]
      show (match Bitstream.read ⟨B, p + 1 + codec.max_window_bits, wp, cb3⟩
          codec.max_length_bits with
        | (rawlen, bs4) =>
          lzssParseLoop codec.max_window_bits codec.max_length_bits
            codec.minimum_backreference bs4
            (acc ++ [LZToken.ref (-(((d - 1) % 2 ^ codec.max_window_bits : Nat) : Int) - 1)
              (rawlen + codec.minimum_backreference)]) rest.length).1 = _
      rw [hread3]
      show (lzssParseLoop codec.max_window_bits codec.max_length_bits
        codec.minimum_backreference
        ⟨B, p + 1 + codec.max_window_bits + codec.max_length_bits, wp, cb4⟩
        (acc ++ [LZToken.ref (-(((d - 1) % 2 ^ codec.max_window_bits : Nat) : Int) - 1)
          ((len - codec.minimum_backreference) % 2 ^ codec.max_length_bits +
            codec.minimum_backreference)]) rest.length).1 = _
      rw [htok, hrec, List.append_assoc]
      rfl

/-- Claim C1: for every byte string and valid parameter pair (window_bits in
[3,16], length_bits in [1,16]), decoding the packed bytes produced by
to_binary applied to the token stream of compress returns exactly the input.
The token-count hypothesis reflects the documented size_bit_count = 22 bound
of the container (spec section 7, Overflow), which the byte-length bound
guarantees. -/
theorem C1_lzss_pipeline_roundtrip (data : List Nat) (w l : Nat)
    (hw : 3 ≤ w ∧ w ≤ 16) (hl : 1 ≤ l ∧ l ≤ 16)
    (hdata : ∀ b ∈ data, b < 256) (hsize : data.length < 2 ^ 22) :
    (LZSSCodec.init w l 22).from_binary
      ((LZSSCodec.init w l 22).to_binary ((LZSSCodec.init w l 22).compress data).1) =
      data := by
  obtain ⟨hw3, hw16⟩ := hw
  obtain ⟨hl1, hl16⟩ := hl
  obtain ⟨hmb1, hmb4⟩ := init_mb_bounds w l 22
  obtain ⟨hdec, hwf, hTlen, _⟩ := compress_spec (LZSSCodec.init w l 22) data hmb1 hdata
  obtain ⟨⟨pad, harr⟩, _⟩ := lzss_to_binary_spec (LZSSCodec.init w l 22)
    ((LZSSCodec.init w l 22).compress data).1
  set codec := LZSSCodec.init w l 22 with hcodec
  set T := (codec.compress data).1 with hT
  set B := codec.to_binary T with hB
  have hcw : codec.max_window_bits = w := rfl
  have hcl : codec.max_length_bits = l := rfl
  have hcs : codec.size_bit_count = 22 := rfl
  have hm1 : intMask 4 ((codec.max_window_bits : Int) - 3) = w - 3 := by
    rw [hcw]
    exact intMask_ofNat_sub 4 w 3 hw3 (by omega)
  have hm2 : intMask 4 ((codec.max_length_bits : Int) - 1) = l - 1 := by
    rw [hcl]
    exact intMask_ofNat_sub 4 l 1 hl1 (by omega)
  have hm3 : intMask 2 ((codec.minimum_backreference : Int) - 1) =
      codec.minimum_backreference - 1 :=
    intMask_ofNat_sub 2 _ 1 hmb1 (by omega)
  have hm4 : intMask codec.size_bit_count ((T.length : Nat) : Int) = T.length := by
    rw [hcs]
    exact intMask_ofNat 22 _ (by omega)
  have hb0 : BitsAt B 0 (natBits 4 (w - 3) ++ (natBits 4 (l - 1) ++
      (natBits 2 (codec.minimum_backreference - 1) ++
      (natBits codec.size_bit_count T.length ++
      (lzssTokensBits codec T ++ List.replicate pad false))))) := by
    refine ⟨[], ?_, rfl⟩
    rw [harr, lzssHeaderBits, hm1, hm2, hm3, hm4]
    simp [List.append_assoc]
  have hinv0 : (0 : Nat) % 8 ≠ 0 → (0 : Nat) = B.getD (0 / 8) 0 := by
    intro h
    simp at h
  obtain ⟨cb1, hr1, hi1, hb1⟩ := bitsAt_read B 0 4 0 0 (w - 3) _ hb0 hinv0
  obtain ⟨cb2, hr2, hi2, hb2⟩ := bitsAt_read B (0 + 4) 4 0 cb1 (l - 1) _ hb1 hi1
  obtain ⟨cb3, hr3, hi3, hb3⟩ := bitsAt_read B (0 + 4 + 4) 2 0 cb2
    (codec.minimum_backreference - 1) _ hb2 hi2
  obtain ⟨cb4, hr4, hi4, hb4⟩ := bitsAt_read B (0 + 4 + 4 + 2) codec.size_bit_count 0 cb3
    T.length _ hb3 hi3
  have hv1 : (w - 3) % 2 ^ 4 = w - 3 := Nat.mod_eq_of_lt (by omega)
  have hv2 : (l - 1) % 2 ^ 4 = l - 1 := Nat.mod_eq_of_lt (by omega)
  have hv3 : (codec.minimum_backreference - 1) % 2 ^ 2 =
      codec.minimum_backreference - 1 := Nat.mod_eq_of_lt (by omega)
  have hv4 : T.length % 2 ^ codec.size_bit_count = T.length := by
    rw [hcs]
    exact Nat.mod_eq_of_lt (by omega)
  have hparse := lzssParseLoop_spec codec data T 0 (0 + 4 + 4 + 2 + codec.size_bit_count)
    (List.replicate pad false) B 0 cb4 [] hb4 hwf hi4
  show (match (Bitstream.from_array B).read 4 with
    | (w2, bs1) =>
      match bs1.read 4 with
      | (l2, bs2) =>
        match bs2.read 2 with
        | (mb2, bs3) =>
          match bs3.read codec.size_bit_count with
          | (count, bs4) =>
            match lzssParseLoop (w2 + 3) (l2 + 1) (mb2 + 1) bs4 [] count with
            | (compressed_data, _) => LZSSCodec.decompress compressed_data) = data
  rw [show (Bitstream.from_array B).read 4 = Bitstream.read ⟨B, 0, 0, 0⟩ 4 from rfl, hr1]
  show (match Bitstream.read ⟨B, 0 + 4, 0, cb1⟩ 4 with
    | (l2, bs2) =>
      match bs2.read 2 with
      | (mb2, bs3) =>
        match bs3.read codec.size_bit_count with
        | (count, bs4) =>
          match lzssParseLoop ((w - 3) % 2 ^ 4 + 3) (l2 + 1) (mb2 + 1) bs4 [] count with
          | (compressed_data, _) => LZSSCodec.decompress compressed_data) = data
  rw [hr2]
  show (match Bitstream.read ⟨B, 0 + 4 + 4, 0, cb2⟩ 2 with
    | (mb2, bs3) =>
      match bs3.read codec.size_bit_count with
      | (count, bs4) =>
        match lzssParseLoop ((w - 3) % 2 ^ 4 + 3) ((l - 1) % 2 ^ 4 + 1) (mb2 + 1) bs4 []
            count with
        | (compressed_data, _) => LZSSCodec.decompress compressed_data) = data
  rw [hr3]
  show (match Bitstream.read ⟨B, 0 + 4 + 4 + 2, 0, cb3⟩ codec.size_bit_count with
    | (count, bs4) =>
      match lzssParseLoop ((w - 3) % 2 ^ 4 + 3) ((l - 1) % 2 ^ 4 + 1)
          ((codec.minimum_backreference - 1) % 2 ^ 2 + 1) bs4 [] count with
      | (compressed_data, _) => LZSSCodec.decompress compressed_data) = data
  rw [hr4]
  show LZSSCodec.decompress (lzssParseLoop ((w - 3) % 2 ^ 4 + 3) ((l - 1) % 2 ^ 4 + 1)
    ((codec.minimum_backreference - 1) % 2 ^ 2 + 1)
    ⟨B, 0 + 4 + 4 + 2 + codec.size_bit_count, 0, cb4⟩ []
    (T.length % 2 ^ codec.size_bit_count)).1 = data
  rw [hv1, hv2, hv3, hv4, show w - 3 + 3 = w by omega, show l - 1 + 1 = l by omega,
    show codec.minimum_backreference - 1 + 1 = codec.minimum_backreference by omega,
    show w = codec.max_window_bits from rfl, show l = codec.max_length_bits from rfl,
    hparse, List.nil_append]
  exact hdec

theorem C1_lzss_pipeline_roundtrip_witness :
    ((3 ≤ 4 ∧ 4 ≤ 16) ∧ (1 ≤ 4 ∧ 4 ≤ 16) ∧
      (∀ b ∈ [97, 98, 99, 97, 98, 99, 97, 98, 99, 97, 98, 99], b < 256) ∧
      ([97, 98, 99, 97, 98, 99, 97, 98, 99, 97, 98, 99] : List Nat).length < 2 ^ 22) ∧
    (LZSSCodec.init 4 4 22).from_binary
      ((LZSSCodec.init 4 4 22).to_binary
        ((LZSSCodec.init 4 4 22).compress [97, 98, 99, 97, 98, 99, 97, 98, 99, 97, 98, 99]).1) =
      [97, 98, 99, 97, 98, 99, 97, 98, 99, 97, 98, 99] :=
  ⟨⟨⟨by norm_num, by norm_num⟩, ⟨by norm_num, by norm_num⟩, by decide, by norm_num⟩,
    C1_lzss_pipeline_roundtrip _ 4 4 ⟨by norm_num, by norm_num⟩ ⟨by norm_num, by norm_num⟩
      (by decide) (by norm_num)⟩

/-- Claim C9: every token emitted by LZSSCodec.compress is well-formed: a
literal is the data byte at its output position (hence in 0..255), and a
back-reference at output position p has 1 ≤ -offset ≤ min(p, 2^window_bits)
and minimum_backreference ≤ length ≤ minimum_backreference + 2^length_bits -
1.  In consequence decompress never indexes before the start of its output,
the fixed-width offset and length fields of to_binary never truncate, and
common_prefix is only ever evaluated for candidates strictly before the
current position (nonempty left operand). -/
theorem C9_lzss_tokens_wellformed (data : List Nat) (w l : Nat)
    (hw : 3 ≤ w ∧ w ≤ 16) (hl : 1 ≤ l ∧ l ≤ 16) (hdata : ∀ b ∈ data, b < 256) :
    tokensWF (LZSSCodec.init w l 22) data ((LZSSCodec.init w l 22).compress data).1 0 :=
  (compress_spec (LZSSCodec.init w l 22) data (init_mb_bounds w l 22).1 hdata).2.1

theorem C9_lzss_tokens_wellformed_witness :
    tokensWF (LZSSCodec.init 4 4 22) [97, 98, 99, 97, 98, 99, 97, 98, 99, 97, 98, 99]
      ((LZSSCodec.init 4 4 22).compress [97, 98, 99, 97, 98, 99, 97, 98, 99, 97, 98, 99]).1 0 :=
  C9_lzss_tokens_wellformed _ 4 4 ⟨by norm_num, by norm_num⟩ ⟨by norm_num, by norm_num⟩
    (by decide)

/-! ### Embedding of compress.py: the RLE codec -/

/-- The module constant _rle_sentinel and rle_sentinel_for_bit_width. -/
def rle_sentinel_for_bit_width (bit_width : Nat) : Nat :=
  0x08192A3B4C5D6E7F &&& ((1 <<< bit_width) - 1)

/-- An RLE token: a bare value or a (value, count) run. -/
inductive RLEToken where
  | bare (v : Nat)
  | run (v : Nat) (count : Nat)
  deriving Repr, DecidableEq

structure RLECodec where
  bit_width : Nat
  size_bits : Nat
  dynamic_sentinel : Bool
  use_sentinel : Bool
  minimum_loop : Nat
  deriving Repr, DecidableEq

/-- The constructor RLECodec.__init__ (defaults: dynamic_sentinel true,
size_bits 24). -/
def RLECodec.init (bit_width : Nat) (dynamic_sentinel : Bool) (size_bits : Nat) : RLECodec :=
  { bit_width := bit_width, size_bits := size_bits, dynamic_sentinel := dynamic_sentinel,
    use_sentinel := bit_width &&& 3 == 0,
    minimum_loop := if bit_width &&& 3 == 0 then 3 else 2 }

structure RLEncodingStatistics where
  literals : Nat
  references : Nat
  max_length : Nat
  sentinel : Option Nat
  sentinel_count : Nat
  bit_width : Nat
  use_sentinel : Bool
  dynamic_sentinel : Bool
  header_bits : Nat
  deriving Repr, DecidableEq

def RLEncodingStatistics.init (codec : RLECodec) : RLEncodingStatistics :=
  { literals := 0, references := 0, max_length := 0, sentinel := none, sentinel_count := 0,
    bit_width := codec.bit_width,
    use_sentinel := codec.bit_width &&& 3 == 0,
    dynamic_sentinel := codec.dynamic_sentinel,
    header_bits := if codec.bit_width &&& 3 == 0 then 7 + 1 + codec.size_bits + codec.bit_width
      else 0 }

def RLEncodingStatistics.add_literal (s : RLEncodingStatistics) : RLEncodingStatistics :=
  { s with literals := s.literals + 1 }

def RLEncodingStatistics.add (s : RLEncodingStatistics) (length : Nat) : RLEncodingStatistics :=
  { s with
    references := s.references + 1,
    max_length := if length > s.max_length then length else s.max_length }

/-- The loop in compress that calls add_literal once per emitted bare value. -/
def addLiteralsRep (s : RLEncodingStatistics) : Nat → RLEncodingStatistics
  | 0 => s
  | n + 1 => addLiteralsRep s.add_literal n

/-- Python dict get on the sentinel frequency map (insertion-ordered). -/
def vmapGet (m : List (Nat × Nat)) (k : Nat) : Option Nat :=
  match m with
  | [] => none
  | kv :: t => if kv.1 = k then some kv.2 else vmapGet t k

def vmapSet (m : List (Nat × Nat)) (k v : Nat) : List (Nat × Nat) :=
  match m with
  | [] => [(k, v)]
  | kv :: t => if kv.1 = k then (k, v) :: t else kv :: vmapSet t k v

/-- The frequency-map building loop of analyze_sentinel: tuples are skipped,
each bare value increments its entry. -/
def buildValueMap : List RLEToken → List (Nat × Nat) → List (Nat × Nat)
  | [], m => m
  | .run _ _ :: rest, m => buildValueMap rest m
  | .bare v :: rest, m => buildValueMap rest (vmapSet m v ((vmapGet m v).getD 0 + 1))

/-- The gap-search loop of analyze_sentinel (for i in range(1 << bit_width)
with break on the first value missing from the map). -/
def firstAbsentAux (value_map : List (Nat × Nat)) : Nat → Nat → Option Nat
  | 0, _ => none
  | fuel + 1, i =>
    if vmapGet value_map i = none then some i else firstAbsentAux value_map fuel (i + 1)

def firstAbsent (bit_width : Nat) (value_map : List (Nat × Nat)) : Option Nat :=
  firstAbsentAux value_map (1 <<< bit_width) 0

/-- Python min(value_map.items(), key=lambda x: x[1]): the first item with the
least count. -/
def leastUsed : List (Nat × Nat) → Option (Nat × Nat)
  | [] => none
  | kv :: t => some (t.foldl (fun best y => if y.2 < best.2 then y else best) kv)

/-- The recount loop at the end of analyze_sentinel: occurrences of the chosen
sentinel among bare values. -/
def countEq (sentinel : Nat) : List RLEToken → Nat
  | [] => 0
  | .run _ _ :: rest => countEq sentinel rest
  | .bare v :: rest => (if v = sentinel then 1 else 0) + countEq sentinel rest

/-- The method RLEncodingStatistics.analyze_sentinel.  The leastUsed-none
fallback is unreachable (an all-values-present map over a nonempty range is
nonempty; Python would raise on min of an empty sequence). -/
def RLEncodingStatistics.analyze_sentinel (s : RLEncodingStatistics)
    (compression_result : List RLEToken) : RLEncodingStatistics :=
  if s.use_sentinel then
    let s2 :=
      if s.dynamic_sentinel then
        match firstAbsent s.bit_width (buildValueMap compression_result []) with
        | some i => { s with sentinel := some i, sentinel_count := 0 }
        | none =>
          match leastUsed (buildValueMap compression_result []) with
          | some kv => { s with sentinel := some kv.1, sentinel_count := kv.2 }
          | none => { s with sentinel := some 0, sentinel_count := 0 }
      else { s with sentinel := some (rle_sentinel_for_bit_width s.bit_width) }
    if s2.sentinel_count < 1 then
      { s2 with
        sentinel_count := s2.sentinel_count + countEq (s2.sentinel.getD 0) compression_result }
    else s2
  else s

def RLEncodingStatistics.size (s : RLEncodingStatistics) : Nat :=
  (s.header_bits +
    s.literals * (s.bit_width + (if s.use_sentinel then 0 else 1)) +
    s.references * (s.bit_width + (if s.use_sentinel then 0 else 1)) *
      (if s.use_sentinel then 3 else 2) +
    s.sentinel_count * (s.bit_width + (if s.use_sentinel then 0 else 1)) * 2 + 7) / 8

/-- The loop of the nested helper _get_value of RLECodec.compress: assemble up
to byte_width bytes little-endian (the isinstance-str branch cannot occur for
a bytes input). -/
def rgvAux (chunk : List Nat) : Nat → Nat → Nat → Nat
  | value, _, 0 => value
  | value, i, rem + 1 =>
      rgvAux chunk (value ||| ((chunk.getD i 0 &&& 255) <<< (i * 8))) (i + 1) rem

def rleGetValue (byte_width : Nat) (chunk : List Nat) : Nat :=
  rgvAux chunk 0 0 (min byte_width chunk.length)

/-- The inner run-scan loop of RLECodec.compress (the for over
range(position, len(data), byte_width)): count consecutive equal groups,
breaking on a mismatch or on reaching max_count; returns (count, position). -/
def rleScanRun (data : List Nat) (byte_width max_count value : Nat) :
    Nat → Nat → Nat → Nat × Nat
  | 0, i, count => (count, i)
  | fuel + 1, i, count =>
    if i < data.length then
      if value = rleGetValue byte_width ((data.drop i).take byte_width) then
        if count + 1 ≥ max_count then (count + 1, i + byte_width)
        else rleScanRun data byte_width max_count value fuel (i + byte_width) (count + 1)
      else (count, i)
    else (count, i)

/-- The main loop of RLECodec.compress; the position advances by at least
byte_width ≥ 1 per iteration, so data.length units of fuel suffice. -/
def rleCompressLoop (codec : RLECodec) (data : List Nat) (byte_width max_count : Nat) :
    Nat → Nat → List RLEToken → RLEncodingStatistics → List RLEToken × RLEncodingStatistics
  | 0, _, result, statistics => (result, statistics)
  | fuel + 1, position, result, statistics =>
    if position < data.length then
      match rleScanRun data byte_width max_count
          (rleGetValue byte_width ((data.drop position).take byte_width)) data.length
          (position + byte_width) 1 with
      | (count, position2) =>
        if count ≥ codec.minimum_loop then
          rleCompressLoop codec data byte_width max_count fuel position2
            (result ++ [RLEToken.run
              (rleGetValue byte_width ((data.drop position).take byte_width)) count])
            (statistics.add count)
        else
          rleCompressLoop codec data byte_width max_count fuel position2
            (result ++ List.replicate count (RLEToken.bare
              (rleGetValue byte_width ((data.drop position).take byte_width))))
            (addLiteralsRep statistics count)
    else (result, statistics)

/-- The method RLECodec.compress(data): scan runs, then analyze the sentinel
over the produced token stream. -/
def RLECodec.compress (codec : RLECodec) (data : List Nat) :
    List RLEToken × RLEncodingStatistics :=
  match rleCompressLoop codec data ((codec.bit_width + 7) / 8)
      (if codec.use_sentinel then 1 <<< (codec.bit_width + 1)
       else (1 <<< (codec.bit_width + 1)) <<< 1)
      data.length 0 [] (RLEncodingStatistics.init codec) with
  | (result, statistics) => (result, statistics.analyze_sentinel result)

/-- The valuebuffer loop of decompress: byte_width bytes of value,
little-endian. -/
def leBytes (value : Nat) : Nat → List Nat
  | 0 => []
  | n + 1 => (value &&& 255) :: leBytes (value >>> 8) n

/-- The bytebuffer.extend loop of decompress: append count copies. -/
def repExtend (buf vb : List Nat) : Nat → List Nat
  | 0 => buf
  | n + 1 => repExtend (buf ++ vb) vb n

def rleDecompressStep (byte_width : Nat) (buf : List Nat) (t : RLEToken) : List Nat :=
  match t with
  | .bare v => repExtend buf (leBytes v byte_width) 1
  | .run v count => repExtend buf (leBytes v byte_width) count

/-- The method RLECodec.decompress(compressed). -/
def RLECodec.decompress (codec : RLECodec) (compressed : List RLEToken) : List Nat :=
  compressed.foldl (rleDecompressStep ((codec.bit_width + 7) / 8)) []

/-- The nested helper append_repeat of RLECodec.to_binary. -/
def rleAppendRepeat (codec : RLECodec) (sentinel : Nat) (bs : Bitstream)
    (value count : Nat) : Bitstream :=
  ((if codec.use_sentinel then
      (bs.append codec.bit_width ((sentinel : Nat) : Int)).append codec.bit_width
        ((value : Nat) : Int)
    else
      (bs.append 1 1).append codec.bit_width ((value : Nat) : Int))).append
    (codec.bit_width + (if codec.use_sentinel then 0 else 1)) ((count : Int) - 1)

/-- The per-token body of the loop in RLECodec.to_binary: runs via
append_repeat, a bare value equal to the sentinel rewritten as a length-1
run, other bare values written plain (with a 0 flag bit in flag mode). -/
def rleTokenAppend (codec : RLECodec) (sentinel : Nat) (bs : Bitstream)
    (entry : RLEToken) : Bitstream :=
  match entry with
  | .run v c => rleAppendRepeat codec sentinel bs v c
  | .bare v =>
    if codec.use_sentinel = true ∧ v = sentinel then rleAppendRepeat codec sentinel bs v 1
    else (if codec.use_sentinel then bs else bs.append 1 0).append codec.bit_width
      ((v : Nat) : Int)

/-- The conditional sentinel field of the to_binary header. -/
def Bitstream.appendSentinelField (bs : Bitstream) (codec : RLECodec)
    (statistics : RLEncodingStatistics) : Bitstream :=
  if codec.use_sentinel then
    bs.append codec.bit_width (((statistics.sentinel.getD 0 : Nat) : Int))
  else bs

/-- The method RLECodec.to_binary(compressed_data, statistics).  The source
reads statistics.sentinel (never None after analyze_sentinel, else a Python
TypeError); getD 0 models that. -/
def RLECodec.to_binary (codec : RLECodec) (compressed_data : List RLEToken)
    (statistics : RLEncodingStatistics) : List Nat :=
  (compressed_data.foldl
    (rleTokenAppend codec (if codec.use_sentinel then statistics.sentinel.getD 0 else 0))
    (((((Bitstream.empty.append 7 ((codec.bit_width : Int) - 1)).append 1
        (if codec.use_sentinel then 1 else 0)).append codec.size_bits
        ((compressed_data.length : Int) - 1))).appendSentinelField codec statistics)).to_array

/-- The token-reading loop of RLECodec.from_binary in sentinel mode. -/
def rleParseLoopS (bit_width sentinel : Nat) :
    Bitstream → List RLEToken → Nat → List RLEToken × Bitstream
  | bs, acc, 0 => (acc, bs)
  | bs, acc, n + 1 =>
    match bs.read bit_width with
    | (value, bs2) =>
      if value = sentinel then
        match bs2.read bit_width with
        | (value2, bs3) =>
          match bs3.read bit_width with
          | (count, bs4) =>
            rleParseLoopS bit_width sentinel bs4 (acc ++ [.run value2 (count + 1)]) n
      else rleParseLoopS bit_width sentinel bs2 (acc ++ [.bare value]) n

/-- The token-reading loop of RLECodec.from_binary in flag mode. -/
def rleParseLoopF (bit_width : Nat) :
    Bitstream → List RLEToken → Nat → List RLEToken × Bitstream
  | bs, acc, 0 => (acc, bs)
  | bs, acc, n + 1 =>
    match bs.read 1 with
    | (repeat_flag, bs2) =>
      match bs2.read bit_width with
      | (value, bs3) =>
        if repeat_flag ≠ 0 then
          match bs3.read (bit_width + 1) with
          | (count, bs4) => rleParseLoopF bit_width bs4 (acc ++ [.run value (count + 1)]) n
        else rleParseLoopF bit_width bs3 (acc ++ [.bare value]) n

/-- The method RLECodec.from_binary(data).  As the source does (and as the
spec notes in section 9), it returns the token list, not bytes; the source
also overwrites self.bit_width with the decoded width, which the decoded
width parameterises here. -/
def RLECodec.from_binary (codec : RLECodec) (data : List Nat) : List RLEToken :=
  match (Bitstream.from_array data).read 7 with
  | (bw, bs1) =>
    match bs1.read 1 with
    | (use_sentinel, bs2) =>
      match bs2.read codec.size_bits with
      | (count, bs3) =>
        if use_sentinel ≠ 0 then
          match bs3.read (bw + 1) with
          | (sentinel, bs4) => (rleParseLoopS (bw + 1) sentinel bs4 [] (count + 1)).1
        else (rleParseLoopF (bw + 1) bs3 [] (count + 1)).1

/-! ### Group values, little-endian bytes, padded data -/

theorem drop_take_succ_nat (l : List Nat) (p n : Nat) (hp : p < l.length) :
    (l.drop p).take (n + 1) = l.getD p 0 :: (l.drop (p + 1)).take n := by
  rw [List.drop_eq_getElem_cons hp, List.take_succ_cons, List.getD_eq_getElem _ _ hp]

/-- Disjoint-range bitwise or is addition. -/
theorem or_shift_add (a b k : Nat) (ha : a < 2 ^ k) : a ||| (b <<< k) = a + b * 2 ^ k := by
  apply Nat.eq_of_testBit_eq
  intro i
  rw [Nat.testBit_or, Nat.shiftLeft_eq]
  by_cases h : i < k
  · have hb : (b * 2 ^ k).testBit i = false := by
      rw [Nat.testBit_to_div_mod]
      have hdiv : b * 2 ^ k / 2 ^ i = b * 2 ^ (k - i) := by
        rw [show (2 : Nat) ^ k = 2 ^ (k - i) * 2 ^ i by rw [← pow_add]; congr 1; omega,
          ← Nat.mul_assoc, Nat.mul_div_cancel _ (by positivity)]
      have heven : b * 2 ^ (k - i) % 2 = 0 := by
        rw [show (2 : Nat) ^ (k - i) = 2 * 2 ^ (k - i - 1) by
            rw [← pow_succ']; congr 1; omega,
          show b * (2 * 2 ^ (k - i - 1)) = b * 2 ^ (k - i - 1) * 2 by ring]
        exact Nat.mul_mod_left _ _
      rw [hdiv]
      simp [heven]
    have hsum : (a + b * 2 ^ k).testBit i = a.testBit i := by
      rw [Nat.testBit_to_div_mod, Nat.testBit_to_div_mod]
      have hdiv : (a + b * 2 ^ k) / 2 ^ i = a / 2 ^ i + b * 2 ^ (k - i) := by
        rw [show (2 : Nat) ^ k = 2 ^ (k - i) * 2 ^ i by rw [← pow_add]; congr 1; omega,
          ← Nat.mul_assoc, Nat.add_mul_div_right _ _ (by positivity : 0 < 2 ^ i)]
      rw [hdiv, show (2 : Nat) ^ (k - i) = 2 * 2 ^ (k - i - 1) by
          rw [← pow_succ']; congr 1; omega,
        show a / 2 ^ i + b * (2 * 2 ^ (k - i - 1)) = a / 2 ^ i + b * 2 ^ (k - i - 1) * 2 by ring,
        Nat.add_mul_mod_self_right]
    rw [hb, hsum, Bool.or_false]
  · have hba : a.testBit i = false :=
      Nat.testBit_lt_two_pow (lt_of_lt_of_le ha (Nat.pow_le_pow_right (by norm_num) (by omega)))
    have hsum : (a + b * 2 ^ k).testBit i = (b * 2 ^ k).testBit i := by
      rw [Nat.testBit_to_div_mod, Nat.testBit_to_div_mod]
      have hsplit : ∀ x : Nat, x / 2 ^ i = x / 2 ^ k / 2 ^ (i - k) := by
        intro x
        rw [Nat.div_div_eq_div_mul, ← pow_add]
        congr 2
        omega
      rw [hsplit (a + b * 2 ^ k), hsplit (b * 2 ^ k),
        Nat.add_mul_div_right _ _ (by positivity : 0 < 2 ^ k),
        Nat.mul_div_cancel _ (by positivity : 0 < 2 ^ k),
        Nat.div_eq_of_lt ha, Nat.zero_add]
    rw [hba, hsum, Bool.false_or]

/-- Little-endian value of a byte group, with Python's per-byte masking. -/
def groupVal : List Nat → Nat
  | [] => 0
  | b :: t => (b &&& 255) + 256 * groupVal t

theorem and_255_eq_mod (x : Nat) : x &&& 255 = x % 256 := by
  have h : (255 : Nat) = 2 ^ 8 - 1 := by norm_num
  rw [h, Nat.and_pow_two_sub_one_eq_mod]

theorem groupVal_lt (c : List Nat) : groupVal c < 2 ^ (8 * c.length) := by
  induction c with
  | nil => simp [groupVal]
  | cons b t ih =>
    show (b &&& 255) + 256 * groupVal t < 2 ^ (8 * (t.length + 1))
    have hb : b &&& 255 ≤ 255 := by
      rw [and_255_eq_mod]
      omega
    calc (b &&& 255) + 256 * groupVal t < 256 * (groupVal t + 1) := by omega
      _ ≤ 256 * 2 ^ (8 * t.length) := Nat.mul_le_mul_left _ (by omega)
      _ = 2 ^ (8 * (t.length + 1)) := by
          rw [show 8 * (t.length + 1) = 8 + 8 * t.length by ring, pow_add]
          norm_num

theorem rgvAux_spec (chunk : List Nat) : ∀ (n i value : Nat), value < 2 ^ (8 * i) →
    rgvAux chunk value i n = value + 2 ^ (8 * i) * groupVal ((chunk.drop i).take n) := by
  intro n
  induction n with
  | zero =>
    intro i value _
    simp [rgvAux, groupVal]
  | succ m ih =>
    intro i value hv
    show rgvAux chunk (value ||| ((chunk.getD i 0 &&& 255) <<< (i * 8))) (i + 1) m = _
    have hmask : chunk.getD i 0 &&& 255 ≤ 255 := by
      rw [and_255_eq_mod]
      omega
    have hor : value ||| ((chunk.getD i 0 &&& 255) <<< (i * 8)) =
        value + (chunk.getD i 0 &&& 255) * 2 ^ (8 * i) := by
      rw [show i * 8 = 8 * i by ring]
      exact or_shift_add _ _ _ hv
    have hvv : value + (chunk.getD i 0 &&& 255) * 2 ^ (8 * i) < 2 ^ (8 * (i + 1)) := by
      have hpow : 2 ^ (8 * (i + 1)) = 256 * 2 ^ (8 * i) := by
        rw [show 8 * (i + 1) = 8 + 8 * i by ring, pow_add]
        norm_num
      have h255 : (chunk.getD i 0 &&& 255) * 2 ^ (8 * i) ≤ 255 * 2 ^ (8 * i) :=
        Nat.mul_le_mul_right _ hmask
      have h256 : 256 * 2 ^ (8 * i) = 255 * 2 ^ (8 * i) + 2 ^ (8 * i) := by ring
      omega
    rw [hor, ih (i + 1) _ hvv]
    by_cases hil : i < chunk.length
    · rw [drop_take_succ_nat chunk i m hil]
      show _ = value + 2 ^ (8 * i) *
        ((chunk.getD i 0 &&& 255) + 256 * groupVal ((chunk.drop (i + 1)).take m))
      have hpow : 2 ^ (8 * (i + 1)) = 2 ^ (8 * i) * 256 := by
        rw [show 8 * (i + 1) = 8 * i + 8 by ring, pow_add]
        norm_num
      rw [hpow]
      ring
    · have hd : chunk.getD i 0 = 0 := List.getD_eq_default _ _ (by omega)
      have hdrop : chunk.drop i = [] := List.drop_eq_nil_of_le (by omega)
      have hdrop2 : chunk.drop (i + 1) = [] := List.drop_eq_nil_of_le (by omega)
      rw [hd, hdrop, hdrop2]
      simp [groupVal]

theorem rleGetValue_eq (byte_width : Nat) (chunk : List Nat) (h : chunk.length ≤ byte_width) :
    rleGetValue byte_width chunk = groupVal chunk := by
  unfold rleGetValue
  rw [min_eq_right h, rgvAux_spec chunk chunk.length 0 0 (by norm_num)]
  simp

theorem leBytes_zero : ∀ n : Nat, leBytes 0 n = List.replicate n 0 := by
  intro n
  induction n with
  | zero => rfl
  | succ m ih =>
    show (0 &&& 255) :: leBytes (0 >>> 8) m = _
    rw [show (0 : Nat) &&& 255 = 0 from rfl, show (0 : Nat) >>> 8 = 0 from rfl, ih]
    rfl

theorem leBytes_groupVal : ∀ (c : List Nat) (m : Nat), (∀ b ∈ c, b < 256) → c.length ≤ m →
    leBytes (groupVal c) m = c ++ List.replicate (m - c.length) 0 := by
  intro c
  induction c with
  | nil =>
    intro m _ _
    simp [groupVal, leBytes_zero]
  | cons b t ih =>
    intro m hb hm
    obtain ⟨m2, rfl⟩ : ∃ m2, m = m2 + 1 := ⟨m - 1, by simp at hm; omega⟩
    have hb256 : b < 256 := hb b (List.mem_cons_self _ _)
    have hmask : b &&& 255 = b := by
      rw [and_255_eq_mod]
      exact Nat.mod_eq_of_lt hb256
    show (((b &&& 255) + 256 * groupVal t) &&& 255) ::
      leBytes (((b &&& 255) + 256 * groupVal t) >>> 8) m2 = _
    have h1 : ((b &&& 255) + 256 * groupVal t) &&& 255 = b := by
      rw [and_255_eq_mod, hmask, Nat.add_mul_mod_self_left, Nat.mod_eq_of_lt hb256]
    have h2 : ((b &&& 255) + 256 * groupVal t) >>> 8 = groupVal t := by
      rw [Nat.shiftRight_eq_div_pow, hmask, show (2 : Nat) ^ 8 = 256 by norm_num,
        Nat.add_mul_div_left _ _ (by norm_num : 0 < 256), Nat.div_eq_of_lt hb256,
        Nat.zero_add]
    rw [h1, h2, ih m2 (fun x hx => hb x (List.mem_cons_of_mem _ hx)) (by simp at hm; omega)]
    have hc : m2 + 1 - (b :: t).length = m2 - t.length := by
      simp
    rw [hc]
    rfl

/-- The byte string produced so far: the input up to position p, zero-padded
past the end. -/
def padded (data : List Nat) (p : Nat) : List Nat :=
  data.take p ++ List.replicate (p - data.length) 0

theorem padded_zero (data : List Nat) : padded data 0 = [] := by
  simp [padded]

theorem padded_full (data : List Nat) (p : Nat) (h : data.length ≤ p) :
    padded data p = data ++ List.replicate (p - data.length) 0 := by
  unfold padded
  rw [List.take_of_length_le h]

/-- Consuming one group extends the padded output by the group bytes,
zero-extended to byte_width. -/
theorem group_padded (data : List Nat) (hdata : ∀ b ∈ data, b < 256) (bw p : Nat)
    (hbw : 1 ≤ bw) (hp : p < data.length) :
    padded data (p + bw) =
      padded data p ++ leBytes (rleGetValue bw ((data.drop p).take bw)) bw := by
  have hchl : ((data.drop p).take bw).length = min bw (data.length - p) := by
    rw [List.length_take, List.length_drop]
  have hmem : ∀ b ∈ (data.drop p).take bw, b < 256 := by
    intro b hbm
    exact hdata b (List.mem_of_mem_drop (List.mem_of_mem_take hbm))
  rw [rleGetValue_eq bw _ (by omega), leBytes_groupVal _ bw hmem (by omega)]
  unfold padded
  rw [show data.take p ++ List.replicate (p - data.length) 0 = data.take p from by
    rw [show p - data.length = 0 by omega]; simp]
  rw [← List.append_assoc, ← List.take_add]
  congr 1
  rw [hchl]
  congr 1
  omega

/-! ### The RLE compress loop: token-level round-trip and statistics -/

theorem rle_decompress_append (codec : RLECodec) (R : List RLEToken) (t : RLEToken) :
    codec.decompress (R ++ [t]) =
      rleDecompressStep ((codec.bit_width + 7) / 8) (codec.decompress R) t := by
  unfold RLECodec.decompress
  rw [List.foldl_append]
  rfl

theorem rle_decompress_append_rep (codec : RLECodec) (R : List RLEToken) (v : Nat) :
    ∀ n : Nat, codec.decompress (R ++ List.replicate n (.bare v)) =
      repExtend (codec.decompress R) (leBytes v ((codec.bit_width + 7) / 8)) n := by
  intro n
  induction n generalizing R with
  | zero => simp [repExtend]
  | succ m ih =>
    rw [show List.replicate (m + 1) (RLEToken.bare v) =
      RLEToken.bare v :: List.replicate m (RLEToken.bare v) from rfl,
      show R ++ (RLEToken.bare v :: List.replicate m (RLEToken.bare v)) =
        (R ++ [RLEToken.bare v]) ++ List.replicate m (RLEToken.bare v) by simp,
      ih (R ++ [RLEToken.bare v]), rle_decompress_append]
    rfl

def countBares : List RLEToken → Nat
  | [] => 0
  | .bare _ :: rest => countBares rest + 1
  | .run _ _ :: rest => countBares rest

def countRuns : List RLEToken → Nat
  | [] => 0
  | .bare _ :: rest => countRuns rest
  | .run _ _ :: rest => countRuns rest + 1

theorem countBares_append_run (R : List RLEToken) (v c : Nat) :
    countBares (R ++ [.run v c]) = countBares R := by
  induction R with
  | nil => rfl
  | cons x rest ih =>
    cases x with
    | bare a =>
      show countBares (rest ++ [.run v c]) + 1 = countBares rest + 1
      rw [ih]
    | run a b =>
      show countBares (rest ++ [.run v c]) = countBares rest
      rw [ih]

theorem countRuns_append_run (R : List RLEToken) (v c : Nat) :
    countRuns (R ++ [.run v c]) = countRuns R + 1 := by
  induction R with
  | nil => rfl
  | cons x rest ih =>
    cases x with
    | bare a =>
      show countRuns (rest ++ [.run v c]) = countRuns rest + 1
      rw [ih]
    | run a b =>
      show countRuns (rest ++ [.run v c]) + 1 = countRuns rest + 1 + 1
      rw [ih]

theorem countBares_append_rep (R : List RLEToken) (v : Nat) : ∀ n : Nat,
    countBares (R ++ List.replicate n (.bare v)) = countBares R + n := by
  intro n
  induction n generalizing R with
  | zero => simp
  | succ m ih =>
    rw [show List.replicate (m + 1) (RLEToken.bare v) =
      RLEToken.bare v :: List.replicate m (RLEToken.bare v) from rfl,
      show R ++ (RLEToken.bare v :: List.replicate m (RLEToken.bare v)) =
        (R ++ [RLEToken.bare v]) ++ List.replicate m (RLEToken.bare v) by simp,
      ih (R ++ [RLEToken.bare v])]
    have h2 : countBares (R ++ [RLEToken.bare v]) = countBares R + 1 := by
      induction R with
      | nil => rfl
      | cons x rest ih2 =>
        cases x with
        | bare a =>
          show countBares (rest ++ [RLEToken.bare v]) + 1 = countBares rest + 1 + 1
          rw [show countBares (rest ++ [RLEToken.bare v]) = countBares rest + 1 from ih2]
        | run a b =>
          show countBares (rest ++ [RLEToken.bare v]) = countBares rest + 1
          exact ih2
    rw [h2]
    omega

theorem countRuns_append_rep (R : List RLEToken) (v : Nat) : ∀ n : Nat,
    countRuns (R ++ List.replicate n (.bare v)) = countRuns R := by
  intro n
  induction n generalizing R with
  | zero => simp
  | succ m ih =>
    rw [show List.replicate (m + 1) (RLEToken.bare v) =
      RLEToken.bare v :: List.replicate m (RLEToken.bare v) from rfl,
      show R ++ (RLEToken.bare v :: List.replicate m (RLEToken.bare v)) =
        (R ++ [RLEToken.bare v]) ++ List.replicate m (RLEToken.bare v) by simp,
      ih (R ++ [RLEToken.bare v])]
    induction R with
    | nil => rfl
    | cons x rest ih2 =>
      cases x with
      | bare a =>
        show countRuns (rest ++ [RLEToken.bare v]) = countRuns rest
        exact ih2
      | run a b =>
        show countRuns (rest ++ [RLEToken.bare v]) + 1 = countRuns rest + 1
        rw [show countRuns (rest ++ [RLEToken.bare v]) = countRuns rest from ih2]

theorem addLiteralsRep_spec (s : RLEncodingStatistics) : ∀ n : Nat,
    addLiteralsRep s n =
      { s with literals := s.literals + n } := by
  intro n
  induction n generalizing s with
  | zero => simp [addLiteralsRep]
  | succ m ih =>
    show addLiteralsRep s.add_literal m = _
    rw [ih]
    simp only [RLEncodingStatistics.add_literal]
    congr 1
    omega

/-- Relation between the running RLE statistics and the token list during the
compress loop (analyze_sentinel has not run yet). -/
def rleStatsInv (codec : RLECodec) (results : List RLEToken)
    (stats : RLEncodingStatistics) : Prop :=
  stats.literals = countBares results ∧ stats.references = countRuns results ∧
  stats.bit_width = codec.bit_width ∧
  stats.use_sentinel = (codec.bit_width &&& 3 == 0) ∧
  stats.dynamic_sentinel = codec.dynamic_sentinel ∧
  stats.header_bits = (if codec.bit_width &&& 3 == 0 then
    7 + 1 + codec.size_bits + codec.bit_width else 0) ∧
  stats.sentinel = none ∧ stats.sentinel_count = 0

theorem rleScanRun_spec (data : List Nat) (hdata : ∀ b ∈ data, b < 256)
    (bw mc value : Nat) (hbw : 1 ≤ bw) :
    ∀ (fuel i count c2 i2 : Nat),
    rleScanRun data bw mc value fuel i count = (c2, i2) →
    count ≤ c2 ∧ i2 = i + (c2 - count) * bw ∧
    (i2 = i ∨ i2 ≤ data.length - 1 + bw) ∧
    repExtend (padded data i) (leBytes value bw) (c2 - count) = padded data i2 := by
  intro fuel
  induction fuel with
  | zero =>
    intro i count c2 i2 heq
    obtain ⟨h1, h2⟩ := Prod.mk.injEq _ _ _ _ ▸ heq
    refine ⟨by omega, ?_, Or.inl (by omega), ?_⟩
    · rw [show c2 - count = 0 by omega, Nat.zero_mul]
      omega
    · rw [show c2 - count = 0 by omega, ← h2]
      rfl
  | succ f ih =>
    intro i count c2 i2 heq
    by_cases hil : i < data.length
    · by_cases hveq : value = rleGetValue bw ((data.drop i).take bw)
      · have hg : padded data i ++ leBytes value bw = padded data (i + bw) := by
          rw [hveq]
          exact (group_padded data hdata bw i hbw hil).symm
        by_cases hmc : count + 1 ≥ mc
        · have heq2 : (count + 1, i + bw) = (c2, i2) := by
            rw [← heq]
            show _ = (if i < data.length then _ else _)
            rw [if_pos hil, if_pos (by exact hveq), if_pos hmc]
          obtain ⟨h1, h2⟩ := Prod.mk.injEq _ _ _ _ ▸ heq2
          refine ⟨by omega, ?_, Or.inr (by omega), ?_⟩
          · rw [show c2 - count = 1 by omega, Nat.one_mul]
            omega
          rw [show c2 - count = 1 by omega]
          show repExtend (padded data i ++ leBytes value bw) (leBytes value bw) 0 =
            padded data i2
          rw [hg]
          show padded data (i + bw) = padded data i2
          rw [← h2]
        · have heq2 : rleScanRun data bw mc value f (i + bw) (count + 1) = (c2, i2) := by
            rw [← heq]
            show _ = (if i < data.length then _ else _)
            rw [if_pos hil, if_pos (by exact hveq), if_neg hmc]
          obtain ⟨h1, h2, h3, h4⟩ := ih (i + bw) (count + 1) c2 i2 heq2
          have hc2 : (c2 - count) = (c2 - (count + 1)) + 1 := by omega
          have hmul : (c2 - count) * bw = (c2 - (count + 1)) * bw + bw := by
            rw [hc2]
            ring
          refine ⟨by omega, ?_, ?_, ?_⟩
          · rw [hmul]
            omega
          · rcases h3 with h | h
            · right; omega
            · right; omega
          · rw [hc2]
            show repExtend (padded data i ++ leBytes value bw) (leBytes value bw)
              (c2 - (count + 1)) = _
            rw [hg]
            exact h4
      · have heq2 : (count, i) = (c2, i2) := by
          rw [← heq]
          show _ = (if i < data.length then _ else _)
          rw [if_pos hil, if_neg hveq]
        obtain ⟨h1, h2⟩ := Prod.mk.injEq _ _ _ _ ▸ heq2
        refine ⟨by omega, ?_, Or.inl (by omega), ?_⟩
        · rw [show c2 - count = 0 by omega, Nat.zero_mul]
          omega
        · rw [show c2 - count = 0 by omega]
          show padded data i = padded data i2
          rw [← h2]
    · have heq2 : (count, i) = (c2, i2) := by
        rw [← heq]
        show _ = (if i < data.length then _ else _)
        rw [if_neg hil]
      obtain ⟨h1, h2⟩ := Prod.mk.injEq _ _ _ _ ▸ heq2
      refine ⟨by omega, ?_, Or.inl (by omega), ?_⟩
      · rw [show c2 - count = 0 by omega, Nat.zero_mul]
        omega
      · rw [show c2 - count = 0 by omega]
        show padded data i = padded data i2
        rw [← h2]

theorem rleCompressLoop_succ (codec : RLECodec) (data : List Nat) (bw mc fuel position : Nat)
    (result : List RLEToken) (stats : RLEncodingStatistics) :
    rleCompressLoop codec data bw mc (fuel + 1) position result stats =
      if position < data.length then
        match rleScanRun data bw mc
            (rleGetValue bw ((data.drop position).take bw)) data.length
            (position + bw) 1 with
        | (count, position2) =>
          if count ≥ codec.minimum_loop then
            rleCompressLoop codec data bw mc fuel position2
              (result ++ [RLEToken.run
                (rleGetValue bw ((data.drop position).take bw)) count])
              (stats.add count)
          else
            rleCompressLoop codec data bw mc fuel position2
              (result ++ List.replicate count (RLEToken.bare
                (rleGetValue bw ((data.drop position).take bw))))
              (addLiteralsRep stats count)
      else (result, stats) := rfl

theorem rleCompressLoop_spec (codec : RLECodec) (data : List Nat)
    (hdata : ∀ b ∈ data, b < 256) (bw mc : Nat)
    (hbw : bw = (codec.bit_width + 7) / 8) (hbw1 : 1 ≤ bw) :
    ∀ (fuel position : Nat) (result : List RLEToken) (stats : RLEncodingStatistics),
    data.length - position ≤ fuel →
    codec.decompress result = padded data position →
    rleStatsInv codec result stats →
    bw ∣ position →
    (position = 0 ∨ (1 ≤ data.length ∧ position ≤ data.length - 1 + bw)) →
    ∃ pfin : Nat,
      codec.decompress (rleCompressLoop codec data bw mc fuel position result stats).1 =
        padded data pfin ∧
      data.length ≤ pfin ∧ pfin < data.length + bw ∧ bw ∣ pfin ∧
      rleStatsInv codec (rleCompressLoop codec data bw mc fuel position result stats).1
        (rleCompressLoop codec data bw mc fuel position result stats).2 := by
  intro fuel
  induction fuel with
  | zero =>
    intro position result stats hfuel hdec hinv hdvd hpos
    have h0 : rleCompressLoop codec data bw mc 0 position result stats = (result, stats) := rfl
    rw [h0]
    refine ⟨position, hdec, by omega, ?_, hdvd, hinv⟩
    rcases hpos with h | h
    · omega
    · omega
  | succ fuel ih =>
    intro position result stats hfuel hdec hinv hdvd hpos
    obtain ⟨hl, hr, hbwi, hus, hds, hhb, hsn, hsc0⟩ := hinv
    by_cases hpl : position < data.length
    · obtain ⟨c2, i2, hsc⟩ : ∃ c2 i2,
          rleScanRun data bw mc (rleGetValue bw ((data.drop position).take bw))
            data.length (position + bw) 1 = (c2, i2) := ⟨_, _, rfl⟩
      have hstep : rleCompressLoop codec data bw mc (fuel + 1) position result stats =
          if c2 ≥ codec.minimum_loop then
            rleCompressLoop codec data bw mc fuel i2
              (result ++ [RLEToken.run
                (rleGetValue bw ((data.drop position).take bw)) c2])
              (stats.add c2)
          else
            rleCompressLoop codec data bw mc fuel i2
              (result ++ List.replicate c2 (RLEToken.bare
                (rleGetValue bw ((data.drop position).take bw))))
              (addLiteralsRep stats c2) := by
        rw [rleCompressLoop_succ, if_pos hpl, hsc]
      obtain ⟨h1, h2, h3, h4⟩ := rleScanRun_spec data hdata bw mc
        (rleGetValue bw ((data.drop position).take bw)) hbw1 data.length
        (position + bw) 1 c2 i2 hsc
      have hgp := group_padded data hdata bw position hbw1 hpl
      have hc2 : c2 - 1 + 1 = c2 := by omega
      have hfuel2 : data.length - i2 ≤ fuel := by omega
      have hdvd2 : bw ∣ i2 := by
        obtain ⟨k, hk⟩ := hdvd
        exact ⟨k + 1 + (c2 - 1), by rw [h2, hk]; ring⟩
      have hpos2 : i2 = 0 ∨ (1 ≤ data.length ∧ i2 ≤ data.length - 1 + bw) := by
        rcases h3 with h | h
        · right; exact ⟨by omega, by omega⟩
        · right; exact ⟨by omega, h⟩
      have hdec2run : codec.decompress (result ++ [RLEToken.run
          (rleGetValue bw ((data.drop position).take bw)) c2]) = padded data i2 := by
        rw [rle_decompress_append]
        show repExtend (codec.decompress result)
          (leBytes (rleGetValue bw ((data.drop position).take bw))
            ((codec.bit_width + 7) / 8)) c2 = padded data i2
        rw [← hbw, hdec, ← hc2]
        show repExtend
          (padded data position ++ leBytes (rleGetValue bw ((data.drop position).take bw)) bw)
          (leBytes (rleGetValue bw ((data.drop position).take bw)) bw) (c2 - 1) =
          padded data i2
        rw [← hgp]
        exact h4
      have hdec2lit : codec.decompress (result ++ List.replicate c2 (RLEToken.bare
          (rleGetValue bw ((data.drop position).take bw)))) = padded data i2 := by
        rw [rle_decompress_append_rep]
        rw [← hbw, hdec, ← hc2]
        show repExtend
          (padded data position ++ leBytes (rleGetValue bw ((data.drop position).take bw)) bw)
          (leBytes (rleGetValue bw ((data.drop position).take bw)) bw) (c2 - 1) =
          padded data i2
        rw [← hgp]
        exact h4
      have hinv2run : rleStatsInv codec (result ++ [RLEToken.run
          (rleGetValue bw ((data.drop position).take bw)) c2]) (stats.add c2) := by
        refine ⟨?_, ?_, hbwi, hus, hds, hhb, hsn, hsc0⟩
        · show stats.literals = _
          rw [countBares_append_run]
          exact hl
        · show stats.references + 1 = _
          rw [countRuns_append_run, hr]
      have hinv2lit : rleStatsInv codec (result ++ List.replicate c2 (RLEToken.bare
          (rleGetValue bw ((data.drop position).take bw)))) (addLiteralsRep stats c2) := by
        rw [addLiteralsRep_spec]
        refine ⟨?_, ?_, hbwi, hus, hds, hhb, hsn, hsc0⟩
        · show stats.literals + c2 = _
          rw [countBares_append_rep, hl]
        · show stats.references = _
          rw [countRuns_append_rep]
          exact hr
      rw [hstep]
      by_cases hml : c2 ≥ codec.minimum_loop
      · rw [if_pos hml]
        exact ih i2 _ _ hfuel2 hdec2run hinv2run hdvd2 hpos2
      · rw [if_neg hml]
        exact ih i2 _ _ hfuel2 hdec2lit hinv2lit hdvd2 hpos2
    · have hstep : rleCompressLoop codec data bw mc (fuel + 1) position result stats =
          (result, stats) := by
        rw [rleCompressLoop_succ, if_neg hpl]
      rw [hstep]
      refine ⟨position, hdec, by omega, ?_, hdvd,
        ⟨hl, hr, hbwi, hus, hds, hhb, hsn, hsc0⟩⟩
      rcases hpos with h | h
      · omega
      · omega

theorem rle_ceil_mul (len bw k : Nat) (hbw1 : 1 ≤ bw) (hlo : len ≤ bw * k)
    (hhi : bw * k < len + bw) : (len + bw - 1) / bw = k := by
  apply Nat.div_eq_of_lt_le
  · rw [Nat.mul_comm]
    omega
  · rw [Nat.add_mul, Nat.one_mul, Nat.mul_comm]
    omega

/-- C10: when byte_width = ceil(bit_width/8) does not divide len(data),
RLECodec.compress zero-extends the final short group, and RLECodec.decompress
of the produced token stream returns data padded with zero bytes to
ceil(len/byte_width)*byte_width; when byte_width divides len(data), the
token-level round-trip returns data exactly. -/
theorem C10_rle_padding_roundtrip (data : List Nat) (hdata : ∀ b ∈ data, b < 256)
    (bit_width : Nat) (hbwpos : 1 ≤ bit_width) (hbwle : bit_width ≤ 128)
    (ds : Bool) (sb : Nat) :
    (RLECodec.init bit_width ds sb).decompress
        ((RLECodec.init bit_width ds sb).compress data).1 =
      data ++ List.replicate
        ((data.length + (bit_width + 7) / 8 - 1) / ((bit_width + 7) / 8) *
          ((bit_width + 7) / 8) - data.length) 0 ∧
    ((bit_width + 7) / 8 ∣ data.length →
      (RLECodec.init bit_width ds sb).decompress
          ((RLECodec.init bit_width ds sb).compress data).1 = data) := by
  have hbw1 : 1 ≤ (bit_width + 7) / 8 := by omega
  obtain ⟨pfin, hd, hlen, hlt, hdv, _⟩ :=
    rleCompressLoop_spec (RLECodec.init bit_width ds sb) data hdata
      ((bit_width + 7) / 8)
      (if (RLECodec.init bit_width ds sb).use_sentinel then
        1 <<< ((RLECodec.init bit_width ds sb).bit_width + 1)
       else (1 <<< ((RLECodec.init bit_width ds sb).bit_width + 1)) <<< 1)
      rfl hbw1 data.length 0 []
      (RLEncodingStatistics.init (RLECodec.init bit_width ds sb))
      (by omega) (by rw [padded_zero]; rfl)
      ⟨rfl, rfl, rfl, rfl, rfl, rfl, rfl, rfl⟩
      (dvd_zero _) (Or.inl rfl)
  have hgoal : (RLECodec.init bit_width ds sb).decompress
      ((RLECodec.init bit_width ds sb).compress data).1 = padded data pfin := hd
  obtain ⟨k, hk⟩ := hdv
  have hkeq : (data.length + (bit_width + 7) / 8 - 1) / ((bit_width + 7) / 8) = k :=
    rle_ceil_mul data.length ((bit_width + 7) / 8) k hbw1 (by omega) (by omega)
  have hmul : (data.length + (bit_width + 7) / 8 - 1) / ((bit_width + 7) / 8) *
      ((bit_width + 7) / 8) = pfin := by
    rw [hkeq, Nat.mul_comm]
    exact hk.symm
  constructor
  · rw [hgoal, hmul, padded_full data pfin hlen]
  · intro hdl
    have hsub : (bit_width + 7) / 8 ∣ pfin - data.length := Nat.dvd_sub' ⟨k, hk⟩ hdl
    have hz : pfin - data.length = 0 :=
      Nat.eq_zero_of_dvd_of_lt hsub (by omega)
    rw [hgoal, padded_full data pfin hlen, hz]
    simp

/-- Closed witness for C10 at bit_width 16: [7, 8, 9] has a trailing short
group and decodes to [7, 8, 9, 0]; [1, 2, 3, 4] round-trips exactly. -/
theorem C10_rle_padding_roundtrip_witness :
    ((RLECodec.init 16 true 24).decompress
        ((RLECodec.init 16 true 24).compress [7, 8, 9]).1 = [7, 8, 9, 0] ∧
      ¬ (16 + 7) / 8 ∣ 3) ∧
    (RLECodec.init 16 true 24).decompress
        ((RLECodec.init 16 true 24).compress [1, 2, 3, 4]).1 = [1, 2, 3, 4] := by
  refine ⟨⟨?_, by decide⟩, ?_⟩
  · have h := (C10_rle_padding_roundtrip [7, 8, 9] (by decide) 16 (by decide) (by decide)
      true 24).1
    rw [h]
    rfl
  · exact (C10_rle_padding_roundtrip [1, 2, 3, 4] (by decide) 16 (by decide) (by decide)
      true 24).2 (by decide)

/-! ### Analysis of analyze_sentinel: the value map and the two selection modes -/

theorem vmapGet_vmapSet_self (m : List (Nat × Nat)) (k v : Nat) :
    vmapGet (vmapSet m k v) k = some v := by
  induction m with
  | nil =>
    show (if k = k then some v else vmapGet [] k) = some v
    rw [if_pos rfl]
  | cons kv t ih =>
    by_cases h : kv.1 = k
    · show vmapGet (if kv.1 = k then (k, v) :: t else kv :: vmapSet t k v) k = some v
      rw [if_pos h]
      show (if k = k then some v else vmapGet t k) = some v
      rw [if_pos rfl]
    · show vmapGet (if kv.1 = k then (k, v) :: t else kv :: vmapSet t k v) k = some v
      rw [if_neg h]
      show (if kv.1 = k then some kv.2 else vmapGet (vmapSet t k v) k) = some v
      rw [if_neg h]
      exact ih

theorem vmapGet_vmapSet_ne (m : List (Nat × Nat)) (k v k' : Nat) (hne : k' ≠ k) :
    vmapGet (vmapSet m k v) k' = vmapGet m k' := by
  induction m with
  | nil =>
    show (if k = k' then some v else vmapGet [] k') = vmapGet [] k'
    rw [if_neg (fun h => hne h.symm)]
  | cons kv t ih =>
    by_cases h : kv.1 = k
    · show vmapGet (if kv.1 = k then (k, v) :: t else kv :: vmapSet t k v) k' = _
      rw [if_pos h]
      show (if k = k' then some v else vmapGet t k') = _
      rw [if_neg (fun hh => hne hh.symm)]
      show vmapGet t k' = if kv.1 = k' then some kv.2 else vmapGet t k'
      rw [if_neg (h ▸ fun hh => hne hh.symm)]
    · show vmapGet (if kv.1 = k then (k, v) :: t else kv :: vmapSet t k v) k' = _
      rw [if_neg h]
      show (if kv.1 = k' then some kv.2 else vmapGet (vmapSet t k v) k') =
        if kv.1 = k' then some kv.2 else vmapGet t k'
      rw [ih]

theorem mem_keys_vmapSet (m : List (Nat × Nat)) (k v k' : Nat) :
    k' ∈ (vmapSet m k v).map Prod.fst ↔ (k' ∈ m.map Prod.fst ∨ k' = k) := by
  induction m with
  | nil => simp [vmapSet]
  | cons kv t ih =>
    by_cases h : kv.1 = k
    · show k' ∈ (List.map Prod.fst (if kv.1 = k then (k, v) :: t else kv :: vmapSet t k v)) ↔ _
      rw [if_pos h]
      simp only [List.map_cons, List.mem_cons]
      rw [← h]
      tauto
    · show k' ∈ (List.map Prod.fst (if kv.1 = k then (k, v) :: t else kv :: vmapSet t k v)) ↔ _
      rw [if_neg h]
      simp only [List.map_cons, List.mem_cons]
      rw [ih]
      tauto

theorem nodup_keys_vmapSet (m : List (Nat × Nat)) (k v : Nat)
    (h : (m.map Prod.fst).Nodup) : ((vmapSet m k v).map Prod.fst).Nodup := by
  induction m with
  | nil => simp [vmapSet]
  | cons kv t ih =>
    simp only [List.map_cons, List.nodup_cons] at h
    by_cases hk : kv.1 = k
    · show (List.map Prod.fst (if kv.1 = k then (k, v) :: t else kv :: vmapSet t k v)).Nodup
      rw [if_pos hk]
      simp only [List.map_cons, List.nodup_cons]
      exact ⟨hk ▸ h.1, h.2⟩
    · show (List.map Prod.fst (if kv.1 = k then (k, v) :: t else kv :: vmapSet t k v)).Nodup
      rw [if_neg hk]
      simp only [List.map_cons, List.nodup_cons]
      refine ⟨?_, ih h.2⟩
      intro hmem
      rcases (mem_keys_vmapSet t k v kv.1).mp hmem with hh | hh
      · exact h.1 hh
      · exact hk hh

theorem nodup_keys_buildValueMap (toks : List RLEToken) :
    ∀ m : List (Nat × Nat), (m.map Prod.fst).Nodup →
      ((buildValueMap toks m).map Prod.fst).Nodup := by
  induction toks with
  | nil => intro m h; exact h
  | cons t rest ih =>
    intro m h
    cases t with
    | run v c => exact ih m h
    | bare v => exact ih _ (nodup_keys_vmapSet m v _ h)

theorem vmapGet_of_mem (m : List (Nat × Nat)) (h : (m.map Prod.fst).Nodup) :
    ∀ kv ∈ m, vmapGet m kv.1 = some kv.2 := by
  induction m with
  | nil => intro kv hkv; cases hkv
  | cons kv0 t ih =>
    intro kv hkv
    simp only [List.map_cons, List.nodup_cons] at h
    rcases List.mem_cons.mp hkv with hh | hh
    · rw [hh]
      show (if kv0.1 = kv0.1 then some kv0.2 else vmapGet t kv0.1) = some kv0.2
      rw [if_pos rfl]
    · have hne : kv0.1 ≠ kv.1 := by
        intro he
        exact h.1 (he ▸ List.mem_map.mpr ⟨kv, hh, rfl⟩)
      show (if kv0.1 = kv.1 then some kv0.2 else vmapGet t kv.1) = some kv.2
      rw [if_neg hne]
      exact ih h.2 kv hh

theorem mem_of_vmapGet (m : List (Nat × Nat)) (k c : Nat)
    (h : vmapGet m k = some c) : (k, c) ∈ m := by
  induction m with
  | nil => exact Option.noConfusion h
  | cons kv t ih =>
    by_cases hk : kv.1 = k
    · have h2 : some kv.2 = some c := by
        rw [← h]
        show some kv.2 = if kv.1 = k then some kv.2 else vmapGet t k
        rw [if_pos hk]
      have : kv = (k, c) := by
        obtain ⟨a, b⟩ := kv
        have hb : b = c := Option.some.inj h2
        show (a, b) = (k, c)
        rw [hb, show a = k from hk]
      exact this ▸ List.mem_cons_self kv t
    · have h2 : vmapGet t k = some c := by
        rw [← h]
        show vmapGet t k = if kv.1 = k then some kv.2 else vmapGet t k
        rw [if_neg hk]
      exact List.mem_cons_of_mem _ (ih h2)

theorem buildValueMap_get (toks : List RLEToken) :
    ∀ (m : List (Nat × Nat)) (k : Nat),
    vmapGet (buildValueMap toks m) k =
      if countEq k toks = 0 then vmapGet m k
      else some (countEq k toks + (vmapGet m k).getD 0) := by
  induction toks with
  | nil =>
    intro m k
    show vmapGet m k = if (0 : Nat) = 0 then vmapGet m k else _
    rw [if_pos rfl]
  | cons t rest ih =>
    intro m k
    cases t with
    | run v c =>
      show vmapGet (buildValueMap rest m) k = _
      rw [ih]
      rfl
    | bare v =>
      show vmapGet (buildValueMap rest (vmapSet m v ((vmapGet m v).getD 0 + 1))) k = _
      rw [ih]
      by_cases hvk : v = k
      · subst hvk
        rw [vmapGet_vmapSet_self]
        show _ = if (if v = v then 1 else 0) + countEq v rest = 0 then _
          else some ((if v = v then 1 else 0) + countEq v rest + (vmapGet m v).getD 0)
        rw [if_pos rfl]
        by_cases h0 : countEq v rest = 0
        · rw [if_pos h0, if_neg (by omega), h0]
          show some ((vmapGet m v).getD 0 + 1) = some (1 + 0 + (vmapGet m v).getD 0)
          congr 1
          omega
        · rw [if_neg h0, if_neg (by omega)]
          show some (countEq v rest + ((vmapGet m v).getD 0 + 1)) = _
          congr 1
          omega
      · rw [vmapGet_vmapSet_ne m v _ k (fun hh => hvk hh.symm)]
        show _ = if (if v = k then 1 else 0) + countEq k rest = 0 then vmapGet m k
          else some ((if v = k then 1 else 0) + countEq k rest + (vmapGet m k).getD 0)
        rw [if_neg hvk]
        show (if countEq k rest = 0 then vmapGet m k
          else some (countEq k rest + (vmapGet m k).getD 0)) = _
        rw [show (0 : Nat) + countEq k rest = countEq k rest from by omega]

theorem buildValueMap_get_nil (toks : List RLEToken) (k : Nat) :
    vmapGet (buildValueMap toks []) k =
      if countEq k toks = 0 then none else some (countEq k toks) := by
  rw [buildValueMap_get]
  by_cases h : countEq k toks = 0
  · rw [if_pos h, if_pos h]
    rfl
  · rw [if_neg h, if_neg h]
    rfl

theorem firstAbsentAux_some (m : List (Nat × Nat)) :
    ∀ fuel i j, firstAbsentAux m fuel i = some j →
      vmapGet m j = none ∧ i ≤ j ∧ j < i + fuel ∧
        ∀ w, i ≤ w → w < j → vmapGet m w ≠ none := by
  intro fuel
  induction fuel with
  | zero => intro i j h; exact Option.noConfusion h
  | succ fuel ih =>
    intro i j h
    by_cases hi : vmapGet m i = none
    · have hj : some i = some j := by
        rw [← h]
        show some i = if vmapGet m i = none then some i else firstAbsentAux m fuel (i + 1)
        rw [if_pos hi]
      have hij : i = j := Option.some.inj hj
      subst hij
      exact ⟨hi, Nat.le_refl i, by omega, fun w hw1 hw2 => absurd hw1 (by omega)⟩
    · have h2 : firstAbsentAux m fuel (i + 1) = some j := by
        rw [← h]
        show firstAbsentAux m fuel (i + 1) =
          if vmapGet m i = none then some i else firstAbsentAux m fuel (i + 1)
        rw [if_neg hi]
      obtain ⟨ha, hb, hc, hd⟩ := ih (i + 1) j h2
      refine ⟨ha, by omega, by omega, ?_⟩
      intro w hw1 hw2
      by_cases hwi : w = i
      · rw [hwi]; exact hi
      · exact hd w (by omega) hw2

theorem firstAbsentAux_none (m : List (Nat × Nat)) :
    ∀ fuel i, firstAbsentAux m fuel i = none →
      ∀ w, i ≤ w → w < i + fuel → vmapGet m w ≠ none := by
  intro fuel
  induction fuel with
  | zero => intro i h w hw1 hw2; omega
  | succ fuel ih =>
    intro i h w hw1 hw2
    by_cases hi : vmapGet m i = none
    · have hstep : firstAbsentAux m (fuel + 1) i = some i := by
        show (if vmapGet m i = none then some i else firstAbsentAux m fuel (i + 1)) = some i
        rw [if_pos hi]
      rw [h] at hstep
      exact Option.noConfusion hstep
    · by_cases hwi : w = i
      · rw [hwi]; exact hi
      · have hstep : firstAbsentAux m (fuel + 1) i = firstAbsentAux m fuel (i + 1) := by
          show (if vmapGet m i = none then some i else firstAbsentAux m fuel (i + 1)) = _
          rw [if_neg hi]
        rw [hstep] at h
        exact ih (i + 1) h w (by omega) (by omega)

theorem luAux (t : List (Nat × Nat)) : ∀ kv : Nat × Nat,
    (t.foldl (fun best y => if y.2 < best.2 then y else best) kv) ∈ kv :: t ∧
    (t.foldl (fun best y => if y.2 < best.2 then y else best) kv).2 ≤ kv.2 ∧
    ∀ y ∈ t, (t.foldl (fun best y => if y.2 < best.2 then y else best) kv).2 ≤ y.2 := by
  induction t with
  | nil =>
    intro kv
    exact ⟨List.mem_cons_self _ _, Nat.le_refl _, by intro y hy; cases hy⟩
  | cons z t ih =>
    intro kv
    have hfold : (z :: t).foldl (fun best y => if y.2 < best.2 then y else best) kv =
        t.foldl (fun best y => if y.2 < best.2 then y else best)
          (if z.2 < kv.2 then z else kv) := rfl
    obtain ⟨hmem, hle, hall⟩ := ih (if z.2 < kv.2 then z else kv)
    rw [hfold]
    by_cases hz : z.2 < kv.2
    · rw [if_pos hz] at hmem hle hall ⊢
      refine ⟨?_, ?_, ?_⟩
      · rcases List.mem_cons.mp hmem with h | h
        · rw [h]
          exact List.mem_cons_of_mem _ (List.mem_cons_self _ _)
        · exact List.mem_cons_of_mem _ (List.mem_cons_of_mem _ h)
      · omega
      · intro y hy
        rcases List.mem_cons.mp hy with h | h
        · subst h
          exact hle
        · exact hall y h
    · rw [if_neg hz] at hmem hle hall ⊢
      refine ⟨?_, ?_, ?_⟩
      · rcases List.mem_cons.mp hmem with h | h
        · rw [h]
          exact List.mem_cons_self _ _
        · exact List.mem_cons_of_mem _ (List.mem_cons_of_mem _ h)
      · exact hle
      · intro y hy
        rcases List.mem_cons.mp hy with h | h
        · subst h
          omega
        · exact hall y h

/-- C6: in sentinel mode with dynamic_sentinel set, analyze_sentinel picks the
smallest value of [0, 2^bit_width) absent from the bare (literal) tokens and
leaves sentinel_count = 0; if every value of that range occurs, it picks a
least frequent literal value and sets sentinel_count to that value's
frequency. -/
theorem C6_sentinel_selection (s : RLEncodingStatistics) (toks : List RLEToken)
    (hus : s.use_sentinel = true) (hds : s.dynamic_sentinel = true) :
    ((∃ v, v < 2 ^ s.bit_width ∧ countEq v toks = 0) →
      ∃ v, v < 2 ^ s.bit_width ∧ countEq v toks = 0 ∧
        (∀ w, w < v → countEq w toks ≠ 0) ∧
        (s.analyze_sentinel toks).sentinel = some v ∧
        (s.analyze_sentinel toks).sentinel_count = 0) ∧
    ((∀ v, v < 2 ^ s.bit_width → countEq v toks ≠ 0) →
      ∃ v, countEq v toks ≠ 0 ∧
        (∀ w, countEq w toks ≠ 0 → countEq v toks ≤ countEq w toks) ∧
        (s.analyze_sentinel toks).sentinel = some v ∧
        (s.analyze_sentinel toks).sentinel_count = countEq v toks) := by
  constructor
  · rintro ⟨v, hv, hcv⟩
    cases hfa : firstAbsent s.bit_width (buildValueMap toks []) with
    | none =>
      exfalso
      have hnone := firstAbsentAux_none (buildValueMap toks []) (1 <<< s.bit_width) 0 hfa
        v (Nat.zero_le v) (by rw [Nat.shiftLeft_eq, Nat.one_mul]; omega)
      apply hnone
      rw [buildValueMap_get_nil, if_pos hcv]
    | some j =>
      obtain ⟨hgetj, _, hjlt, hleast⟩ :=
        firstAbsentAux_some (buildValueMap toks []) (1 <<< s.bit_width) 0 j hfa
      have hcj : countEq j toks = 0 := by
        by_contra hne
        rw [buildValueMap_get_nil, if_neg hne] at hgetj
        exact Option.noConfusion hgetj
      have hjbound : j < 2 ^ s.bit_width := by
        rw [Nat.shiftLeft_eq, Nat.one_mul] at hjlt
        omega
      have hleast2 : ∀ w, w < j → countEq w toks ≠ 0 := by
        intro w hw hcw
        exact hleast w (Nat.zero_le w) hw (by rw [buildValueMap_get_nil, if_pos hcw])
      have hres : s.analyze_sentinel toks =
          { s with sentinel := some j, sentinel_count := countEq j toks } := by
        simp [RLEncodingStatistics.analyze_sentinel, hus, hds, hfa]
      refine ⟨j, hjbound, hcj, hleast2, ?_, ?_⟩
      · rw [hres]
      · rw [hres]
        show countEq j toks = 0
        exact hcj
  · intro hall
    cases hfa : firstAbsent s.bit_width (buildValueMap toks []) with
    | some j =>
      exfalso
      obtain ⟨hgetj, _, hjlt, _⟩ :=
        firstAbsentAux_some (buildValueMap toks []) (1 <<< s.bit_width) 0 j hfa
      have hjb : j < 2 ^ s.bit_width := by
        rw [Nat.shiftLeft_eq, Nat.one_mul] at hjlt
        omega
      have hcj : countEq j toks = 0 := by
        by_contra hne
        rw [buildValueMap_get_nil, if_neg hne] at hgetj
        exact Option.noConfusion hgetj
      exact hall j hjb hcj
    | none =>
      cases hm : buildValueMap toks [] with
      | nil =>
        exfalso
        have h0 : countEq 0 toks ≠ 0 := hall 0 (by positivity)
        have hg := buildValueMap_get_nil toks 0
        rw [hm, if_neg h0] at hg
        exact Option.noConfusion hg
      | cons kv0 t =>
        obtain ⟨hmem, hle, hmin⟩ := luAux t kv0
        obtain ⟨r, hrdef⟩ : ∃ r,
            t.foldl (fun best y => if y.2 < best.2 then y else best) kv0 = r := ⟨_, rfl⟩
        rw [hrdef] at hmem hle hmin
        have hlu : leastUsed (buildValueMap toks []) = some r := by
          rw [hm]
          show some (t.foldl (fun best y => if y.2 < best.2 then y else best) kv0) = some r
          rw [hrdef]
        have hrmem : r ∈ buildValueMap toks [] := by
          rw [hm]
          exact hmem
        have hnd : ((buildValueMap toks []).map Prod.fst).Nodup :=
          nodup_keys_buildValueMap toks [] (by simp)
        have hgetr : vmapGet (buildValueMap toks []) r.1 = some r.2 :=
          vmapGet_of_mem _ hnd r hrmem
        have hcr : countEq r.1 toks = r.2 ∧ countEq r.1 toks ≠ 0 := by
          by_cases hc : countEq r.1 toks = 0
          · rw [buildValueMap_get_nil, if_pos hc] at hgetr
            exact Option.noConfusion hgetr
          · rw [buildValueMap_get_nil, if_neg hc] at hgetr
            exact ⟨Option.some.inj hgetr, hc⟩
        have hminall : ∀ w, countEq w toks ≠ 0 → countEq r.1 toks ≤ countEq w toks := by
          intro w hw
          have hgw : vmapGet (buildValueMap toks []) w = some (countEq w toks) := by
            rw [buildValueMap_get_nil, if_neg hw]
          have hmemw := mem_of_vmapGet _ _ _ hgw
          rw [hm] at hmemw
          rw [hcr.1]
          rcases List.mem_cons.mp hmemw with h | h
          · rw [← h] at hle
            exact hle
          · exact hmin _ h
        have hr2pos : ¬ r.2 < 1 := by
          have h1 := hcr.1
          have h2 := hcr.2
          omega
        have hres : s.analyze_sentinel toks =
            { s with sentinel := some r.1, sentinel_count := r.2 } := by
          simp [RLEncodingStatistics.analyze_sentinel, hus, hds, hfa, hlu, hr2pos]
        refine ⟨r.1, hcr.2, hminall, ?_, ?_⟩
        · rw [hres]
        · rw [hres]
          show r.2 = countEq r.1 toks
          exact hcr.1.symm

/-- Closed witness for C6: for tokens [bare 0, bare 0, bare 1, run 4 9] at
bit_width 4, value 2 is absent, so the sentinel is 2 with count 0; for tokens
[bare 0, bare 1, bare 1] at bit_width 0 every value of [0, 1) occurs, so the
sentinel is the least frequent literal 0 with count 1. -/
theorem C6_sentinel_selection_witness :
    (∃ v, v < 2 ^ (4 : Nat) ∧
      countEq v [RLEToken.bare 0, RLEToken.bare 0, RLEToken.bare 1, RLEToken.run 4 9] = 0 ∧
      (∀ w, w < v →
        countEq w [RLEToken.bare 0, RLEToken.bare 0, RLEToken.bare 1, RLEToken.run 4 9] ≠ 0) ∧
      (RLEncodingStatistics.analyze_sentinel
        { literals := 3, references := 1, max_length := 9, sentinel := none,
          sentinel_count := 0, bit_width := 4, use_sentinel := true,
          dynamic_sentinel := true, header_bits := 36 }
        [RLEToken.bare 0, RLEToken.bare 0, RLEToken.bare 1, RLEToken.run 4 9]).sentinel =
          some v ∧
      (RLEncodingStatistics.analyze_sentinel
        { literals := 3, references := 1, max_length := 9, sentinel := none,
          sentinel_count := 0, bit_width := 4, use_sentinel := true,
          dynamic_sentinel := true, header_bits := 36 }
        [RLEToken.bare 0, RLEToken.bare 0, RLEToken.bare 1, RLEToken.run 4 9]).sentinel_count
          = 0) ∧
    (∃ v, countEq v [RLEToken.bare 0, RLEToken.bare 1, RLEToken.bare 1] ≠ 0 ∧
      (∀ w, countEq w [RLEToken.bare 0, RLEToken.bare 1, RLEToken.bare 1] ≠ 0 →
        countEq v [RLEToken.bare 0, RLEToken.bare 1, RLEToken.bare 1] ≤
          countEq w [RLEToken.bare 0, RLEToken.bare 1, RLEToken.bare 1]) ∧
      (RLEncodingStatistics.analyze_sentinel
        { literals := 3, references := 0, max_length := 0, sentinel := none,
          sentinel_count := 0, bit_width := 0, use_sentinel := true,
          dynamic_sentinel := true, header_bits := 32 }
        [RLEToken.bare 0, RLEToken.bare 1, RLEToken.bare 1]).sentinel = some v ∧
      (RLEncodingStatistics.analyze_sentinel
        { literals := 3, references := 0, max_length := 0, sentinel := none,
          sentinel_count := 0, bit_width := 0, use_sentinel := true,
          dynamic_sentinel := true, header_bits := 32 }
        [RLEToken.bare 0, RLEToken.bare 1, RLEToken.bare 1]).sentinel_count =
          countEq v [RLEToken.bare 0, RLEToken.bare 1, RLEToken.bare 1]) := by
  constructor
  · exact (C6_sentinel_selection
      { literals := 3, references := 1, max_length := 9, sentinel := none,
        sentinel_count := 0, bit_width := 4, use_sentinel := true,
        dynamic_sentinel := true, header_bits := 36 }
      [RLEToken.bare 0, RLEToken.bare 0, RLEToken.bare 1, RLEToken.run 4 9]
      rfl rfl).1 ⟨2, by decide, by decide⟩
  · exact (C6_sentinel_selection
      { literals := 3, references := 0, max_length := 0, sentinel := none,
        sentinel_count := 0, bit_width := 0, use_sentinel := true,
        dynamic_sentinel := true, header_bits := 32 }
      [RLEToken.bare 0, RLEToken.bare 1, RLEToken.bare 1]
      rfl rfl).2 (by decide)

/-! ### Bit accounting of RLECodec.to_binary -/

/-- The number of bits to_binary writes for one token. -/
def rleTokenBitsLen (codec : RLECodec) (sentinel : Nat) : RLEToken → Nat
  | .run _ _ => if codec.use_sentinel then 3 * codec.bit_width else 2 * codec.bit_width + 2
  | .bare v =>
    if codec.use_sentinel = true ∧ v = sentinel then 3 * codec.bit_width
    else if codec.use_sentinel then codec.bit_width else 1 + codec.bit_width

def rleTokensBitsLen (codec : RLECodec) (sentinel : Nat) : List RLEToken → Nat
  | [] => 0
  | t :: rest => rleTokenBitsLen codec sentinel t + rleTokensBitsLen codec sentinel rest

theorem rleAppendRepeat_bits (codec : RLECodec) (sent : Nat) (bs : Bitstream)
    (v c : Nat) (h : StreamWF bs) :
    (streamBits (rleAppendRepeat codec sent bs v c)).length =
      (streamBits bs).length +
        (if codec.use_sentinel then 3 * codec.bit_width else 2 * codec.bit_width + 2) ∧
    StreamWF (rleAppendRepeat codec sent bs v c) := by
  by_cases hus : codec.use_sentinel = true
  · obtain ⟨h1, w1, _⟩ := append_spec bs codec.bit_width ((sent : Nat) : Int) h
    obtain ⟨h2, w2, _⟩ := append_spec (bs.append codec.bit_width ((sent : Nat) : Int))
      codec.bit_width ((v : Nat) : Int) w1
    obtain ⟨h3, w3, _⟩ := append_spec ((bs.append codec.bit_width ((sent : Nat) : Int)).append
      codec.bit_width ((v : Nat) : Int))
      (codec.bit_width + (if codec.use_sentinel then 0 else 1)) ((c : Int) - 1) w2
    have hform : rleAppendRepeat codec sent bs v c =
        (((bs.append codec.bit_width ((sent : Nat) : Int)).append
          codec.bit_width ((v : Nat) : Int))).append
          (codec.bit_width + (if codec.use_sentinel then 0 else 1)) ((c : Int) - 1) := by
      unfold rleAppendRepeat
      rw [if_pos hus]
    rw [hform, h3, h2, h1]
    refine ⟨?_, w3⟩
    simp only [List.length_append, natBits_length, hus, if_pos]
    omega
  · obtain ⟨h1, w1, _⟩ := append_spec bs 1 1 h
    obtain ⟨h2, w2, _⟩ := append_spec (bs.append 1 1) codec.bit_width ((v : Nat) : Int) w1
    obtain ⟨h3, w3, _⟩ := append_spec ((bs.append 1 1).append codec.bit_width ((v : Nat) : Int))
      (codec.bit_width + (if codec.use_sentinel then 0 else 1)) ((c : Int) - 1) w2
    have hform : rleAppendRepeat codec sent bs v c =
        ((bs.append 1 1).append codec.bit_width ((v : Nat) : Int)).append
          (codec.bit_width + (if codec.use_sentinel then 0 else 1)) ((c : Int) - 1) := by
      unfold rleAppendRepeat
      rw [if_neg hus]
    rw [hform, h3, h2, h1]
    refine ⟨?_, w3⟩
    simp only [List.length_append, natBits_length, hus, if_neg, if_false,
      Bool.false_eq_true]
    omega

theorem rleTokenAppend_bits (codec : RLECodec) (sent : Nat) (bs : Bitstream)
    (t : RLEToken) (h : StreamWF bs) :
    (streamBits (rleTokenAppend codec sent bs t)).length =
      (streamBits bs).length + rleTokenBitsLen codec sent t ∧
    StreamWF (rleTokenAppend codec sent bs t) := by
  cases t with
  | run v c =>
    obtain ⟨h1, w1⟩ := rleAppendRepeat_bits codec sent bs v c h
    exact ⟨h1, w1⟩
  | bare v =>
    have hlen : rleTokenBitsLen codec sent (.bare v) =
        if codec.use_sentinel = true ∧ v = sent then 3 * codec.bit_width
        else if codec.use_sentinel = true then codec.bit_width
        else 1 + codec.bit_width := rfl
    by_cases hcond : codec.use_sentinel = true ∧ v = sent
    · have hform : rleTokenAppend codec sent bs (.bare v) = rleAppendRepeat codec sent bs v 1 := by
        show (if codec.use_sentinel = true ∧ v = sent then rleAppendRepeat codec sent bs v 1
          else (if codec.use_sentinel = true then bs else bs.append 1 0).append
            codec.bit_width ((v : Nat) : Int)) = _
        rw [if_pos hcond]
      obtain ⟨h1, w1⟩ := rleAppendRepeat_bits codec sent bs v 1 h
      rw [hform, h1, hlen]
      refine ⟨?_, w1⟩
      rw [if_pos hcond, if_pos hcond.1]
    · have hform : rleTokenAppend codec sent bs (.bare v) =
          (if codec.use_sentinel then bs else bs.append 1 0).append codec.bit_width
            ((v : Nat) : Int) := by
        show (if codec.use_sentinel = true ∧ v = sent then rleAppendRepeat codec sent bs v 1
          else (if codec.use_sentinel = true then bs else bs.append 1 0).append
            codec.bit_width ((v : Nat) : Int)) = _
        rw [if_neg hcond]
      by_cases hus : codec.use_sentinel = true
      · obtain ⟨h1, w1, _⟩ := append_spec bs codec.bit_width ((v : Nat) : Int) h
        rw [hform, if_pos hus, h1, hlen]
        refine ⟨?_, w1⟩
        rw [if_neg hcond, if_pos hus]
        simp [natBits_length]
      · obtain ⟨h1, w1, _⟩ := append_spec bs 1 0 h
        obtain ⟨h2, w2, _⟩ := append_spec (bs.append 1 0) codec.bit_width ((v : Nat) : Int) w1
        rw [hform, if_neg hus, h2, h1, hlen]
        refine ⟨?_, w2⟩
        rw [if_neg hcond, if_neg hus]
        simp [natBits_length]

theorem rle_fold_bits (codec : RLECodec) (sent : Nat) : ∀ (toks : List RLEToken)
    (bs : Bitstream), StreamWF bs →
    (streamBits (toks.foldl (rleTokenAppend codec sent) bs)).length =
      (streamBits bs).length + rleTokensBitsLen codec sent toks ∧
    StreamWF (toks.foldl (rleTokenAppend codec sent) bs) := by
  intro toks
  induction toks with
  | nil =>
    intro bs h
    exact ⟨by simp [rleTokensBitsLen], h⟩
  | cons t rest ih =>
    intro bs h
    obtain ⟨h1, h2⟩ := rleTokenAppend_bits codec sent bs t h
    obtain ⟨h3, h4⟩ := ih (rleTokenAppend codec sent bs t) h2
    refine ⟨?_, h4⟩
    show (streamBits (rest.foldl (rleTokenAppend codec sent)
      (rleTokenAppend codec sent bs t))).length = _
    rw [h3, h1]
    show _ = _ + (rleTokenBitsLen codec sent t + rleTokensBitsLen codec sent rest)
    omega

theorem rle_to_binary_len (codec : RLECodec) (toks : List RLEToken)
    (stats : RLEncodingStatistics) :
    (codec.to_binary toks stats).length =
      (7 + 1 + codec.size_bits + (if codec.use_sentinel then codec.bit_width else 0) +
        rleTokensBitsLen codec
          (if codec.use_sentinel then stats.sentinel.getD 0 else 0) toks + 7) / 8 := by
  obtain ⟨e1, w1, _⟩ := append_spec Bitstream.empty 7 ((codec.bit_width : Int) - 1)
    streamWF_empty
  obtain ⟨e2, w2, _⟩ := append_spec _ 1 (if codec.use_sentinel then 1 else 0) w1
  obtain ⟨e3, w3, _⟩ := append_spec _ codec.size_bits ((toks.length : Int) - 1) w2
  have hdr : ∃ bs0 : Bitstream, ((((Bitstream.empty.append 7
        ((codec.bit_width : Int) - 1)).append 1
        (if codec.use_sentinel then 1 else 0)).append codec.size_bits
        ((toks.length : Int) - 1))).appendSentinelField codec stats = bs0 ∧
      (streamBits bs0).length =
        7 + 1 + codec.size_bits + (if codec.use_sentinel then codec.bit_width else 0) ∧
      StreamWF bs0 := by
    by_cases hus : codec.use_sentinel = true
    · obtain ⟨e4, w4, _⟩ := append_spec ((((Bitstream.empty.append 7
        ((codec.bit_width : Int) - 1)).append 1
        (if codec.use_sentinel then 1 else 0)).append codec.size_bits
        ((toks.length : Int) - 1))) codec.bit_width
        (((stats.sentinel.getD 0 : Nat) : Int)) w3
      refine ⟨_, ?_, ?_, w4⟩
      · unfold Bitstream.appendSentinelField
        rw [if_pos hus]
      · rw [e4, e3, e2, e1, streamBits_empty]
        simp only [List.length_append, List.length_nil, natBits_length, hus, if_pos]
    · refine ⟨_, ?_, ?_, w3⟩
      · unfold Bitstream.appendSentinelField
        rw [if_neg hus]
      · rw [e3, e2, e1, streamBits_empty]
        simp only [List.length_append, List.length_nil, natBits_length, hus, if_neg,
          if_false, Bool.false_eq_true]
        omega
  obtain ⟨bs0, hbs0, hlen0, w0⟩ := hdr
  have hfold := rle_fold_bits codec
    (if codec.use_sentinel then stats.sentinel.getD 0 else 0) toks bs0 w0
  show (Bitstream.to_array _).length = _
  rw [hbs0, to_array_length _ hfold.2, hfold.1, hlen0]

theorem rleTokensBitsLen_sent (codec : RLECodec) (sent : Nat)
    (hus : codec.use_sentinel = true) : ∀ toks : List RLEToken,
    rleTokensBitsLen codec sent toks =
      codec.bit_width * countBares toks + 3 * codec.bit_width * countRuns toks +
        2 * codec.bit_width * countEq sent toks := by
  intro toks
  induction toks with
  | nil => simp [rleTokensBitsLen, countBares, countRuns, countEq]
  | cons t rest ih =>
    cases t with
    | run v c =>
      show rleTokenBitsLen codec sent (.run v c) + rleTokensBitsLen codec sent rest = _
      rw [ih, show rleTokenBitsLen codec sent (.run v c) =
        if codec.use_sentinel = true then 3 * codec.bit_width
        else 2 * codec.bit_width + 2 from rfl]
      show _ = codec.bit_width * countBares rest +
        3 * codec.bit_width * (countRuns rest + 1) + 2 * codec.bit_width * countEq sent rest
      rw [if_pos hus]
      ring
    | bare v =>
      show rleTokenBitsLen codec sent (.bare v) + rleTokensBitsLen codec sent rest = _
      rw [ih, show rleTokenBitsLen codec sent (.bare v) =
        (if codec.use_sentinel = true ∧ v = sent then 3 * codec.bit_width
        else if codec.use_sentinel = true then codec.bit_width
        else 1 + codec.bit_width) from rfl]
      show _ = codec.bit_width * (countBares rest + 1) + 3 * codec.bit_width * countRuns rest +
        2 * codec.bit_width * ((if v = sent then 1 else 0) + countEq sent rest)
      by_cases hv : v = sent
      · rw [if_pos ⟨hus, hv⟩, if_pos hv]
        ring
      · rw [if_neg (fun hh => hv hh.2), if_pos hus, if_neg hv]
        ring

theorem rleTokensBitsLen_flag (codec : RLECodec) (sent : Nat)
    (hus : codec.use_sentinel = false) : ∀ toks : List RLEToken,
    rleTokensBitsLen codec sent toks =
      (codec.bit_width + 1) * countBares toks +
        (2 * codec.bit_width + 2) * countRuns toks := by
  intro toks
  have hne : ¬ codec.use_sentinel = true := by rw [hus]; exact Bool.false_ne_true
  induction toks with
  | nil => simp [rleTokensBitsLen, countBares, countRuns]
  | cons t rest ih =>
    cases t with
    | run v c =>
      show rleTokenBitsLen codec sent (.run v c) + rleTokensBitsLen codec sent rest = _
      rw [ih, show rleTokenBitsLen codec sent (.run v c) =
        if codec.use_sentinel = true then 3 * codec.bit_width
        else 2 * codec.bit_width + 2 from rfl]
      show _ = (codec.bit_width + 1) * countBares rest +
        (2 * codec.bit_width + 2) * (countRuns rest + 1)
      rw [if_neg hne]
      ring
    | bare v =>
      show rleTokenBitsLen codec sent (.bare v) + rleTokensBitsLen codec sent rest = _
      rw [ih, show rleTokenBitsLen codec sent (.bare v) =
        (if codec.use_sentinel = true ∧ v = sent then 3 * codec.bit_width
        else if codec.use_sentinel = true then codec.bit_width
        else 1 + codec.bit_width) from rfl]
      show _ = (codec.bit_width + 1) * (countBares rest + 1) +
        (2 * codec.bit_width + 2) * countRuns rest
      rw [if_neg (fun hh => hne hh.1), if_neg hne]
      ring

theorem analyze_sentinel_flag (s : RLEncodingStatistics) (toks : List RLEToken)
    (hus : s.use_sentinel = false) : s.analyze_sentinel toks = s := by
  unfold RLEncodingStatistics.analyze_sentinel
  rw [if_neg (by rw [hus]; exact Bool.false_ne_true)]

/-- In sentinel mode (starting from sentinel_count = 0, as the compress loop
leaves it) analyze_sentinel only fills in sentinel and sentinel_count, and the
final count is the number of bare occurrences of the chosen sentinel. -/
theorem analyze_sentinel_spec (s : RLEncodingStatistics) (toks : List RLEToken)
    (hus : s.use_sentinel = true) (hsc : s.sentinel_count = 0) :
    (s.analyze_sentinel toks).literals = s.literals ∧
    (s.analyze_sentinel toks).references = s.references ∧
    (s.analyze_sentinel toks).header_bits = s.header_bits ∧
    (s.analyze_sentinel toks).bit_width = s.bit_width ∧
    (s.analyze_sentinel toks).use_sentinel = s.use_sentinel ∧
    (s.analyze_sentinel toks).sentinel_count =
      countEq ((s.analyze_sentinel toks).sentinel.getD 0) toks := by
  by_cases hds : s.dynamic_sentinel = true
  · cases hfa : firstAbsent s.bit_width (buildValueMap toks []) with
    | some j =>
      have hres : s.analyze_sentinel toks =
          { s with sentinel := some j, sentinel_count := countEq j toks } := by
        simp [RLEncodingStatistics.analyze_sentinel, hus, hds, hfa]
      rw [hres]
      exact ⟨rfl, rfl, rfl, rfl, rfl, rfl⟩
    | none =>
      cases hm : buildValueMap toks [] with
      | nil =>
        have hfa' : firstAbsent s.bit_width [] = none := by
          rw [← hm]
          exact hfa
        have hres : s.analyze_sentinel toks =
            { s with sentinel := some 0, sentinel_count := countEq 0 toks } := by
          simp [RLEncodingStatistics.analyze_sentinel, hus, hds, hfa', hm, leastUsed]
        rw [hres]
        exact ⟨rfl, rfl, rfl, rfl, rfl, rfl⟩
      | cons kv0 t =>
        obtain ⟨r, hrdef⟩ : ∃ r,
            t.foldl (fun best y => if y.2 < best.2 then y else best) kv0 = r := ⟨_, rfl⟩
        have hlu : leastUsed (buildValueMap toks []) = some r := by
          rw [hm]
          show some (t.foldl (fun best y => if y.2 < best.2 then y else best) kv0) = some r
          rw [hrdef]
        by_cases hr2 : r.2 < 1
        · have hres : s.analyze_sentinel toks =
              { s with sentinel := some r.1, sentinel_count := r.2 + countEq r.1 toks } := by
            simp [RLEncodingStatistics.analyze_sentinel, hus, hds, hfa, hlu, hr2]
          rw [hres]
          refine ⟨rfl, rfl, rfl, rfl, rfl, ?_⟩
          show r.2 + countEq r.1 toks = countEq ((some r.1).getD 0) toks
          have : r.2 = 0 := by omega
          rw [this]
          simp
        · obtain ⟨hmem, _, _⟩ := luAux t kv0
          rw [hrdef] at hmem
          have hrmem : r ∈ buildValueMap toks [] := by
            rw [hm]
            exact hmem
          have hnd : ((buildValueMap toks []).map Prod.fst).Nodup :=
            nodup_keys_buildValueMap toks [] (by simp)
          have hgetr : vmapGet (buildValueMap toks []) r.1 = some r.2 :=
            vmapGet_of_mem _ hnd r hrmem
          have hcr : countEq r.1 toks = r.2 := by
            by_cases hc : countEq r.1 toks = 0
            · rw [buildValueMap_get_nil, if_pos hc] at hgetr
              exact Option.noConfusion hgetr
            · rw [buildValueMap_get_nil, if_neg hc] at hgetr
              exact Option.some.inj hgetr
          have hres : s.analyze_sentinel toks =
              { s with sentinel := some r.1, sentinel_count := r.2 } := by
            simp [RLEncodingStatistics.analyze_sentinel, hus, hds, hfa, hlu, hr2]
          rw [hres]
          refine ⟨rfl, rfl, rfl, rfl, rfl, ?_⟩
          show r.2 = countEq ((some r.1).getD 0) toks
          rw [show (some r.1).getD 0 = r.1 from rfl, hcr]
  · have hres : s.analyze_sentinel toks =
        { s with
          sentinel := some (rle_sentinel_for_bit_width s.bit_width),
          sentinel_count :=
            s.sentinel_count + countEq (rle_sentinel_for_bit_width s.bit_width) toks } := by
      simp [RLEncodingStatistics.analyze_sentinel, hus, hds, hsc]
    rw [hres]
    refine ⟨rfl, rfl, rfl, rfl, rfl, ?_⟩
    show s.sentinel_count + _ = countEq ((some (rle_sentinel_for_bit_width s.bit_width)).getD 0) toks
    rw [hsc]
    simp

set_option maxRecDepth 8000 in
/-- C7 counterexample: in flag mode the container is strictly larger than the
prediction — for bit_width 1 on the single byte [0], to_binary yields 5 bytes
while stats.size() predicts 1, because the statistics count no header bits in
flag mode but to_binary always writes the 7+1+size_bits header. -/
theorem C7_flag_mode_size_exceeded :
    (1 &&& 3 == 0) = false ∧
    ¬ (((RLECodec.init 1 true 24).to_binary
          ((RLECodec.init 1 true 24).compress [0]).1
          ((RLECodec.init 1 true 24).compress [0]).2).length ≤
        ((RLECodec.init 1 true 24).compress [0]).2.size) := by decide

/-- C7 amended: with the default size_bits = 24, the byte length of to_binary
on the compressor's own output is stats.size() exactly in sentinel mode
(bit_width divisible by 4), and stats.size() + 4 in flag mode (the 32 header
bits that the statistics omit). -/
theorem C7_rle_size_amended (data : List Nat) (hdata : ∀ b ∈ data, b < 256)
    (bit_width : Nat) (hbw : 1 ≤ bit_width) (ds : Bool) :
    ((RLECodec.init bit_width ds 24).to_binary
        ((RLECodec.init bit_width ds 24).compress data).1
        ((RLECodec.init bit_width ds 24).compress data).2).length =
      ((RLECodec.init bit_width ds 24).compress data).2.size +
        (if bit_width &&& 3 == 0 then 0 else 4) := by
  have hbw1 : 1 ≤ (bit_width + 7) / 8 := by omega
  obtain ⟨toks, st0, hloop⟩ : ∃ toks st0,
      rleCompressLoop (RLECodec.init bit_width ds 24) data ((bit_width + 7) / 8)
        (if bit_width &&& 3 == 0 then 1 <<< (bit_width + 1)
         else (1 <<< (bit_width + 1)) <<< 1)
        data.length 0 [] (RLEncodingStatistics.init (RLECodec.init bit_width ds 24)) =
        (toks, st0) := ⟨_, _, rfl⟩
  obtain ⟨pfin, _, _, _, _, hinv⟩ :=
    rleCompressLoop_spec (RLECodec.init bit_width ds 24) data hdata
      ((bit_width + 7) / 8)
      (if bit_width &&& 3 == 0 then 1 <<< (bit_width + 1)
       else (1 <<< (bit_width + 1)) <<< 1)
      rfl hbw1 data.length 0 []
      (RLEncodingStatistics.init (RLECodec.init bit_width ds 24))
      (by omega) (by rw [padded_zero]; rfl)
      ⟨rfl, rfl, rfl, rfl, rfl, rfl, rfl, rfl⟩
      (dvd_zero _) (Or.inl rfl)
  rw [hloop] at hinv
  obtain ⟨hl, hr, hbwi, husS, hdsS, hhb, hsn, hsc0⟩ := hinv
  have hl' : st0.literals = countBares toks := hl
  have hr' : st0.references = countRuns toks := hr
  have hbwi' : st0.bit_width = bit_width := hbwi
  have husS' : st0.use_sentinel = (bit_width &&& 3 == 0) := husS
  have hhb' : st0.header_bits =
      (if bit_width &&& 3 == 0 then 7 + 1 + 24 + bit_width else 0) := hhb
  have hsc0' : st0.sentinel_count = 0 := hsc0
  have hc1 : ((RLECodec.init bit_width ds 24).compress data).1 = toks := by
    show (match rleCompressLoop (RLECodec.init bit_width ds 24) data ((bit_width + 7) / 8)
        (if bit_width &&& 3 == 0 then 1 <<< (bit_width + 1)
         else (1 <<< (bit_width + 1)) <<< 1)
        data.length 0 [] (RLEncodingStatistics.init (RLECodec.init bit_width ds 24)) with
      | (result, statistics) => (result, statistics.analyze_sentinel result)).1 = toks
    rw [hloop]
  have hc2 : ((RLECodec.init bit_width ds 24).compress data).2 =
      st0.analyze_sentinel toks := by
    show (match rleCompressLoop (RLECodec.init bit_width ds 24) data ((bit_width + 7) / 8)
        (if bit_width &&& 3 == 0 then 1 <<< (bit_width + 1)
         else (1 <<< (bit_width + 1)) <<< 1)
        data.length 0 [] (RLEncodingStatistics.init (RLECodec.init bit_width ds 24)) with
      | (result, statistics) => (result, statistics.analyze_sentinel result)).2 = _
    rw [hloop]
  rw [hc1, hc2, rle_to_binary_len]
  cases hmod : (bit_width &&& 3 == 0) with
  | true =>
    have husC : (RLECodec.init bit_width ds 24).use_sentinel = true := hmod
    have hus0 : st0.use_sentinel = true := by rw [husS', hmod]
    obtain ⟨halit, haref, hahb, habw, haus, hacnt⟩ :=
      analyze_sentinel_spec st0 toks hus0 hsc0'
    rw [if_pos husC, if_pos husC]
    rw [rleTokensBitsLen_sent _ _ husC]
    show (7 + 1 + 24 + bit_width + (bit_width * countBares toks +
        3 * bit_width * countRuns toks +
        2 * bit_width * countEq ((st0.analyze_sentinel toks).sentinel.getD 0) toks) + 7) / 8 =
      ((st0.analyze_sentinel toks).header_bits +
        (st0.analyze_sentinel toks).literals * ((st0.analyze_sentinel toks).bit_width +
          (if (st0.analyze_sentinel toks).use_sentinel then 0 else 1)) +
        (st0.analyze_sentinel toks).references * ((st0.analyze_sentinel toks).bit_width +
          (if (st0.analyze_sentinel toks).use_sentinel then 0 else 1)) *
          (if (st0.analyze_sentinel toks).use_sentinel then 3 else 2) +
        (st0.analyze_sentinel toks).sentinel_count *
          ((st0.analyze_sentinel toks).bit_width +
          (if (st0.analyze_sentinel toks).use_sentinel then 0 else 1)) * 2 + 7) / 8 +
      (if true = true then 0 else 4)
    rw [halit, haref, hahb, habw, hacnt, haus, hus0, hbwi', hl', hr', hhb', hmod]
    rw [if_pos rfl, if_pos rfl, if_pos rfl, if_pos rfl]
    simp only [Nat.add_zero]
    congr 1
    ring
  | false =>
    have husC : (RLECodec.init bit_width ds 24).use_sentinel = false := hmod
    have hus0 : st0.use_sentinel = false := by rw [husS', hmod]
    have hid : st0.analyze_sentinel toks = st0 := analyze_sentinel_flag st0 toks hus0
    have hneC : ¬ (RLECodec.init bit_width ds 24).use_sentinel = true := by
      rw [husC]; exact Bool.false_ne_true
    rw [if_neg hneC, if_neg hneC]
    rw [rleTokensBitsLen_flag _ _ husC]
    rw [hid]
    show (7 + 1 + 24 + 0 + ((bit_width + 1) * countBares toks +
        (2 * bit_width + 2) * countRuns toks) + 7) / 8 =
      (st0.header_bits + st0.literals * (st0.bit_width +
          (if st0.use_sentinel then 0 else 1)) +
        st0.references * (st0.bit_width + (if st0.use_sentinel then 0 else 1)) *
          (if st0.use_sentinel then 3 else 2) +
        st0.sentinel_count * (st0.bit_width + (if st0.use_sentinel then 0 else 1)) * 2 +
        7) / 8 + (if false = true then 0 else 4)
    have hne0 : ¬ st0.use_sentinel = true := by
      rw [hus0]; exact Bool.false_ne_true
    rw [hl', hr', hbwi', hhb', hsc0', hmod, if_neg hne0, if_neg hne0]
    rw [if_neg (by exact Bool.false_ne_true), if_neg (by exact Bool.false_ne_true)]
    have hprod : (bit_width + 1) * countBares toks + (2 * bit_width + 2) * countRuns toks =
        countBares toks * (bit_width + 1) + countRuns toks * (bit_width + 1) * 2 := by
      ring
    rw [hprod]
    omega

/-- Closed witness for the amended C7: flag mode at bit_width 1 on [0] (length
is size + 4) and sentinel mode at bit_width 4 on [7, 7] (length equals size). -/
theorem C7_rle_size_amended_witness :
    ((RLECodec.init 1 true 24).to_binary
        ((RLECodec.init 1 true 24).compress [0]).1
        ((RLECodec.init 1 true 24).compress [0]).2).length =
      ((RLECodec.init 1 true 24).compress [0]).2.size +
        (if 1 &&& 3 == 0 then 0 else 4) ∧
    ((RLECodec.init 4 true 24).to_binary
        ((RLECodec.init 4 true 24).compress [7, 7]).1
        ((RLECodec.init 4 true 24).compress [7, 7]).2).length =
      ((RLECodec.init 4 true 24).compress [7, 7]).2.size +
        (if 4 &&& 3 == 0 then 0 else 4) :=
  ⟨C7_rle_size_amended [0] (by decide) 1 (by decide) true,
   C7_rle_size_amended [7, 7] (by decide) 4 (by decide) true⟩

/-! ### The bits RLECodec.to_binary writes, and parsing them back -/

/-- The bits append_repeat writes for a (value, count) pair. -/
def rleRunBits (bw : Nat) (us : Bool) (sent v c : Nat) : List Bool :=
  (if us then
    natBits bw (intMask bw ((sent : Nat) : Int)) ++ natBits bw (intMask bw ((v : Nat) : Int))
   else
    natBits 1 (intMask 1 1) ++ natBits bw (intMask bw ((v : Nat) : Int))) ++
  natBits (bw + if us then 0 else 1) (intMask (bw + if us then 0 else 1) ((c : Int) - 1))

/-- The bits to_binary writes for one token. -/
def rleTokBits (bw : Nat) (us : Bool) (sent : Nat) : RLEToken → List Bool
  | .run v c => rleRunBits bw us sent v c
  | .bare v =>
    if us = true ∧ v = sent then rleRunBits bw us sent v 1
    else (if us then [] else natBits 1 (intMask 1 0)) ++ natBits bw (intMask bw ((v : Nat) : Int))

def rleToksBits (bw : Nat) (us : Bool) (sent : Nat) : List RLEToken → List Bool
  | [] => []
  | t :: rest => rleTokBits bw us sent t ++ rleToksBits bw us sent rest

theorem rleAppendRepeat_bits2 (codec : RLECodec) (sent : Nat) (bs : Bitstream)
    (v c : Nat) (h : StreamWF bs) :
    streamBits (rleAppendRepeat codec sent bs v c) =
      streamBits bs ++ rleRunBits codec.bit_width codec.use_sentinel sent v c ∧
    StreamWF (rleAppendRepeat codec sent bs v c) := by
  by_cases hus : codec.use_sentinel = true
  · obtain ⟨h1, w1, _⟩ := append_spec bs codec.bit_width ((sent : Nat) : Int) h
    obtain ⟨h2, w2, _⟩ := append_spec (bs.append codec.bit_width ((sent : Nat) : Int))
      codec.bit_width ((v : Nat) : Int) w1
    obtain ⟨h3, w3, _⟩ := append_spec ((bs.append codec.bit_width ((sent : Nat) : Int)).append
      codec.bit_width ((v : Nat) : Int))
      (codec.bit_width + (if codec.use_sentinel then 0 else 1)) ((c : Int) - 1) w2
    have hform : rleAppendRepeat codec sent bs v c =
        (((bs.append codec.bit_width ((sent : Nat) : Int)).append
          codec.bit_width ((v : Nat) : Int))).append
          (codec.bit_width + (if codec.use_sentinel then 0 else 1)) ((c : Int) - 1) := by
      unfold rleAppendRepeat
      rw [if_pos hus]
    rw [hform, h3, h2, h1]
    refine ⟨?_, w3⟩
    rw [rleRunBits, if_pos hus, hus]
    simp [List.append_assoc]
  · obtain ⟨h1, w1, _⟩ := append_spec bs 1 1 h
    obtain ⟨h2, w2, _⟩ := append_spec (bs.append 1 1) codec.bit_width ((v : Nat) : Int) w1
    obtain ⟨h3, w3, _⟩ := append_spec ((bs.append 1 1).append codec.bit_width ((v : Nat) : Int))
      (codec.bit_width + (if codec.use_sentinel then 0 else 1)) ((c : Int) - 1) w2
    have hform : rleAppendRepeat codec sent bs v c =
        ((bs.append 1 1).append codec.bit_width ((v : Nat) : Int)).append
          (codec.bit_width + (if codec.use_sentinel then 0 else 1)) ((c : Int) - 1) := by
      unfold rleAppendRepeat
      rw [if_neg hus]
    rw [hform, h3, h2, h1]
    refine ⟨?_, w3⟩
    rw [rleRunBits, if_neg hus, if_neg hus]
    simp [List.append_assoc]

theorem rleTokenAppend_bits2 (codec : RLECodec) (sent : Nat) (bs : Bitstream)
    (t : RLEToken) (h : StreamWF bs) :
    streamBits (rleTokenAppend codec sent bs t) =
      streamBits bs ++ rleTokBits codec.bit_width codec.use_sentinel sent t ∧
    StreamWF (rleTokenAppend codec sent bs t) := by
  cases t with
  | run v c =>
    obtain ⟨h1, w1⟩ := rleAppendRepeat_bits2 codec sent bs v c h
    exact ⟨h1, w1⟩
  | bare v =>
    have hlen : rleTokBits codec.bit_width codec.use_sentinel sent (.bare v) =
        if codec.use_sentinel = true ∧ v = sent
        then rleRunBits codec.bit_width codec.use_sentinel sent v 1
        else (if codec.use_sentinel then [] else natBits 1 (intMask 1 0)) ++
          natBits codec.bit_width (intMask codec.bit_width ((v : Nat) : Int)) := rfl
    by_cases hcond : codec.use_sentinel = true ∧ v = sent
    · have hform : rleTokenAppend codec sent bs (.bare v) = rleAppendRepeat codec sent bs v 1 := by
        show (if codec.use_sentinel = true ∧ v = sent then rleAppendRepeat codec sent bs v 1
          else (if codec.use_sentinel = true then bs else bs.append 1 0).append
            codec.bit_width ((v : Nat) : Int)) = _
        rw [if_pos hcond]
      obtain ⟨h1, w1⟩ := rleAppendRepeat_bits2 codec sent bs v 1 h
      rw [hform, h1, hlen, if_pos hcond]
      exact ⟨rfl, w1⟩
    · have hform : rleTokenAppend codec sent bs (.bare v) =
          (if codec.use_sentinel then bs else bs.append 1 0).append codec.bit_width
            ((v : Nat) : Int) := by
        show (if codec.use_sentinel = true ∧ v = sent then rleAppendRepeat codec sent bs v 1
          else (if codec.use_sentinel = true then bs else bs.append 1 0).append
            codec.bit_width ((v : Nat) : Int)) = _
        rw [if_neg hcond]
      by_cases hus : codec.use_sentinel = true
      · obtain ⟨h1, w1, _⟩ := append_spec bs codec.bit_width ((v : Nat) : Int) h
        rw [hform, if_pos hus, h1, hlen, if_neg hcond, if_pos hus]
        exact ⟨by simp, w1⟩
      · obtain ⟨h1, w1, _⟩ := append_spec bs 1 0 h
        obtain ⟨h2, w2, _⟩ := append_spec (bs.append 1 0) codec.bit_width ((v : Nat) : Int) w1
        rw [hform, if_neg hus, h2, h1, hlen, if_neg hcond, if_neg hus]
        exact ⟨by simp [List.append_assoc], w2⟩

theorem rle_fold_bits2 (codec : RLECodec) (sent : Nat) : ∀ (toks : List RLEToken)
    (bs : Bitstream), StreamWF bs →
    streamBits (toks.foldl (rleTokenAppend codec sent) bs) =
      streamBits bs ++ rleToksBits codec.bit_width codec.use_sentinel sent toks ∧
    StreamWF (toks.foldl (rleTokenAppend codec sent) bs) := by
  intro toks
  induction toks with
  | nil =>
    intro bs h
    exact ⟨by simp [rleToksBits], h⟩
  | cons t rest ih =>
    intro bs h
    obtain ⟨h1, h2⟩ := rleTokenAppend_bits2 codec sent bs t h
    obtain ⟨h3, h4⟩ := ih (rleTokenAppend codec sent bs t) h2
    refine ⟨?_, h4⟩
    show streamBits (rest.foldl (rleTokenAppend codec sent)
      (rleTokenAppend codec sent bs t)) = _
    rw [h3, h1]
    show _ = _ ++ (rleTokBits codec.bit_width codec.use_sentinel sent t ++
      rleToksBits codec.bit_width codec.use_sentinel sent rest)
    rw [List.append_assoc]

/-- The header bits of the RLE container. -/
def rleHeaderBits (codec : RLECodec) (sent n : Nat) : List Bool :=
  natBits 7 (intMask 7 ((codec.bit_width : Int) - 1)) ++
  (natBits 1 (intMask 1 (if codec.use_sentinel then 1 else 0)) ++
  (natBits codec.size_bits (intMask codec.size_bits ((n : Int) - 1)) ++
  (if codec.use_sentinel then natBits codec.bit_width (intMask codec.bit_width
    ((sent : Nat) : Int)) else [])))

theorem rle_to_binary_bits (codec : RLECodec) (toks : List RLEToken)
    (stats : RLEncodingStatistics) :
    ∃ pad : Nat, bytesBits (codec.to_binary toks stats) =
      (rleHeaderBits codec (if codec.use_sentinel then stats.sentinel.getD 0 else 0)
          toks.length ++
        rleToksBits codec.bit_width codec.use_sentinel
          (if codec.use_sentinel then stats.sentinel.getD 0 else 0) toks) ++
        List.replicate pad false := by
  obtain ⟨e1, w1, _⟩ := append_spec Bitstream.empty 7 ((codec.bit_width : Int) - 1)
    streamWF_empty
  obtain ⟨e2, w2, _⟩ := append_spec _ 1 (if codec.use_sentinel then 1 else 0) w1
  obtain ⟨e3, w3, _⟩ := append_spec _ codec.size_bits ((toks.length : Int) - 1) w2
  have hdr : ∃ bs0 : Bitstream, ((((Bitstream.empty.append 7
        ((codec.bit_width : Int) - 1)).append 1
        (if codec.use_sentinel then 1 else 0)).append codec.size_bits
        ((toks.length : Int) - 1))).appendSentinelField codec stats = bs0 ∧
      streamBits bs0 =
        rleHeaderBits codec (if codec.use_sentinel then stats.sentinel.getD 0 else 0)
          toks.length ∧
      StreamWF bs0 := by
    by_cases hus : codec.use_sentinel = true
    · obtain ⟨e4, w4, _⟩ := append_spec ((((Bitstream.empty.append 7
        ((codec.bit_width : Int) - 1)).append 1
        (if codec.use_sentinel then 1 else 0)).append codec.size_bits
        ((toks.length : Int) - 1))) codec.bit_width
        (((stats.sentinel.getD 0 : Nat) : Int)) w3
      refine ⟨_, ?_, ?_, w4⟩
      · unfold Bitstream.appendSentinelField
        rw [if_pos hus]
      · rw [e4, e3, e2, e1, streamBits_empty, List.nil_append, rleHeaderBits,
          if_pos hus, if_pos hus]
        simp [List.append_assoc, hus]
    · refine ⟨_, ?_, ?_, w3⟩
      · unfold Bitstream.appendSentinelField
        rw [if_neg hus]
      · rw [e3, e2, e1, streamBits_empty, List.nil_append, rleHeaderBits, if_neg hus]
        simp [List.append_assoc, hus]
  obtain ⟨bs0, hbs0, hbits0, w0⟩ := hdr
  have hfold := rle_fold_bits2 codec
    (if codec.use_sentinel then stats.sentinel.getD 0 else 0) toks bs0 w0
  have harr := to_array_bits _ hfold.2
  rw [hfold.1, hbits0] at harr
  refine ⟨(8 - (toks.foldl (rleTokenAppend codec
      (if codec.use_sentinel then stats.sentinel.getD 0 else 0)) bs0).write_position) % 8, ?_⟩
  show bytesBits (Bitstream.to_array (toks.foldl (rleTokenAppend codec
      (if codec.use_sentinel then stats.sentinel.getD 0 else 0))
      (Bitstream.appendSentinelField
        (((Bitstream.empty.append 7 ((codec.bit_width : Int) - 1)).append 1
          (if codec.use_sentinel then 1 else 0)).append codec.size_bits
          ((toks.length : Int) - 1)) codec stats))) = _
  rw [hbs0]
  exact harr

/-- How from_binary returns a token that to_binary wrote in sentinel mode: a
bare value equal to the sentinel was escaped as a length-1 run and comes back
as one. -/
def sentRewrite (sent : Nat) : RLEToken → RLEToken
  | .bare v => if v = sent then .run v 1 else .bare v
  | .run v c => .run v c

/-- Field-range well-formedness of a token for value width bw and count width
cw: exactly the conditions under which to_binary's fixed-width fields do not
truncate. -/
def rleTokOK (bw cw : Nat) : RLEToken → Bool
  | .bare v => decide (v < 2 ^ bw)
  | .run v c => decide (v < 2 ^ bw) && decide (1 ≤ c) && decide (c - 1 < 2 ^ cw)

theorem rleParseLoopS_spec (B : List Nat) (bw sent : Nat) (hsent : sent < 2 ^ bw) :
    ∀ (toks : List RLEToken) (p : Nat) (L2 : List Bool) (wp cb : Nat) (acc : List RLEToken),
    BitsAt B p (rleToksBits bw true sent toks ++ L2) →
    (∀ t ∈ toks, rleTokOK bw bw t = true) →
    (p % 8 ≠ 0 → cb = B.getD (p / 8) 0) →
    (rleParseLoopS bw sent ⟨B, p, wp, cb⟩ acc toks.length).1 =
      acc ++ toks.map (sentRewrite sent) := by
  intro toks
  induction toks with
  | nil =>
    intro p L2 wp cb acc _ _ _
    simp [rleParseLoopS]
  | cons t rest ih =>
    intro p L2 wp cb acc hbits hwf hinv
    have hwfh := hwf t (List.mem_cons_self _ _)
    have hwfr : ∀ u ∈ rest, rleTokOK bw bw u = true :=
      fun u hu => hwf u (List.mem_cons_of_mem _ hu)
    have hsentm : sent % 2 ^ bw = sent := Nat.mod_eq_of_lt hsent
    cases t with
    | run v c =>
      have hwf3 : v < 2 ^ bw ∧ 1 ≤ c ∧ c - 1 < 2 ^ bw := by
        have := hwfh
        simp [rleTokOK] at this
        exact ⟨this.1.1, this.1.2, this.2⟩
      obtain ⟨hv, hc1, hcw⟩ := hwf3
      have hms : intMask bw ((sent : Nat) : Int) = sent := intMask_ofNat bw sent hsent
      have hmv : intMask bw ((v : Nat) : Int) = v := intMask_ofNat bw v hv
      have hmc : intMask bw ((c : Int) - 1) = c - 1 := by
        rw [show ((c : Int) - 1) = (((c - 1 : Nat) : Nat) : Int) by omega]
        exact intMask_ofNat bw (c - 1) hcw
      have hb1 : BitsAt B p (natBits bw sent ++ (natBits bw v ++ (natBits bw (c - 1) ++
          (rleToksBits bw true sent rest ++ L2)))) := by
        obtain ⟨L1, hb, hl⟩ := hbits
        refine ⟨L1, ?_, hl⟩
        rw [hb]
        congr 1
        rw [show rleToksBits bw true sent (RLEToken.run v c :: rest) =
          ((natBits bw (intMask bw ((sent : Nat) : Int)) ++
            natBits bw (intMask bw ((v : Nat) : Int))) ++
            natBits bw (intMask bw ((c : Int) - 1))) ++
            rleToksBits bw true sent rest from rfl, hms, hmv, hmc]
        simp [List.append_assoc]
      obtain ⟨cb1, hr1, hi1, hb2⟩ := bitsAt_read B p bw wp cb sent _ hb1 hinv
      obtain ⟨cb2, hr2, hi2, hb3⟩ := bitsAt_read B (p + bw) bw wp cb1 v _ hb2 hi1
      obtain ⟨cb3, hr3, hi3, hb4⟩ := bitsAt_read B (p + bw + bw) bw wp cb2 (c - 1) _ hb3 hi2
      have hrec := ih (p + bw + bw + bw) L2 wp cb3 (acc ++ [RLEToken.run (v % 2 ^ bw)
        ((c - 1) % 2 ^ bw + 1)]) hb4 hwfr hi3
      show (match Bitstream.read ⟨B, p, wp, cb⟩ bw with
        | (value, bs2) =>
          if value = sent then
            match bs2.read bw with
            | (value2, bs3) =>
              match bs3.read bw with
              | (count, bs4) =>
                rleParseLoopS bw sent bs4 (acc ++ [RLEToken.run value2 (count + 1)]) rest.length
          else rleParseLoopS bw sent bs2 (acc ++ [RLEToken.bare value]) rest.length).1 =
        acc ++ (RLEToken.run v c :: rest).map (sentRewrite sent)
      rw [hr1]
      show (if sent % 2 ^ bw = sent then
          match Bitstream.read ⟨B, p + bw, wp, cb1⟩ bw with
          | (value2, bs3) =>
            match bs3.read bw with
            | (count, bs4) =>
              rleParseLoopS bw sent bs4 (acc ++ [RLEToken.run value2 (count + 1)]) rest.length
        else rleParseLoopS bw sent ⟨B, p + bw, wp, cb1⟩
          (acc ++ [RLEToken.bare (sent % 2 ^ bw)]) rest.length).1 = _
      rw [if_pos hsentm, hr2]
      show (match Bitstream.read ⟨B, p + bw + bw, wp, cb2⟩ bw with
        | (count, bs4) =>
          rleParseLoopS bw sent bs4
            (acc ++ [RLEToken.run (v % 2 ^ bw) (count + 1)]) rest.length).1 = _
      rw [hr3]
      show (rleParseLoopS bw sent ⟨B, p + bw + bw + bw, wp, cb3⟩
        (acc ++ [RLEToken.run (v % 2 ^ bw) ((c - 1) % 2 ^ bw + 1)]) rest.length).1 = _
      rw [hrec, Nat.mod_eq_of_lt hv, Nat.mod_eq_of_lt hcw,
        show c - 1 + 1 = c by omega]
      show (acc ++ [RLEToken.run v c]) ++ rest.map (sentRewrite sent) =
        acc ++ (RLEToken.run v c :: rest.map (sentRewrite sent))
      simp
    | bare v =>
      have hv : v < 2 ^ bw := by
        have h := hwfh
        simp [rleTokOK] at h
        exact h
      have hmv : intMask bw ((v : Nat) : Int) = v := intMask_ofNat bw v hv
      by_cases hvs : v = sent
      · subst hvs
        have hms : intMask bw ((v : Nat) : Int) = v := hmv
        have hm0 : intMask bw (((1 : Nat) : Int) - 1) = 0 := by
          rw [show (((1 : Nat) : Int) - 1) = (((0 : Nat) : Nat) : Int) by omega]
          exact intMask_ofNat bw 0 (by positivity)
        have hb1 : BitsAt B p (natBits bw v ++ (natBits bw v ++ (natBits bw 0 ++
            (rleToksBits bw true v rest ++ L2)))) := by
          obtain ⟨L1, hb, hl⟩ := hbits
          refine ⟨L1, ?_, hl⟩
          rw [hb]
          congr 1
          rw [show rleToksBits bw true v (RLEToken.bare v :: rest) =
            rleTokBits bw true v (.bare v) ++ rleToksBits bw true v rest from rfl,
            show rleTokBits bw true v (.bare v) =
              ((natBits bw (intMask bw ((v : Nat) : Int)) ++
                natBits bw (intMask bw ((v : Nat) : Int))) ++
                natBits bw (intMask bw (((1 : Nat) : Int) - 1))) from by
              show (if true = true ∧ v = v then rleRunBits bw true v v 1
                else natBits bw (intMask bw ((v : Nat) : Int))) = _
              rw [if_pos ⟨rfl, rfl⟩]
              rfl,
            hmv, hm0]
          simp [List.append_assoc]
        obtain ⟨cb1, hr1, hi1, hb2⟩ := bitsAt_read B p bw wp cb v _ hb1 hinv
        obtain ⟨cb2, hr2, hi2, hb3⟩ := bitsAt_read B (p + bw) bw wp cb1 v _ hb2 hi1
        obtain ⟨cb3, hr3, hi3, hb4⟩ := bitsAt_read B (p + bw + bw) bw wp cb2 0 _ hb3 hi2
        have hvm : v % 2 ^ bw = v := Nat.mod_eq_of_lt hv
        have hrec := ih (p + bw + bw + bw) L2 wp cb3 (acc ++ [RLEToken.run (v % 2 ^ bw)
          (0 % 2 ^ bw + 1)]) hb4 hwfr hi3
        show (match Bitstream.read ⟨B, p, wp, cb⟩ bw with
          | (value, bs2) =>
            if value = v then
              match bs2.read bw with
              | (value2, bs3) =>
                match bs3.read bw with
                | (count, bs4) =>
                  rleParseLoopS bw v bs4 (acc ++ [RLEToken.run value2 (count + 1)]) rest.length
            else rleParseLoopS bw v bs2 (acc ++ [RLEToken.bare value]) rest.length).1 =
          acc ++ (RLEToken.bare v :: rest).map (sentRewrite v)
        rw [hr1]
        show (if v % 2 ^ bw = v then
            match Bitstream.read ⟨B, p + bw, wp, cb1⟩ bw with
            | (value2, bs3) =>
              match bs3.read bw with
              | (count, bs4) =>
                rleParseLoopS bw v bs4 (acc ++ [RLEToken.run value2 (count + 1)]) rest.length
          else rleParseLoopS bw v ⟨B, p + bw, wp, cb1⟩
            (acc ++ [RLEToken.bare (v % 2 ^ bw)]) rest.length).1 = _
        rw [if_pos hvm, hr2]
        show (match Bitstream.read ⟨B, p + bw + bw, wp, cb2⟩ bw with
          | (count, bs4) =>
            rleParseLoopS bw v bs4
              (acc ++ [RLEToken.run (v % 2 ^ bw) (count + 1)]) rest.length).1 = _
        rw [hr3]
        show (rleParseLoopS bw v ⟨B, p + bw + bw + bw, wp, cb3⟩
          (acc ++ [RLEToken.run (v % 2 ^ bw) (0 % 2 ^ bw + 1)]) rest.length).1 = _
        rw [hrec, hvm, Nat.zero_mod]
        show (acc ++ [RLEToken.run v 1]) ++ rest.map (sentRewrite v) =
          acc ++ ((if v = v then RLEToken.run v 1 else RLEToken.bare v) ::
            rest.map (sentRewrite v))
        rw [if_pos rfl]
        simp
      · have hb1 : BitsAt B p (natBits bw v ++
            (rleToksBits bw true sent rest ++ L2)) := by
          obtain ⟨L1, hb, hl⟩ := hbits
          refine ⟨L1, ?_, hl⟩
          rw [hb]
          congr 1
          rw [show rleToksBits bw true sent (RLEToken.bare v :: rest) =
            rleTokBits bw true sent (.bare v) ++ rleToksBits bw true sent rest from rfl,
            show rleTokBits bw true sent (.bare v) =
              natBits bw (intMask bw ((v : Nat) : Int)) from by
              show (if true = true ∧ v = sent then rleRunBits bw true sent v 1
                else natBits bw (intMask bw ((v : Nat) : Int))) = _
              rw [if_neg (fun h => hvs h.2)],
            hmv]
          simp [List.append_assoc]
        obtain ⟨cb1, hr1, hi1, hb2⟩ := bitsAt_read B p bw wp cb v _ hb1 hinv
        have hvm : v % 2 ^ bw = v := Nat.mod_eq_of_lt hv
        have hrec := ih (p + bw) L2 wp cb1 (acc ++ [RLEToken.bare (v % 2 ^ bw)]) hb2 hwfr hi1
        show (match Bitstream.read ⟨B, p, wp, cb⟩ bw with
          | (value, bs2) =>
            if value = sent then
              match bs2.read bw with
              | (value2, bs3) =>
                match bs3.read bw with
                | (count, bs4) =>
                  rleParseLoopS bw sent bs4 (acc ++ [RLEToken.run value2 (count + 1)]) rest.length
            else rleParseLoopS bw sent bs2 (acc ++ [RLEToken.bare value]) rest.length).1 =
          acc ++ (RLEToken.bare v :: rest).map (sentRewrite sent)
        rw [hr1]
        show (if v % 2 ^ bw = sent then
            match Bitstream.read ⟨B, p + bw, wp, cb1⟩ bw with
            | (value2, bs3) =>
              match bs3.read bw with
              | (count, bs4) =>
                rleParseLoopS bw sent bs4 (acc ++ [RLEToken.run value2 (count + 1)]) rest.length
          else rleParseLoopS bw sent ⟨B, p + bw, wp, cb1⟩
            (acc ++ [RLEToken.bare (v % 2 ^ bw)]) rest.length).1 = _
        rw [if_neg (by rw [hvm]; exact hvs), hrec, hvm]
        show (acc ++ [RLEToken.bare v]) ++ rest.map (sentRewrite sent) =
          acc ++ ((if v = sent then RLEToken.run v 1 else RLEToken.bare v) ::
            rest.map (sentRewrite sent))
        rw [if_neg hvs]
        simp

theorem rleParseLoopF_spec (B : List Nat) (bw : Nat) :
    ∀ (toks : List RLEToken) (p : Nat) (L2 : List Bool) (wp cb : Nat) (acc : List RLEToken),
    BitsAt B p (rleToksBits bw false 0 toks ++ L2) →
    (∀ t ∈ toks, rleTokOK bw (bw + 1) t = true) →
    (p % 8 ≠ 0 → cb = B.getD (p / 8) 0) →
    (rleParseLoopF bw ⟨B, p, wp, cb⟩ acc toks.length).1 = acc ++ toks := by
  intro toks
  induction toks with
  | nil =>
    intro p L2 wp cb acc _ _ _
    simp [rleParseLoopF]
  | cons t rest ih =>
    intro p L2 wp cb acc hbits hwf hinv
    have hwfh := hwf t (List.mem_cons_self _ _)
    have hwfr : ∀ u ∈ rest, rleTokOK bw (bw + 1) u = true :=
      fun u hu => hwf u (List.mem_cons_of_mem _ hu)
    cases t with
    | run v c =>
      have hwf3 : v < 2 ^ bw ∧ 1 ≤ c ∧ c - 1 < 2 ^ (bw + 1) := by
        have h := hwfh
        simp [rleTokOK] at h
        exact ⟨h.1.1, h.1.2, h.2⟩
      obtain ⟨hv, hc1, hcw⟩ := hwf3
      have hmv : intMask bw ((v : Nat) : Int) = v := intMask_ofNat bw v hv
      have hmc : intMask (bw + 1) ((c : Int) - 1) = c - 1 := by
        rw [show ((c : Int) - 1) = (((c - 1 : Nat) : Nat) : Int) by omega]
        exact intMask_ofNat (bw + 1) (c - 1) hcw
      have hb1 : BitsAt B p (natBits 1 (intMask 1 1) ++ (natBits bw v ++
          (natBits (bw + 1) (c - 1) ++ (rleToksBits bw false 0 rest ++ L2)))) := by
        obtain ⟨L1, hb, hl⟩ := hbits
        refine ⟨L1, ?_, hl⟩
        rw [hb]
        congr 1
        rw [show rleToksBits bw false 0 (RLEToken.run v c :: rest) =
          ((natBits 1 (intMask 1 1) ++ natBits bw (intMask bw ((v : Nat) : Int))) ++
            natBits (bw + 1) (intMask (bw + 1) ((c : Int) - 1))) ++
            rleToksBits bw false 0 rest from rfl, hmv, hmc]
        simp [List.append_assoc]
      obtain ⟨cb1, hr1, hi1, hb2⟩ := bitsAt_read B p 1 wp cb (intMask 1 1) _ hb1 hinv
      obtain ⟨cb2, hr2, hi2, hb3⟩ := bitsAt_read B (p + 1) bw wp cb1 v _ hb2 hi1
      obtain ⟨cb3, hr3, hi3, hb4⟩ := bitsAt_read B (p + 1 + bw) (bw + 1) wp cb2 (c - 1)
        _ hb3 hi2
      have hrec := ih (p + 1 + bw + (bw + 1)) L2 wp cb3
        (acc ++ [RLEToken.run (v % 2 ^ bw) ((c - 1) % 2 ^ (bw + 1) + 1)]) hb4 hwfr hi3
      show (match Bitstream.read ⟨B, p, wp, cb⟩ 1 with
        | (repeat_flag, bs2) =>
          match bs2.read bw with
          | (value, bs3) =>
            if repeat_flag ≠ 0 then
              match bs3.read (bw + 1) with
              | (count, bs4) =>
                rleParseLoopF bw bs4 (acc ++ [RLEToken.run value (count + 1)]) rest.length
            else rleParseLoopF bw bs3 (acc ++ [RLEToken.bare value]) rest.length).1 =
        acc ++ (RLEToken.run v c :: rest)
      rw [hr1]
      show (match Bitstream.read ⟨B, p + 1, wp, cb1⟩ bw with
        | (value, bs3) =>
          if intMask 1 1 % 2 ^ 1 ≠ 0 then
            match bs3.read (bw + 1) with
            | (count, bs4) =>
              rleParseLoopF bw bs4 (acc ++ [RLEToken.run value (count + 1)]) rest.length
          else rleParseLoopF bw bs3 (acc ++ [RLEToken.bare value]) rest.length).1 = _
      rw [hr2]
      show (if intMask 1 1 % 2 ^ 1 ≠ 0 then
          match Bitstream.read ⟨B, p + 1 + bw, wp, cb2⟩ (bw + 1) with
          | (count, bs4) =>
            rleParseLoopF bw bs4
              (acc ++ [RLEToken.run (v % 2 ^ bw) (count + 1)]) rest.length
        else rleParseLoopF bw ⟨B, p + 1 + bw, wp, cb2⟩
          (acc ++ [RLEToken.bare (v % 2 ^ bw)]) rest.length).1 = _
      rw [if_pos (by norm_num [intMask]), hr3]
      show (rleParseLoopF bw ⟨B, p + 1 + bw + (bw + 1), wp, cb3⟩
        (acc ++ [RLEToken.run (v % 2 ^ bw) ((c - 1) % 2 ^ (bw + 1) + 1)]) rest.length).1 = _
      rw [hrec, Nat.mod_eq_of_lt hv, Nat.mod_eq_of_lt hcw, show c - 1 + 1 = c by omega]
      simp
    | bare v =>
      have hv : v < 2 ^ bw := by
        have h := hwfh
        simp [rleTokOK] at h
        exact h
      have hmv : intMask bw ((v : Nat) : Int) = v := intMask_ofNat bw v hv
      have hb1 : BitsAt B p (natBits 1 (intMask 1 0) ++ (natBits bw v ++
          (rleToksBits bw false 0 rest ++ L2))) := by
        obtain ⟨L1, hb, hl⟩ := hbits
        refine ⟨L1, ?_, hl⟩
        rw [hb]
        congr 1
        rw [show rleToksBits bw false 0 (RLEToken.bare v :: rest) =
          (natBits 1 (intMask 1 0) ++ natBits bw (intMask bw ((v : Nat) : Int))) ++
            rleToksBits bw false 0 rest from by
            show (if false = true ∧ v = 0 then rleRunBits bw false 0 v 1
              else natBits 1 (intMask 1 0) ++ natBits bw (intMask bw ((v : Nat) : Int))) ++
              rleToksBits bw false 0 rest = _
            rw [if_neg (fun h => Bool.false_ne_true h.1)], hmv]
        simp [List.append_assoc]
      obtain ⟨cb1, hr1, hi1, hb2⟩ := bitsAt_read B p 1 wp cb (intMask 1 0) _ hb1 hinv
      obtain ⟨cb2, hr2, hi2, hb3⟩ := bitsAt_read B (p + 1) bw wp cb1 v _ hb2 hi1
      have hrec := ih (p + 1 + bw) L2 wp cb2
        (acc ++ [RLEToken.bare (v % 2 ^ bw)]) hb3 hwfr hi2
      show (match Bitstream.read ⟨B, p, wp, cb⟩ 1 with
        | (repeat_flag, bs2) =>
          match bs2.read bw with
          | (value, bs3) =>
            if repeat_flag ≠ 0 then
              match bs3.read (bw + 1) with
              | (count, bs4) =>
                rleParseLoopF bw bs4 (acc ++ [RLEToken.run value (count + 1)]) rest.length
            else rleParseLoopF bw bs3 (acc ++ [RLEToken.bare value]) rest.length).1 =
        acc ++ (RLEToken.bare v :: rest)
      rw [hr1]
      show (match Bitstream.read ⟨B, p + 1, wp, cb1⟩ bw with
        | (value, bs3) =>
          if intMask 1 0 % 2 ^ 1 ≠ 0 then
            match bs3.read (bw + 1) with
            | (count, bs4) =>
              rleParseLoopF bw bs4 (acc ++ [RLEToken.run value (count + 1)]) rest.length
          else rleParseLoopF bw bs3 (acc ++ [RLEToken.bare value]) rest.length).1 = _
      rw [hr2]
      show (if intMask 1 0 % 2 ^ 1 ≠ 0 then
          match Bitstream.read ⟨B, p + 1 + bw, wp, cb1⟩ (bw + 1) with
          | (count, bs4) =>
            rleParseLoopF bw bs4
              (acc ++ [RLEToken.run (v % 2 ^ bw) (count + 1)]) rest.length
        else rleParseLoopF bw ⟨B, p + 1 + bw, wp, cb2⟩
          (acc ++ [RLEToken.bare (v % 2 ^ bw)]) rest.length).1 = _
      rw [if_neg (by norm_num [intMask]), hrec, Nat.mod_eq_of_lt hv]
      simp

/-- Parsing to_binary's container returns the written tokens, with bare
sentinels escaped as length-1 runs in sentinel mode. -/
theorem rle_from_binary_spec (codec : RLECodec) (toks : List RLEToken)
    (stats : RLEncodingStatistics)
    (hbw1 : 1 ≤ codec.bit_width) (hbw128 : codec.bit_width ≤ 128)
    (hn1 : 1 ≤ toks.length) (hn2 : toks.length - 1 < 2 ^ codec.size_bits)
    (hsent : stats.sentinel.getD 0 < 2 ^ codec.bit_width)
    (hwf : ∀ t ∈ toks, rleTokOK codec.bit_width
      (codec.bit_width + if codec.use_sentinel then 0 else 1) t = true) :
    codec.from_binary (codec.to_binary toks stats) =
      (if codec.use_sentinel then toks.map (sentRewrite (stats.sentinel.getD 0))
       else toks) := by
  obtain ⟨pad, hbits⟩ := rle_to_binary_bits codec toks stats
  obtain ⟨B, hB⟩ : ∃ B, codec.to_binary toks stats = B := ⟨_, rfl⟩
  rw [hB] at hbits
  rw [hB]
  have hm1 : intMask 7 ((codec.bit_width : Int) - 1) = codec.bit_width - 1 :=
    intMask_ofNat_sub 7 _ 1 hbw1 (by omega)
  have hm3 : intMask codec.size_bits ((toks.length : Int) - 1) = toks.length - 1 :=
    intMask_ofNat_sub _ _ 1 hn1 hn2
  have hm4 : intMask codec.bit_width ((stats.sentinel.getD 0 : Nat) : Int) =
      stats.sentinel.getD 0 := intMask_ofNat _ _ hsent
  have hinv0 : (0 : Nat) % 8 ≠ 0 → (0 : Nat) = B.getD (0 / 8) 0 := by
    intro h
    simp at h
  have hv1 : (codec.bit_width - 1) % 2 ^ 7 = codec.bit_width - 1 :=
    Nat.mod_eq_of_lt (by norm_num; omega)
  have hv3 : (toks.length - 1) % 2 ^ codec.size_bits = toks.length - 1 :=
    Nat.mod_eq_of_lt hn2
  by_cases hus : codec.use_sentinel = true
  · have hb0 : BitsAt B 0 (natBits 7 (codec.bit_width - 1) ++
        (natBits 1 (intMask 1 1) ++ (natBits codec.size_bits (toks.length - 1) ++
        (natBits codec.bit_width (stats.sentinel.getD 0) ++
        (rleToksBits codec.bit_width true (stats.sentinel.getD 0) toks ++
          List.replicate pad false))))) := by
      refine ⟨[], ?_, rfl⟩
      rw [hbits, List.nil_append]
      unfold rleHeaderBits
      rw [if_pos hus, if_pos hus, if_pos hus, hm1, hm3, hm4, hus]
      simp [List.append_assoc]
    obtain ⟨cb1, hr1, hi1, hb1⟩ := bitsAt_read B 0 7 0 0 (codec.bit_width - 1) _ hb0 hinv0
    obtain ⟨cb2, hr2, hi2, hb2⟩ := bitsAt_read B (0 + 7) 1 0 cb1 (intMask 1 1) _ hb1 hi1
    obtain ⟨cb3, hr3, hi3, hb3⟩ := bitsAt_read B (0 + 7 + 1) codec.size_bits 0 cb2
      (toks.length - 1) _ hb2 hi2
    obtain ⟨cb4, hr4, hi4, hb4⟩ := bitsAt_read B (0 + 7 + 1 + codec.size_bits)
      codec.bit_width 0 cb3 (stats.sentinel.getD 0) _ hb3 hi3
    have hwfS : ∀ t ∈ toks, rleTokOK codec.bit_width codec.bit_width t = true := by
      intro t ht
      have h := hwf t ht
      rw [hus] at h
      exact h
    have hparse := rleParseLoopS_spec B codec.bit_width (stats.sentinel.getD 0) hsent
      toks (0 + 7 + 1 + codec.size_bits + codec.bit_width) (List.replicate pad false)
      0 cb4 [] hb4 hwfS hi4
    show (match (Bitstream.from_array B).read 7 with
      | (bwf, bs1) =>
        match bs1.read 1 with
        | (usf, bs2) =>
          match bs2.read codec.size_bits with
          | (count, bs3) =>
            if usf ≠ 0 then
              match bs3.read (bwf + 1) with
              | (sentf, bs4) => (rleParseLoopS (bwf + 1) sentf bs4 [] (count + 1)).1
            else (rleParseLoopF (bwf + 1) bs3 [] (count + 1)).1) = _
    rw [show (Bitstream.from_array B).read 7 = Bitstream.read ⟨B, 0, 0, 0⟩ 7 from rfl, hr1]
    show (match Bitstream.read ⟨B, 0 + 7, 0, cb1⟩ 1 with
      | (usf, bs2) =>
        match bs2.read codec.size_bits with
        | (count, bs3) =>
          if usf ≠ 0 then
            match bs3.read ((codec.bit_width - 1) % 2 ^ 7 + 1) with
            | (sentf, bs4) =>
              (rleParseLoopS ((codec.bit_width - 1) % 2 ^ 7 + 1) sentf bs4 [] (count + 1)).1
          else (rleParseLoopF ((codec.bit_width - 1) % 2 ^ 7 + 1) bs3 [] (count + 1)).1) = _
    rw [hr2]
    show (match Bitstream.read ⟨B, 0 + 7 + 1, 0, cb2⟩ codec.size_bits with
      | (count, bs3) =>
        if intMask 1 1 % 2 ^ 1 ≠ 0 then
          match bs3.read ((codec.bit_width - 1) % 2 ^ 7 + 1) with
          | (sentf, bs4) =>
            (rleParseLoopS ((codec.bit_width - 1) % 2 ^ 7 + 1) sentf bs4 [] (count + 1)).1
        else (rleParseLoopF ((codec.bit_width - 1) % 2 ^ 7 + 1) bs3 [] (count + 1)).1) = _
    rw [hr3]
    show (if intMask 1 1 % 2 ^ 1 ≠ 0 then
        match Bitstream.read ⟨B, 0 + 7 + 1 + codec.size_bits, 0, cb3⟩
          ((codec.bit_width - 1) % 2 ^ 7 + 1) with
        | (sentf, bs4) =>
          (rleParseLoopS ((codec.bit_width - 1) % 2 ^ 7 + 1) sentf bs4 []
            ((toks.length - 1) % 2 ^ codec.size_bits + 1)).1
      else (rleParseLoopF ((codec.bit_width - 1) % 2 ^ 7 + 1)
        ⟨B, 0 + 7 + 1 + codec.size_bits, 0, cb3⟩ []
        ((toks.length - 1) % 2 ^ codec.size_bits + 1)).1) = _
    rw [if_pos (by norm_num [intMask]), hv1,
      show codec.bit_width - 1 + 1 = codec.bit_width by omega, hr4]
    show (rleParseLoopS codec.bit_width (stats.sentinel.getD 0 % 2 ^ codec.bit_width)
      ⟨B, 0 + 7 + 1 + codec.size_bits + codec.bit_width, 0, cb4⟩ []
      ((toks.length - 1) % 2 ^ codec.size_bits + 1)).1 = _
    rw [Nat.mod_eq_of_lt hsent, hv3, show toks.length - 1 + 1 = toks.length by omega,
      hparse, List.nil_append, if_pos hus]
  · have hb0 : BitsAt B 0 (natBits 7 (codec.bit_width - 1) ++
        (natBits 1 (intMask 1 0) ++ (natBits codec.size_bits (toks.length - 1) ++
        (rleToksBits codec.bit_width false 0 toks ++ List.replicate pad false)))) := by
      refine ⟨[], ?_, rfl⟩
      rw [hbits, List.nil_append]
      unfold rleHeaderBits
      rw [if_neg hus, if_neg hus, if_neg hus, hm1, hm3,
        show codec.use_sentinel = false from Bool.eq_false_iff.mpr hus]
      simp [List.append_assoc]
    obtain ⟨cb1, hr1, hi1, hb1⟩ := bitsAt_read B 0 7 0 0 (codec.bit_width - 1) _ hb0 hinv0
    obtain ⟨cb2, hr2, hi2, hb2⟩ := bitsAt_read B (0 + 7) 1 0 cb1 (intMask 1 0) _ hb1 hi1
    obtain ⟨cb3, hr3, hi3, hb3⟩ := bitsAt_read B (0 + 7 + 1) codec.size_bits 0 cb2
      (toks.length - 1) _ hb2 hi2
    have hwfF : ∀ t ∈ toks, rleTokOK codec.bit_width (codec.bit_width + 1) t = true := by
      intro t ht
      have h := hwf t ht
      rw [show codec.use_sentinel = false from Bool.eq_false_iff.mpr hus] at h
      exact h
    have hparse := rleParseLoopF_spec B codec.bit_width toks
      (0 + 7 + 1 + codec.size_bits) (List.replicate pad false) 0 cb3 [] hb3 hwfF hi3
    show (match (Bitstream.from_array B).read 7 with
      | (bwf, bs1) =>
        match bs1.read 1 with
        | (usf, bs2) =>
          match bs2.read codec.size_bits with
          | (count, bs3) =>
            if usf ≠ 0 then
              match bs3.read (bwf + 1) with
              | (sentf, bs4) => (rleParseLoopS (bwf + 1) sentf bs4 [] (count + 1)).1
            else (rleParseLoopF (bwf + 1) bs3 [] (count + 1)).1) = _
    rw [show (Bitstream.from_array B).read 7 = Bitstream.read ⟨B, 0, 0, 0⟩ 7 from rfl, hr1]
    show (match Bitstream.read ⟨B, 0 + 7, 0, cb1⟩ 1 with
      | (usf, bs2) =>
        match bs2.read codec.size_bits with
        | (count, bs3) =>
          if usf ≠ 0 then
            match bs3.read ((codec.bit_width - 1) % 2 ^ 7 + 1) with
            | (sentf, bs4) =>
              (rleParseLoopS ((codec.bit_width - 1) % 2 ^ 7 + 1) sentf bs4 [] (count + 1)).1
          else (rleParseLoopF ((codec.bit_width - 1) % 2 ^ 7 + 1) bs3 [] (count + 1)).1) = _
    rw [hr2]
    show (match Bitstream.read ⟨B, 0 + 7 + 1, 0, cb2⟩ codec.size_bits with
      | (count, bs3) =>
        if intMask 1 0 % 2 ^ 1 ≠ 0 then
          match bs3.read ((codec.bit_width - 1) % 2 ^ 7 + 1) with
          | (sentf, bs4) =>
            (rleParseLoopS ((codec.bit_width - 1) % 2 ^ 7 + 1) sentf bs4 [] (count + 1)).1
        else (rleParseLoopF ((codec.bit_width - 1) % 2 ^ 7 + 1) bs3 [] (count + 1)).1) = _
    rw [hr3]
    show (if intMask 1 0 % 2 ^ 1 ≠ 0 then
        match Bitstream.read ⟨B, 0 + 7 + 1 + codec.size_bits, 0, cb3⟩
          ((codec.bit_width - 1) % 2 ^ 7 + 1) with
        | (sentf, bs4) =>
          (rleParseLoopS ((codec.bit_width - 1) % 2 ^ 7 + 1) sentf bs4 []
            ((toks.length - 1) % 2 ^ codec.size_bits + 1)).1
      else (rleParseLoopF ((codec.bit_width - 1) % 2 ^ 7 + 1)
        ⟨B, 0 + 7 + 1 + codec.size_bits, 0, cb3⟩ []
        ((toks.length - 1) % 2 ^ codec.size_bits + 1)).1) = _
    rw [if_neg (by norm_num [intMask]), hv1,
      show codec.bit_width - 1 + 1 = codec.bit_width by omega, hv3,
      show toks.length - 1 + 1 = toks.length by omega, hparse, List.nil_append,
      if_neg hus]

theorem rleDecompressStep_sentRewrite (bw : Nat) (buf : List Nat) (sent : Nat)
    (t : RLEToken) :
    rleDecompressStep bw buf (sentRewrite sent t) = rleDecompressStep bw buf t := by
  cases t with
  | run v c => rfl
  | bare v =>
    show rleDecompressStep bw buf (if v = sent then RLEToken.run v 1 else RLEToken.bare v) = _
    by_cases h : v = sent
    · rw [if_pos h]
      rfl
    · rw [if_neg h]

/-- Rewriting escaped sentinels as length-1 runs does not change the decoded
bytes. -/
theorem decompress_sentRewrite (codec : RLECodec) (sent : Nat) (toks : List RLEToken) :
    codec.decompress (toks.map (sentRewrite sent)) = codec.decompress toks := by
  show List.foldl (rleDecompressStep ((codec.bit_width + 7) / 8)) []
      (toks.map (sentRewrite sent)) =
    List.foldl (rleDecompressStep ((codec.bit_width + 7) / 8)) [] toks
  generalize [] = init
  induction toks generalizing init with
  | nil => rfl
  | cons t rest ih =>
    show List.foldl _ (rleDecompressStep ((codec.bit_width + 7) / 8) init
      (sentRewrite sent t)) (rest.map (sentRewrite sent)) = _
    rw [rleDecompressStep_sentRewrite, ih]
    rfl

theorem countEq_ne_zero_mem (v : Nat) : ∀ toks : List RLEToken,
    countEq v toks ≠ 0 → RLEToken.bare v ∈ toks := by
  intro toks
  induction toks with
  | nil => intro h; exact absurd rfl h
  | cons t rest ih =>
    intro h
    cases t with
    | run a b => exact List.mem_cons_of_mem _ (ih h)
    | bare w =>
      by_cases hw : w = v
      · rw [hw]
        exact List.mem_cons_self _ _
      · have h2 : countEq v rest ≠ 0 := by
          intro h0
          apply h
          show (if w = v then 1 else 0) + countEq v rest = 0
          rw [if_neg hw, h0]
        exact List.mem_cons_of_mem _ (ih h2)

theorem rle_sentinel_lt (bw : Nat) : rle_sentinel_for_bit_width bw < 2 ^ bw := by
  unfold rle_sentinel_for_bit_width
  have h1 : 0x08192A3B4C5D6E7F &&& ((1 <<< bw) - 1) ≤ (1 <<< bw) - 1 := Nat.and_le_right
  have h2 : (1 : Nat) <<< bw = 2 ^ bw := by
    rw [Nat.shiftLeft_eq, Nat.one_mul]
  have h3 : (1 : Nat) ≤ 2 ^ bw := Nat.one_le_two_pow
  omega

/-- The sentinel chosen by analyze_sentinel fits in bit_width bits whenever all
bare values do. -/
theorem analyze_sentinel_getD_lt (s : RLEncodingStatistics) (toks : List RLEToken)
    (hus : s.use_sentinel = true)
    (hbv : ∀ v, countEq v toks ≠ 0 → v < 2 ^ s.bit_width) :
    (s.analyze_sentinel toks).sentinel.getD 0 < 2 ^ s.bit_width := by
  by_cases hds : s.dynamic_sentinel = true
  · cases hfa : firstAbsent s.bit_width (buildValueMap toks []) with
    | some j =>
      obtain ⟨_, _, hjlt, _⟩ :=
        firstAbsentAux_some (buildValueMap toks []) (1 <<< s.bit_width) 0 j hfa
      have hres : s.analyze_sentinel toks =
          { s with sentinel := some j, sentinel_count := countEq j toks } := by
        simp [RLEncodingStatistics.analyze_sentinel, hus, hds, hfa]
      rw [hres]
      show j < 2 ^ s.bit_width
      rw [Nat.shiftLeft_eq, Nat.one_mul] at hjlt
      omega
    | none =>
      cases hm : buildValueMap toks [] with
      | nil =>
        have hfa2 : firstAbsent s.bit_width [] = none := by
          rw [← hm]
          exact hfa
        have hres : s.analyze_sentinel toks =
            { s with sentinel := some 0, sentinel_count := countEq 0 toks } := by
          simp [RLEncodingStatistics.analyze_sentinel, hus, hds, hfa2, hm, leastUsed]
        rw [hres]
        show 0 < 2 ^ s.bit_width
        positivity
      | cons kv0 t =>
        obtain ⟨r, hrdef⟩ : ∃ r,
            t.foldl (fun best y => if y.2 < best.2 then y else best) kv0 = r := ⟨_, rfl⟩
        have hlu : leastUsed (buildValueMap toks []) = some r := by
          rw [hm]
          show some (t.foldl (fun best y => if y.2 < best.2 then y else best) kv0) = some r
          rw [hrdef]
        obtain ⟨hmem, _, _⟩ := luAux t kv0
        rw [hrdef] at hmem
        have hrmem : r ∈ buildValueMap toks [] := by
          rw [hm]
          exact hmem
        have hnd : ((buildValueMap toks []).map Prod.fst).Nodup :=
          nodup_keys_buildValueMap toks [] (by simp)
        have hgetr : vmapGet (buildValueMap toks []) r.1 = some r.2 :=
          vmapGet_of_mem _ hnd r hrmem
        have hcr : countEq r.1 toks ≠ 0 := by
          intro hc
          rw [buildValueMap_get_nil, if_pos hc] at hgetr
          exact Option.noConfusion hgetr
        have hrlt : r.1 < 2 ^ s.bit_width := hbv r.1 hcr
        by_cases hr2 : r.2 < 1
        · have hres : s.analyze_sentinel toks =
              { s with sentinel := some r.1, sentinel_count := r.2 + countEq r.1 toks } := by
            simp [RLEncodingStatistics.analyze_sentinel, hus, hds, hfa, hlu, hr2]
          rw [hres]
          exact hrlt
        · have hres : s.analyze_sentinel toks =
              { s with sentinel := some r.1, sentinel_count := r.2 } := by
            simp [RLEncodingStatistics.analyze_sentinel, hus, hds, hfa, hlu, hr2]
          rw [hres]
          exact hrlt
  · by_cases hsc : s.sentinel_count < 1
    · have hres : s.analyze_sentinel toks =
          { s with
            sentinel := some (rle_sentinel_for_bit_width s.bit_width),
            sentinel_count :=
              s.sentinel_count + countEq (rle_sentinel_for_bit_width s.bit_width) toks } := by
        simp [RLEncodingStatistics.analyze_sentinel, hus, hds, hsc]
      rw [hres]
      exact rle_sentinel_lt s.bit_width
    · have hres : s.analyze_sentinel toks =
          { s with sentinel := some (rle_sentinel_for_bit_width s.bit_width) } := by
        simp [RLEncodingStatistics.analyze_sentinel, hus, hds, hsc]
      rw [hres]
      exact rle_sentinel_lt s.bit_width

/-- When byte_width divides the length, the RLE compressor's token stream
decodes to exactly the input (shared helper). -/
theorem rle_compress_exact (data : List Nat) (hdata : ∀ b ∈ data, b < 256)
    (bit_width : Nat) (hbwpos : 1 ≤ bit_width) (ds : Bool) (sb : Nat)
    (hdiv : (bit_width + 7) / 8 ∣ data.length) :
    (RLECodec.init bit_width ds sb).decompress
      ((RLECodec.init bit_width ds sb).compress data).1 = data := by
  have hbw1 : 1 ≤ (bit_width + 7) / 8 := by omega
  obtain ⟨pfin, hd, hlen, hlt, hdv, _⟩ :=
    rleCompressLoop_spec (RLECodec.init bit_width ds sb) data hdata
      ((bit_width + 7) / 8)
      (if (RLECodec.init bit_width ds sb).use_sentinel then
        1 <<< ((RLECodec.init bit_width ds sb).bit_width + 1)
       else (1 <<< ((RLECodec.init bit_width ds sb).bit_width + 1)) <<< 1)
      rfl hbw1 data.length 0 []
      (RLEncodingStatistics.init (RLECodec.init bit_width ds sb))
      (by omega) (by rw [padded_zero]; rfl)
      ⟨rfl, rfl, rfl, rfl, rfl, rfl, rfl, rfl⟩
      (dvd_zero _) (Or.inl rfl)
  have hgoal : (RLECodec.init bit_width ds sb).decompress
      ((RLECodec.init bit_width ds sb).compress data).1 = padded data pfin := hd
  have hsub : (bit_width + 7) / 8 ∣ pfin - data.length := Nat.dvd_sub' hdv hdiv
  have hz : pfin - data.length = 0 :=
    Nat.eq_zero_of_dvd_of_lt hsub (by omega)
  rw [hgoal, padded_full data pfin hlen, hz]
  simp

set_option maxRecDepth 8000 in
/-- C2 counterexample: bit_width 4 is valid and divides len([255])*8, yet the
binary round-trip returns [15]: compress's _get_value assembles the raw byte
255 without masking, and to_binary's 4-bit value field truncates it. -/
theorem C2_value_truncation_counterexample :
    (1 ≤ 4 ∧ 4 ≤ 128 ∧ 4 ∣ [255].length * 8) ∧
    (RLECodec.init 4 true 24).decompress
        ((RLECodec.init 4 true 24).from_binary
          ((RLECodec.init 4 true 24).to_binary
            ((RLECodec.init 4 true 24).compress [255]).1
            ((RLECodec.init 4 true 24).compress [255]).2)) ≠ [255] := by decide

/-- C2 amended: the RLE binary round-trip recovers the input exactly whenever
no fixed-width field of the container truncates: every token value fits in
bit_width bits, every run count fits in the count field, the token count fits
in size_bits bits, and byte_width = ceil(bit_width/8) divides len(data). -/
theorem C2_rle_binary_roundtrip_amended (data : List Nat) (hdata : ∀ b ∈ data, b < 256)
    (bit_width : Nat) (hbw : 1 ≤ bit_width) (hbw128 : bit_width ≤ 128) (ds : Bool)
    (hdiv : (bit_width + 7) / 8 ∣ data.length)
    (hn1 : 1 ≤ ((RLECodec.init bit_width ds 24).compress data).1.length)
    (hn2 : ((RLECodec.init bit_width ds 24).compress data).1.length - 1 < 2 ^ 24)
    (hwf : ∀ t ∈ ((RLECodec.init bit_width ds 24).compress data).1,
      rleTokOK bit_width (bit_width + if bit_width &&& 3 == 0 then 0 else 1) t = true) :
    (RLECodec.init bit_width ds 24).decompress
      ((RLECodec.init bit_width ds 24).from_binary
        ((RLECodec.init bit_width ds 24).to_binary
          ((RLECodec.init bit_width ds 24).compress data).1
          ((RLECodec.init bit_width ds 24).compress data).2)) = data := by
  have hbw1 : 1 ≤ (bit_width + 7) / 8 := by omega
  obtain ⟨toks, st0, hloop⟩ : ∃ toks st0,
      rleCompressLoop (RLECodec.init bit_width ds 24) data ((bit_width + 7) / 8)
        (if bit_width &&& 3 == 0 then 1 <<< (bit_width + 1)
         else (1 <<< (bit_width + 1)) <<< 1)
        data.length 0 [] (RLEncodingStatistics.init (RLECodec.init bit_width ds 24)) =
        (toks, st0) := ⟨_, _, rfl⟩
  obtain ⟨pfin, _, _, _, _, hinv⟩ :=
    rleCompressLoop_spec (RLECodec.init bit_width ds 24) data hdata
      ((bit_width + 7) / 8)
      (if bit_width &&& 3 == 0 then 1 <<< (bit_width + 1)
       else (1 <<< (bit_width + 1)) <<< 1)
      rfl hbw1 data.length 0 []
      (RLEncodingStatistics.init (RLECodec.init bit_width ds 24))
      (by omega) (by rw [padded_zero]; rfl)
      ⟨rfl, rfl, rfl, rfl, rfl, rfl, rfl, rfl⟩
      (dvd_zero _) (Or.inl rfl)
  rw [hloop] at hinv
  obtain ⟨hl, hr, hbwi, husS, hdsS, hhb, hsn, hsc0⟩ := hinv
  have hbwi2 : st0.bit_width = bit_width := hbwi
  have husS2 : st0.use_sentinel = (bit_width &&& 3 == 0) := husS
  have hsn2 : st0.sentinel = none := hsn
  have hc1 : ((RLECodec.init bit_width ds 24).compress data).1 = toks := by
    show (match rleCompressLoop (RLECodec.init bit_width ds 24) data ((bit_width + 7) / 8)
        (if bit_width &&& 3 == 0 then 1 <<< (bit_width + 1)
         else (1 <<< (bit_width + 1)) <<< 1)
        data.length 0 [] (RLEncodingStatistics.init (RLECodec.init bit_width ds 24)) with
      | (result, statistics) => (result, statistics.analyze_sentinel result)).1 = toks
    rw [hloop]
  have hc2 : ((RLECodec.init bit_width ds 24).compress data).2 =
      st0.analyze_sentinel toks := by
    show (match rleCompressLoop (RLECodec.init bit_width ds 24) data ((bit_width + 7) / 8)
        (if bit_width &&& 3 == 0 then 1 <<< (bit_width + 1)
         else (1 <<< (bit_width + 1)) <<< 1)
        data.length 0 [] (RLEncodingStatistics.init (RLECodec.init bit_width ds 24)) with
      | (result, statistics) => (result, statistics.analyze_sentinel result)).2 = _
    rw [hloop]
  have hwfT := hwf
  rw [hc1] at hwfT
  have hsentlt : (((RLECodec.init bit_width ds 24).compress data).2).sentinel.getD 0
      < 2 ^ bit_width := by
    rw [hc2]
    cases hmod : (bit_width &&& 3 == 0) with
    | true =>
      have hus0 : st0.use_sentinel = true := by rw [husS2, hmod]
      have hbv : ∀ v, countEq v toks ≠ 0 → v < 2 ^ st0.bit_width := by
        intro v hv
        have hmem := countEq_ne_zero_mem v toks hv
        have h := hwfT (RLEToken.bare v) hmem
        rw [hbwi2]
        exact of_decide_eq_true h
      have h := analyze_sentinel_getD_lt st0 toks hus0 hbv
      rw [hbwi2] at h
      exact h
    | false =>
      have hus0 : st0.use_sentinel = false := by rw [husS2, hmod]
      rw [analyze_sentinel_flag st0 toks hus0, hsn2]
      show 0 < 2 ^ bit_width
      positivity
  have hfb := rle_from_binary_spec (RLECodec.init bit_width ds 24)
    ((RLECodec.init bit_width ds 24).compress data).1
    ((RLECodec.init bit_width ds 24).compress data).2
    hbw hbw128 hn1 hn2 hsentlt hwf
  rw [hfb]
  by_cases hus : (RLECodec.init bit_width ds 24).use_sentinel = true
  · rw [if_pos hus, decompress_sentRewrite]
    exact rle_compress_exact data hdata bit_width hbw ds 24 hdiv
  · rw [if_neg hus]
    exact rle_compress_exact data hdata bit_width hbw ds 24 hdiv

set_option maxRecDepth 8000 in
/-- Closed witness for the amended C2 at bit_width 8 on [9, 9, 9, 2]: all field
ranges hold and the binary round-trip returns the input. -/
theorem C2_rle_binary_roundtrip_amended_witness :
    (RLECodec.init 8 true 24).decompress
      ((RLECodec.init 8 true 24).from_binary
        ((RLECodec.init 8 true 24).to_binary
          ((RLECodec.init 8 true 24).compress [9, 9, 9, 2]).1
          ((RLECodec.init 8 true 24).compress [9, 9, 9, 2]).2)) = [9, 9, 9, 2] :=
  C2_rle_binary_roundtrip_amended [9, 9, 9, 2] (by decide) 8 (by decide) (by decide)
    true (by decide) (by decide) (by decide) (by decide)

/-! ### Embedding of CompressionRunner.find_best_compression (max_threads = 1) -/

/-- The function sanitize_buffer_address of compress.py. -/
def sanitize_buffer_address (buffer : List Nat) (address_bits : Nat) : Nat :=
  min (bit_width_per_value buffer.length) address_bits

/-- One entry of CompressionRunner.results: the fields the search reads. -/
structure CRes where
  window_bits : Nat
  length_bits : Nat
  size : Nat
  deriving Repr, DecidableEq, BEq

/-- The predicted size the runner stores for a parameter pair. -/
def crSize (buffer : List Nat) (w l : Nat) : Nat :=
  ((LZSSCodec.init w l 22).compress buffer).2.size

/-- The nested helper compress of find_best_compression: skip duplicates and
illegal pairs, otherwise run the codec and append the result (inline for
max_threads = 1). -/
def crCompress (buffer : List Nat) (maxW maxL : Nat) (results : List CRes)
    (w l : Nat) : List CRes :=
  if (results.find? (fun r => r.window_bits == w && r.length_bits == l)).isSome then
    results
  else if 2 < w ∧ w ≤ maxW ∧ 0 < l ∧ l ≤ maxL then
    results ++ [⟨w, l, crSize buffer w l⟩]
  else results

/-- Python sorted(series, key, reverse=True): stable insertion sort by
descending key. -/
def insertDesc (key : CRes → Nat) (x : CRes) : List CRes → List CRes
  | [] => [x]
  | y :: t => if key y < key x then x :: y :: t else y :: insertDesc key x t

def sortDesc (key : CRes → Nat) (l : List CRes) : List CRes :=
  l.foldl (fun acc x => insertDesc key x acc) []

def sizeGt (ls : Option Nat) (x : Nat) : Bool :=
  match ls with
  | none => false
  | some s => decide (s < x)

def sizeLt (ls : Option Nat) (x : Nat) : Bool :=
  match ls with
  | none => true
  | some s => decide (x < s)

/-- The loop of the nested helper find_reversion (lowest_size none = inf). -/
def frLoop (wa : Int) (key : CRes → Nat) :
    List CRes → Int → Nat → Option Nat → Int → Option Nat × Int
  | [], _, lsk, _, aw => (some lsk, aw)
  | r :: rest, ek, lsk, ls, aw =>
    if (key r : Int) ≠ ek then (none, wa)
    else if sizeGt ls r.size then
      if aw - 1 < 0 then (some lsk, aw - 1)
      else frLoop wa key rest (ek - 1) lsk ls (aw - 1)
    else
      frLoop wa key rest (ek - 1) (key r) (some r.size)
        (if sizeLt ls r.size then wa else aw)

def findReversion (wa : Int) (key : CRes → Nat) (series : List CRes)
    (max_key : Nat) : Option Nat × Int :=
  frLoop wa key (sortDesc key series) max_key max_key none wa

def crFinishW (maxW maxL : Nat) (results : List CRes) : Option Nat :=
  (findReversion 0 (fun r => r.window_bits)
    (results.filter (fun r => r.length_bits == maxL)) maxW).1

def crFinishL (maxW maxL : Nat) (results : List CRes) : Option Nat :=
  (findReversion 0 (fun r => r.length_bits)
    (results.filter (fun r => r.window_bits == maxW)) maxL).1

/-- The first descent loop (window series at maxL), one compress per pass as
filter_for_threads yields for max_threads = 1.  The fuel-exhausted case takes
the finished branch; window_bits decreases every pass, so maxW + 2 units of
fuel make it unreachable. -/
def crLoop1 (buffer : List Nat) (maxW maxL : Nat) :
    Nat → List CRes → Nat → List CRes × Option Nat
  | 0, results, _ => (results, crFinishW maxW maxL results)
  | fuel + 1, results, window_bits =>
    match findReversion 0 (fun r => r.window_bits)
        (results.filter (fun r => r.length_bits == maxL)) maxW with
    | (lw, aw) =>
      if lw.isSome && decide (aw < 0) then (results, lw)
      else if 3 ≤ window_bits then
        if window_bits - 1 < 3 then
          (crCompress buffer maxW maxL results window_bits maxL,
           crFinishW maxW maxL (crCompress buffer maxW maxL results window_bits maxL))
        else
          crLoop1 buffer maxW maxL fuel
            (crCompress buffer maxW maxL results window_bits maxL) (window_bits - 1)
      else (results, crFinishW maxW maxL results)

/-- The second descent loop (length series at maxW). -/
def crLoop2 (buffer : List Nat) (maxW maxL : Nat) :
    Nat → List CRes → Nat → List CRes × Option Nat
  | 0, results, _ => (results, crFinishL maxW maxL results)
  | fuel + 1, results, length_bits =>
    match findReversion 0 (fun r => r.length_bits)
        (results.filter (fun r => r.window_bits == maxW)) maxL with
    | (ll, aw) =>
      if ll.isSome && decide (aw < 0) then (results, ll)
      else if 1 ≤ length_bits then
        if length_bits - 1 < 1 then
          (crCompress buffer maxW maxL results maxW length_bits,
           crFinishL maxW maxL (crCompress buffer maxW maxL results maxW length_bits))
        else
          crLoop2 buffer maxW maxL fuel
            (crCompress buffer maxW maxL results maxW length_bits) (length_bits - 1)
      else (results, crFinishL maxW maxL results)

/-- min(r.length_bits for r in results if r.window_bits == maxW); the
seeding guarantees (maxW, maxL) is present, so folding from maxL is the
Python min. -/
def crMinLen (maxW : Nat) (results : List CRes) (maxL : Nat) : Nat :=
  ((results.filter (fun r => r.window_bits == maxW)).map
    (fun r => r.length_bits)).foldl Nat.min maxL

/-- One row of the additional_combinations nest: for length_bits in
range(ll - 1, ll + 1) with the legality filter. -/
def crAddRow (w ll maxL : Nat) : List (Nat × Nat) :=
  (if 0 < ll - 1 ∧ ll - 1 ≤ maxL then [(w, ll - 1)] else []) ++
  (if 0 < ll ∧ ll ≤ maxL then [(w, ll)] else [])

/-- The additional_combinations list of find_best_compression: the scheduled
refinement is range(lw-1, lw+1) x range(ll-1, ll+1) — a 2x2 block, not 3x3 —
intersected with the legal range. -/
def crAdditional (lw ll maxW maxL : Nat) : List (Nat × Nat) :=
  (if 2 < lw - 1 ∧ lw - 1 ≤ maxW then crAddRow (lw - 1) ll maxL else []) ++
  (if 2 < lw ∧ lw ≤ maxW then crAddRow lw ll maxL else [])

/-- The final while loop: each pass compresses the next scheduled pair. -/
def crStage3 (buffer : List Nat) (maxW maxL : Nat) (results : List CRes)
    (combos : List (Nat × Nat)) : List CRes :=
  combos.foldl (fun acc c => crCompress buffer maxW maxL acc c.1 c.2) results

/-- best_result(): Python min by size — the first result of least size. -/
def crBest : List CRes → Option CRes
  | [] => none
  | r :: t => some (t.foldl (fun best x => if x.size < best.size then x else best) r)

def crSeed (buffer : List Nat) (maxW maxL : Nat) : List CRes :=
  crCompress buffer maxW maxL [] maxW maxL

def crRun1 (buffer : List Nat) (maxW maxL : Nat) : List CRes × Option Nat :=
  crLoop1 buffer maxW maxL (maxW + 2) (crSeed buffer maxW maxL) (maxW - 1)

def crRun2 (buffer : List Nat) (maxW maxL : Nat) : List CRes × Option Nat :=
  crLoop2 buffer maxW maxL (maxL + 2) (crRun1 buffer maxW maxL).1
    (crMinLen maxW (crRun1 buffer maxW maxL).1 maxL)

def crLW (buffer : List Nat) (maxW maxL : Nat) : Nat :=
  ((crRun1 buffer maxW maxL).2).getD 0

def crLL (buffer : List Nat) (maxW maxL : Nat) : Nat :=
  ((crRun2 buffer maxW maxL).2).getD 0

/-- All parameter pairs evaluated by find_best_compression (the runner's
results list), in evaluation order. -/
def crFinalResults (buffer : List Nat) (maxW maxL : Nat) : List CRes :=
  crStage3 buffer maxW maxL (crRun2 buffer maxW maxL).1
    (crAdditional (crLW buffer maxW maxL) (crLL buffer maxW maxL) maxW maxL)

/-- The method CompressionRunner.find_best_compression for max_threads = 1,
returning the evaluated results and the chosen one. -/
def find_best_compression (buffer : List Nat) (mw0 ml0 : Nat) :
    List CRes × Option CRes :=
  (crFinalResults buffer (sanitize_buffer_address buffer mw0)
     (sanitize_buffer_address buffer ml0),
   crBest (crFinalResults buffer (sanitize_buffer_address buffer mw0)
     (sanitize_buffer_address buffer ml0)))

theorem mem_if_nil {α : Type} (p : Prop) [Decidable p] (l : List α) (x : α) :
    x ∈ (if p then l else []) ↔ p ∧ x ∈ l := by
  by_cases h : p
  · rw [if_pos h]
    exact ⟨fun hx => ⟨h, hx⟩, fun hx => hx.2⟩
  · rw [if_neg h]
    exact ⟨fun hx => absurd hx (List.not_mem_nil x), fun hx => absurd hx.1 h⟩

/-- Membership in additional_combinations: the scheduled refinement block is
the 2x2 square  range(lw-1, lw+1) x range(ll-1, ll+1), intersected with the
legal parameter range. -/
theorem crAdditional_mem (lw ll maxW maxL w l : Nat) :
    (w, l) ∈ crAdditional lw ll maxW maxL ↔
      ((w = lw - 1 ∨ w = lw) ∧ (l = ll - 1 ∨ l = ll) ∧
        2 < w ∧ w ≤ maxW ∧ 0 < l ∧ l ≤ maxL) := by
  unfold crAdditional crAddRow
  simp only [List.mem_append, mem_if_nil, List.mem_singleton, Prod.mk.injEq]
  omega

theorem crCompress_mono (buffer : List Nat) (maxW maxL : Nat) (results : List CRes)
    (w l : Nat) (x : CRes) (h : x ∈ results) :
    x ∈ crCompress buffer maxW maxL results w l := by
  unfold crCompress
  by_cases h1 : (results.find? (fun r => r.window_bits == w && r.length_bits == l)).isSome
    = true
  · rw [if_pos h1]
    exact h
  · rw [if_neg h1]
    by_cases h2 : 2 < w ∧ w ≤ maxW ∧ 0 < l ∧ l ≤ maxL
    · rw [if_pos h2]
      exact List.mem_append_left _ h
    · rw [if_neg h2]
      exact h

theorem crCompress_covers (buffer : List Nat) (maxW maxL : Nat) (results : List CRes)
    (w l : Nat) (hle : 2 < w ∧ w ≤ maxW ∧ 0 < l ∧ l ≤ maxL) :
    ∃ r ∈ crCompress buffer maxW maxL results w l,
      r.window_bits = w ∧ r.length_bits = l := by
  unfold crCompress
  cases hf : results.find? (fun r => r.window_bits == w && r.length_bits == l) with
  | some r0 =>
    have hmem := List.mem_of_find?_eq_some hf
    have hp := List.find?_some hf
    simp only [Bool.and_eq_true, beq_iff_eq] at hp
    exact ⟨r0, hmem, hp.1, hp.2⟩
  | none =>
    refine ⟨⟨w, l, crSize buffer w l⟩, ?_, rfl, rfl⟩
    show (⟨w, l, crSize buffer w l⟩ : CRes) ∈
      if 2 < w ∧ w ≤ maxW ∧ 0 < l ∧ l ≤ maxL then
        results ++ [(⟨w, l, crSize buffer w l⟩ : CRes)] else results
    rw [if_pos hle]
    exact List.mem_append_right _ (List.mem_singleton.mpr rfl)

theorem crStage3_mono (buffer : List Nat) (maxW maxL : Nat) :
    ∀ (combos : List (Nat × Nat)) (results : List CRes) (x : CRes),
    x ∈ results → x ∈ crStage3 buffer maxW maxL results combos := by
  intro combos
  induction combos with
  | nil => intro results x h; exact h
  | cons c rest ih =>
    intro results x h
    exact ih _ x (crCompress_mono buffer maxW maxL results c.1 c.2 x h)

theorem crStage3_covers (buffer : List Nat) (maxW maxL : Nat) :
    ∀ (combos : List (Nat × Nat)) (results : List CRes),
    (∀ c ∈ combos, 2 < c.1 ∧ c.1 ≤ maxW ∧ 0 < c.2 ∧ c.2 ≤ maxL) →
    ∀ c ∈ combos, ∃ r ∈ crStage3 buffer maxW maxL results combos,
      r.window_bits = c.1 ∧ r.length_bits = c.2 := by
  intro combos
  induction combos with
  | nil => intro results _ c hc; cases hc
  | cons c0 rest ih =>
    intro results hleg c hc
    rcases List.mem_cons.mp hc with h | h
    · subst h
      obtain ⟨r, hr, hrw, hrl⟩ := crCompress_covers buffer maxW maxL results c.1 c.2
        (hleg c (List.mem_cons_self _ _))
      exact ⟨r, crStage3_mono buffer maxW maxL rest _ r hr, hrw, hrl⟩
    · exact ih _ (fun d hd => hleg d (List.mem_cons_of_mem _ hd)) c h

theorem crBestAux (t : List CRes) : ∀ r0 : CRes,
    (t.foldl (fun best x => if x.size < best.size then x else best) r0) ∈ r0 :: t ∧
    (t.foldl (fun best x => if x.size < best.size then x else best) r0).size ≤ r0.size ∧
    ∀ x ∈ t, (t.foldl (fun best x => if x.size < best.size then x else best) r0).size
      ≤ x.size := by
  induction t with
  | nil =>
    intro r0
    exact ⟨List.mem_cons_self _ _, Nat.le_refl _, by intro x hx; cases hx⟩
  | cons z t ih =>
    intro r0
    have hfold : (z :: t).foldl (fun best x => if x.size < best.size then x else best) r0 =
        t.foldl (fun best x => if x.size < best.size then x else best)
          (if z.size < r0.size then z else r0) := rfl
    obtain ⟨hmem, hle, hall⟩ := ih (if z.size < r0.size then z else r0)
    rw [hfold]
    by_cases hz : z.size < r0.size
    · rw [if_pos hz] at hmem hle hall ⊢
      refine ⟨?_, ?_, ?_⟩
      · rcases List.mem_cons.mp hmem with h | h
        · rw [h]
          exact List.mem_cons_of_mem _ (List.mem_cons_self _ _)
        · exact List.mem_cons_of_mem _ (List.mem_cons_of_mem _ h)
      · omega
      · intro x hx
        rcases List.mem_cons.mp hx with h | h
        · subst h
          exact hle
        · exact hall x h
    · rw [if_neg hz] at hmem hle hall ⊢
      refine ⟨?_, ?_, ?_⟩
      · rcases List.mem_cons.mp hmem with h | h
        · rw [h]
          exact List.mem_cons_self _ _
        · exact List.mem_cons_of_mem _ (List.mem_cons_of_mem _ h)
      · exact hle
      · intro x hx
        rcases List.mem_cons.mp hx with h | h
        · subst h
          omega
        · exact hall x h

theorem crBest_spec (results : List CRes) (r : CRes) (h : crBest results = some r) :
    r ∈ results ∧ ∀ x ∈ results, r.size ≤ x.size := by
  cases results with
  | nil => exact Option.noConfusion h
  | cons r0 t =>
    have hr : t.foldl (fun best x => if x.size < best.size then x else best) r0 = r :=
      Option.some.inj h
    obtain ⟨hmem, hle, hall⟩ := crBestAux t r0
    rw [hr] at hmem hle hall
    refine ⟨hmem, ?_⟩
    intro x hx
    rcases List.mem_cons.mp hx with hh | hh
    · subst hh
      exact hle
    · exact hall x hh

set_option maxRecDepth 16000 in
set_option maxHeartbeats 4000000 in
/-- C4 counterexample: buffer [66,65,65,65,65,66,65,65,65,65] with requested
bounds (6, 6), sanitized to maxW = maxL = 4.  The descent minima are
(w*, l*) = (3, 2); the pair (3, 3) lies in the 3x3 neighbourhood and in the
legal range, yet it is never evaluated — the refinement loop only schedules
range(w*-1, w*+1) x range(l*-1, l*+1), a 2x2 block. -/
theorem C4_no_3x3_refinement_counterexample :
    sanitize_buffer_address [66, 65, 65, 65, 65, 66, 65, 65, 65, 65] 6 = 4 ∧
    crLW [66, 65, 65, 65, 65, 66, 65, 65, 65, 65] 4 4 = 3 ∧
    crLL [66, 65, 65, 65, 65, 66, 65, 65, 65, 65] 4 4 = 2 ∧
    ((2 : Nat) < 3 ∧ 3 ≤ 4 ∧ 0 < 3 ∧ 3 ≤ 4) ∧
    (find_best_compression [66, 65, 65, 65, 65, 66, 65, 65, 65, 65] 6 6).1.all
      (fun r => !(r.window_bits == 3 && r.length_bits == 3)) = true := by decide

set_option maxHeartbeats 1600000 in
/-- C4 amended: for every buffer and requested bounds, (1) the chosen result's
predicted size is minimal among all evaluated results; (2) the refinement
stage schedules exactly the 2x2 block \{w*-1, w*\} x \{l*-1, l*\} intersected
with the legal range (not the full 3x3 neighbourhood); (3) every scheduled
pair is evaluated before the final choice. -/
theorem C4_search_amended (buffer : List Nat) (mw0 ml0 : Nat) :
    (∀ r, (find_best_compression buffer mw0 ml0).2 = some r →
      r ∈ (find_best_compression buffer mw0 ml0).1 ∧
      ∀ x ∈ (find_best_compression buffer mw0 ml0).1, r.size ≤ x.size) ∧
    (∀ lw ll maxW maxL w l, (w, l) ∈ crAdditional lw ll maxW maxL ↔
      ((w = lw - 1 ∨ w = lw) ∧ (l = ll - 1 ∨ l = ll) ∧
        2 < w ∧ w ≤ maxW ∧ 0 < l ∧ l ≤ maxL)) ∧
    (∀ c ∈ crAdditional
        (crLW buffer (sanitize_buffer_address buffer mw0)
          (sanitize_buffer_address buffer ml0))
        (crLL buffer (sanitize_buffer_address buffer mw0)
          (sanitize_buffer_address buffer ml0))
        (sanitize_buffer_address buffer mw0) (sanitize_buffer_address buffer ml0),
      ∃ r ∈ (find_best_compression buffer mw0 ml0).1,
        r.window_bits = c.1 ∧ r.length_bits = c.2) := by
  refine ⟨?_, ?_, ?_⟩
  · intro r hr
    exact crBest_spec _ r hr
  · intro lw ll maxW maxL w l
    exact crAdditional_mem lw ll maxW maxL w l
  · intro c hc
    have hleg : ∀ d ∈ crAdditional
        (crLW buffer (sanitize_buffer_address buffer mw0)
          (sanitize_buffer_address buffer ml0))
        (crLL buffer (sanitize_buffer_address buffer mw0)
          (sanitize_buffer_address buffer ml0))
        (sanitize_buffer_address buffer mw0) (sanitize_buffer_address buffer ml0),
        2 < d.1 ∧ d.1 ≤ sanitize_buffer_address buffer mw0 ∧
        0 < d.2 ∧ d.2 ≤ sanitize_buffer_address buffer ml0 := by
      intro d hd
      have h := (crAdditional_mem _ _ _ _ d.1 d.2).mp hd
      exact ⟨h.2.2.1, h.2.2.2.1, h.2.2.2.2.1, h.2.2.2.2.2⟩
    exact crStage3_covers buffer _ _ _ _ hleg c hc

set_option maxRecDepth 16000 in
set_option maxHeartbeats 4000000 in
/-- Closed witness for the amended C4 on the 10-byte buffer: the chosen result
(4, 4) of size 9 is evaluated and minimal. -/
theorem C4_search_amended_witness :
    CRes.mk 4 4 9 ∈ (find_best_compression [66, 65, 65, 65, 65, 66, 65, 65, 65, 65] 6 6).1 ∧
    ∀ x ∈ (find_best_compression [66, 65, 65, 65, 65, 66, 65, 65, 65, 65] 6 6).1,
      (CRes.mk 4 4 9).size ≤ x.size :=
  (C4_search_amended [66, 65, 65, 65, 65, 66, 65, 65, 65, 65] 6 6).1
    (CRes.mk 4 4 9) (by decide)

set_option maxRecDepth 8000 in
/-- C5 counterexample: LZSSCodec.__init__ accepts out-of-range parameters
(window_bits 100 > 16, length_bits 50 > 16) and stores them unchanged; and
from_binary on a container truncated mid-token returns ordinary partial
output ([48, 0, 0]) instead of failing — no OutOfRange or Truncated paths
exist in the code. -/
theorem C5_no_failfast_counterexample :
    ((LZSSCodec.init 100 50 22).max_window_bits = 100 ∧
     (LZSSCodec.init 100 50 22).max_length_bits = 50) ∧
    (LZSSCodec.init 4 4 22).from_binary
        (((LZSSCodec.init 4 4 22).to_binary
          ((LZSSCodec.init 4 4 22).compress [97, 98, 99]).1).take 5) = [48, 0, 0] := by
  decide

/-- C5 amended: construction performs no validation — the parameters are
stored as given — and reading an exhausted bitstream returns value 0 with the
stream unchanged (the break in Bitstream.read), so malformed or truncated
input yields ordinary output rather than an exception. -/
theorem C5_no_validation_amended (w l sbc : Nat) (B : List Nat) (p wp cb count : Nat)
    (hp8 : p % 8 = 0) (hpe : B.length ≤ p / 8) :
    (LZSSCodec.init w l sbc).max_window_bits = w ∧
    (LZSSCodec.init w l sbc).max_length_bits = l ∧
    (LZSSCodec.init w l sbc).size_bit_count = sbc ∧
    Bitstream.read ⟨B, p, wp, cb⟩ count = (0, ⟨B, p, wp, cb⟩) := by
  refine ⟨rfl, rfl, rfl, ?_⟩
  cases count with
  | zero => rfl
  | succ n =>
    show (if (p % 8 == 0) = true then
        if B.length ≤ p / 8 then ((0 : Nat), (⟨B, p, wp, cb⟩ : Bitstream))
        else
          Bitstream.readAux ⟨B, p + 1, wp, B.getD (p / 8) 0⟩
            ((0 <<< 1) ||| ((B.getD (p / 8) 0 >>> (7 - p % 8)) &&& 1)) n
      else
        Bitstream.readAux ⟨B, p + 1, wp, cb⟩
          ((0 <<< 1) ||| ((cb >>> (7 - p % 8)) &&& 1)) n) =
      ((0 : Nat), (⟨B, p, wp, cb⟩ : Bitstream))
    rw [if_pos (by simp [hp8]), if_pos hpe]

/-- Closed witness for the amended C5: out-of-range construction succeeds and
an exhausted stream reads as zero. -/
theorem C5_no_validation_amended_witness :
    (LZSSCodec.init 100 50 22).max_window_bits = 100 ∧
    (LZSSCodec.init 100 50 22).max_length_bits = 50 ∧
    (LZSSCodec.init 100 50 22).size_bit_count = 22 ∧
    Bitstream.read ⟨[1, 2], 16, 0, 0⟩ 5 = (0, ⟨[1, 2], 16, 0, 0⟩) :=
  C5_no_validation_amended 100 50 22 [1, 2] 16 0 0 5 (by decide) (by decide)

end BufferProc
